import Mathlib

/-! # DEV-BFX: the Brainfuck execution engine

A shallow embedding of the execution core of the two source files of the
repository:

* `Dev-BFX.cpp`: class `BrainfuckCompiler` (instruction filter, jump
  resolver, wrap-around tape machine, emitters of C and C++ text), the
  free function `run`, and the editor functions `input_Bf`, `saveProgram`
  and `loadProgram`;
* `Trae-BFX.1.0.cpp`: the free function `run` (bounds-checked machine
  with its own bracket scan), and `interpret` and `step` of its class
  `BrainfuckCompiler`.

Conventions of the embedding.

* Program text is a `List Char`; bytes (tape cells, standard input,
  standard output) are natural numbers, reduced `% 256` where the source
  stores them in an `unsigned char` / `uint8_t`.
* The standard streams are explicit: `cin` is the list of bytes still to
  be read, `cout` the list of bytes written so far, literally as the
  source writes them (labels and newlines included).
* An access outside a `std::vector`, `std::string` or C array is
  undefined behaviour in the source; the embedding stops with a `Fault`
  instead of inventing a value. The two `std::runtime_error`s of
  `precomputeJumps` are faults as well: no code of `Dev-BFX.cpp` catches
  them.
* Loops that need not terminate take a fuel argument and return `none`
  when it runs out; the loop test is made before fuel is consulted, so a
  finished run never reports exhaustion.
* `size_t` / `int` counters are natural numbers: every counter of the
  modelled code is an index into the program text or the tape, far below
  the word size.
-/

/-- Ways in which the modelled code stops abnormally. -/
inductive Fault where
  /-- `std::runtime_error("Unmatched ']' at position " + std::to_string(i))`. -/
  | unmatchedClose (pos : Nat)
  /-- `std::runtime_error("Unmatched '[' in code")`; the message carries no index. -/
  | unmatchedOpen
  /-- An element access outside a jump table (undefined behaviour). -/
  | jumpTableOutOfRange
  /-- An element access outside the tape (undefined behaviour). -/
  | memoryOutOfRange
  /-- An element access past the terminator of the program text (undefined behaviour). -/
  | codeOutOfRange
  deriving DecidableEq, Repr

/-- The bytes of a string literal of the source. -/
def bytesOf (s : String) : List Nat := s.toList.map Char.toNat

/-- The text up to (not including) the first line feed, and what follows that line feed:
`std::getline(std::cin, input)` on the bytes still to be read. At end of input the
line is empty and nothing is consumed. -/
def getline (cin : List Nat) : List Nat × List Nat :=
  (cin.takeWhile (fun b => b ≠ 10), (cin.dropWhile (fun b => b ≠ 10)).drop 1)

/-- The index lies inside the vector: `i < v.size()`. Written through the lookup so
that evaluating it inspects only the first `i + 1` elements. -/
def inRange (v : List Nat) (i : Nat) : Bool := (v.get? i).isSome

namespace DevBFX

/-- Line 37: `static const size_t MEMORY_SIZE = 30000;`. -/
def MEMORY_SIZE : Nat := 30000

/-- The data members of class `BrainfuckCompiler` (lines 27-34), together with
the two standard streams its member functions use. -/
structure BrainfuckCompiler where
  memory : List Nat
  data_pointer : Nat
  code : List Char
  instruction_pointer : Nat
  jump_forward : List Nat
  jump_backward : List Nat
  cin : List Nat
  cout : List Nat
  deriving DecidableEq, Repr

/-- The constructor, lines 39-42: a zeroed tape of `MEMORY_SIZE` cells and two
jump tables resized to `MEMORY_SIZE` entries (value-initialised to 0). -/
def BrainfuckCompiler.new (cin : List Nat) : BrainfuckCompiler :=
  { memory := List.replicate MEMORY_SIZE 0
    data_pointer := 0
    code := []
    instruction_pointer := 0
    jump_forward := List.replicate MEMORY_SIZE 0
    jump_backward := List.replicate MEMORY_SIZE 0
    cin := cin
    cout := [] }

/-- The `for` loop of `precomputeJumps`, lines 48-64, from index `i` on: the first
argument is the text from index `i`, then `i`, `loop_stack` (top first) and the two
jump tables. Returns the stack and the tables at the end of the scan. -/
def precomputeJumpsLoop :
    List Char → Nat → List Nat → List Nat → List Nat →
      Except Fault (List Nat × List Nat × List Nat)
  | [], _, loop_stack, jf, jb => .ok (loop_stack, jf, jb)
  | c :: rest, i, loop_stack, jf, jb =>
    if c = '[' then
      precomputeJumpsLoop rest (i + 1) (i :: loop_stack) jf jb
    else if c = ']' then
      match loop_stack with
      | [] => .error (.unmatchedClose i)
      | start :: popped =>
        if inRange jf start then
          if inRange jb i then
            precomputeJumpsLoop rest (i + 1) popped (jf.set start i) (jb.set i start)
          else .error .jumpTableOutOfRange
        else .error .jumpTableOutOfRange
    else
      precomputeJumpsLoop rest (i + 1) loop_stack jf jb

/-- Lines 45-69: `precomputeJumps`. -/
def precomputeJumps (m : BrainfuckCompiler) : Except Fault BrainfuckCompiler :=
  match precomputeJumpsLoop m.code 0 [] m.jump_forward m.jump_backward with
  | .error e => .error e
  | .ok (loop_stack, jf, jb) =>
    if loop_stack.isEmpty then .ok { m with jump_forward := jf, jump_backward := jb }
    else .error .unmatchedOpen

/-- The test of line 77-78: the character is one of the eight instructions. -/
def isInstruction (c : Char) : Bool :=
  c == '>' || c == '<' || c == '+' || c == '-' ||
  c == '.' || c == ',' || c == '[' || c == ']'

/-- Lines 73-81 of `loadCode`: `code.clear()` and the loop appending each
instruction character of the argument to `code`. -/
def loadCodeFilter (brainfuck_code : List Char) : List Char :=
  brainfuck_code.foldl (fun code c => if isInstruction c then code ++ [c] else code) []

/-- Lines 72-84: `loadCode`. -/
def loadCode (m : BrainfuckCompiler) (brainfuck_code : List Char) :
    Except Fault BrainfuckCompiler :=
  precomputeJumps { m with code := loadCodeFilter brainfuck_code }

/-- The label written before the cell by `.` (line 157). -/
def outputLabel : List Nat := bytesOf "Output(only-one-character) >> "

/-- The label written by `,` before it reads (line 162). -/
def inputLabel : List Nat := bytesOf "Input(only-one-character,any-extra-is-ignored) >> "

/-- Lines 137-181: `executeInstruction`. `code[instruction_pointer]` is the
terminating `'\0'` at `instruction_pointer = code.length()` (no case of the switch
matches it) and undefined beyond. -/
def executeInstruction (m : BrainfuckCompiler) : Except Fault BrainfuckCompiler :=
  if m.code.length < m.instruction_pointer then .error .codeOutOfRange
  else
    let instruction := (m.code.get? m.instruction_pointer).getD (Char.ofNat 0)
    if instruction = '>' then
      .ok { m with data_pointer := (m.data_pointer + 1) % MEMORY_SIZE }
    else if instruction = '<' then
      .ok { m with data_pointer :=
              if m.data_pointer = 0 then MEMORY_SIZE - 1 else m.data_pointer - 1 }
    else if instruction = '+' then
      match m.memory.get? m.data_pointer with
      | none => .error .memoryOutOfRange
      | some v => .ok { m with memory := m.memory.set m.data_pointer ((v + 1) % 256) }
    else if instruction = '-' then
      match m.memory.get? m.data_pointer with
      | none => .error .memoryOutOfRange
      | some v => .ok { m with memory := m.memory.set m.data_pointer ((v + 255) % 256) }
    else if instruction = '.' then
      match m.memory.get? m.data_pointer with
      | none => .error .memoryOutOfRange
      | some v => .ok { m with cout := m.cout ++ (outputLabel ++ [v] ++ [10]) }
    else if instruction = ',' then
      let input := getline m.cin
      if inRange m.memory m.data_pointer then
        .ok { m with
                cout := m.cout ++ inputLabel
                cin := input.2
                memory := m.memory.set m.data_pointer (input.1.headD 0 % 256) }
      else .error .memoryOutOfRange
    else if instruction = '[' then
      match m.memory.get? m.data_pointer with
      | none => .error .memoryOutOfRange
      | some v =>
        if v = 0 then
          match m.jump_forward.get? m.instruction_pointer with
          | none => .error .jumpTableOutOfRange
          | some target => .ok { m with instruction_pointer := target }
        else .ok m
    else if instruction = ']' then
      match m.memory.get? m.data_pointer with
      | none => .error .memoryOutOfRange
      | some v =>
        if v ≠ 0 then
          match m.jump_backward.get? m.instruction_pointer with
          | none => .error .jumpTableOutOfRange
          | some target => .ok { m with instruction_pointer := target }
        else .ok m
    else .ok m

/-- The `while` loop of `interpret`, lines 104-107. -/
def interpretLoop : Nat → BrainfuckCompiler → Option (Except Fault BrainfuckCompiler)
  | 0, m => if m.instruction_pointer < m.code.length then none else some (.ok m)
  | fuel + 1, m =>
    if m.instruction_pointer < m.code.length then
      match executeInstruction m with
      | .error e => some (.error e)
      | .ok m1 => interpretLoop fuel { m1 with instruction_pointer := m1.instruction_pointer + 1 }
    else some (.ok m)

/-- Lines 99-108: `interpret`. -/
def interpret (fuel : Nat) (m : BrainfuckCompiler) : Option (Except Fault BrainfuckCompiler) :=
  interpretLoop fuel
    { m with
        data_pointer := 0
        instruction_pointer := 0
        memory := m.memory.map (fun _ => 0) }

/-- Lines 111-119: `step`; the Boolean is the value returned. -/
def step (m : BrainfuckCompiler) : Except Fault (Bool × BrainfuckCompiler) :=
  if m.instruction_pointer ≥ m.code.length then .ok (false, m)
  else
    match executeInstruction m with
    | .error e => .error e
    | .ok m1 => .ok (true, { m1 with instruction_pointer := m1.instruction_pointer + 1 })

/-- Lines 1886-1891: the free function `run`, on a process whose standard input
holds `cin`. The result pairs the returned `int` with the machine at return. -/
def run (fuel : Nat) (program : List Char) (cin : List Nat) :
    Option (Except Fault (Int × BrainfuckCompiler)) :=
  match loadCode (BrainfuckCompiler.new cin) program with
  | .error e => some (.error e)
  | .ok bfc =>
    match interpret fuel bfc with
    | none => none
    | some (.error e) => some (.error e)
    | some (.ok done) => some (.ok (0, done))

end DevBFX

namespace TraeBFX

/-- Line 3421: `const int MEMORY_SIZE = 30000;`. -/
def MEMORY_SIZE : Nat := 30000

/-- Line 3422: `const int PROGRAM_SIZE = 10000;`. -/
def PROGRAM_SIZE : Nat := 10000

/-- The local variables of `run` (lines 3644-3654) during the second scan, with the
two standard streams. `pointer` only ever moves between the two guards of `<` and
`>`, so it is kept as a natural number; `i` is an `int` that takes the value read
from `loop_map`, which may be the sentinel `-1`. -/
structure RunState where
  memory : List Nat
  pointer : Nat
  loop_map : List Int
  i : Int
  cin : List Nat
  cout : List Nat
  deriving DecidableEq, Repr

/-- The first scan of `run`, lines 3656-3668, from index `i` on. The Boolean tells
whether the scan reached the end of the program (`false`: the `return 2` taken at a
`]` met with an empty stack); with it come the stack (top first) and `loop_map` as
they are at that moment. A write outside `loop_map` is a fault. -/
def buildLoopMap :
    List Char → Nat → List Nat → List Int → Except Fault (Bool × List Nat × List Int)
  | [], _, loop_stack, loop_map => .ok (true, loop_stack, loop_map)
  | c :: rest, i, loop_stack, loop_map =>
    if c = '[' then
      buildLoopMap rest (i + 1) (i :: loop_stack) loop_map
    else if c = ']' then
      match loop_stack with
      | [] => .ok (false, [], loop_map)
      | start :: popped =>
        if (loop_map.get? start).isSome then
          if ((loop_map.set start (i : Int)).get? i).isSome then
            buildLoopMap rest (i + 1) popped ((loop_map.set start (i : Int)).set i (start : Int))
          else .error .jumpTableOutOfRange
        else .error .jumpTableOutOfRange
    else
      buildLoopMap rest (i + 1) loop_stack loop_map

/-- What one pass through the body of the second `for` loop does: fall through to
`i++`, or leave `run` with a return value. -/
inductive Flow where
  | next (s : RunState)
  | ret (code : Int) (s : RunState)
  deriving DecidableEq, Repr

/-- The `switch` of lines 3677-3721 at the current `i` (which the loop test has
found below the program length). -/
def runBody (program : List Char) (s : RunState) : Except Fault Flow :=
  if s.i < 0 then .error .codeOutOfRange
  else
    match program.get? s.i.toNat with
    | none => .error .codeOutOfRange
    | some c =>
      if c = '>' then
        if s.pointer = MEMORY_SIZE - 1 then .ok (.ret 1 s)
        else .ok (.next { s with pointer := s.pointer + 1 })
      else if c = '<' then
        if s.pointer = 0 then .ok (.ret 1 s)
        else .ok (.next { s with pointer := s.pointer - 1 })
      else if c = '+' then
        match s.memory.get? s.pointer with
        | none => .error .memoryOutOfRange
        | some v => .ok (.next { s with memory := s.memory.set s.pointer ((v + 1) % 256) })
      else if c = '-' then
        match s.memory.get? s.pointer with
        | none => .error .memoryOutOfRange
        | some v => .ok (.next { s with memory := s.memory.set s.pointer ((v + 255) % 256) })
      else if c = '.' then
        match s.memory.get? s.pointer with
        | none => .error .memoryOutOfRange
        | some v => .ok (.next { s with cout := s.cout ++ [v] })
      else if c = ',' then
        match s.cin.dropWhile (fun b => b = 10) with
        | [] => .ok (.next { s with cin := [] })
        | b :: unread =>
          if (s.memory.get? s.pointer).isSome then
            .ok (.next { s with cin := unread, memory := s.memory.set s.pointer (b % 256) })
          else .error .memoryOutOfRange
      else if c = '[' then
        match s.memory.get? s.pointer with
        | none => .error .memoryOutOfRange
        | some v =>
          if v = 0 then
            match s.loop_map.get? s.i.toNat with
            | none => .error .jumpTableOutOfRange
            | some target => .ok (.next { s with i := target })
          else .ok (.next s)
      else if c = ']' then
        match s.memory.get? s.pointer with
        | none => .error .memoryOutOfRange
        | some v =>
          if v ≠ 0 then
            match s.loop_map.get? s.i.toNat with
            | none => .error .jumpTableOutOfRange
            | some target => .ok (.next { s with i := target })
          else .ok (.next s)
      else .ok (.next s)

/-- The second `for` loop of `run`, lines 3676-3723, with the final `return 0`. -/
def runLoop : Nat → List Char → RunState → Option (Except Fault (Int × RunState))
  | 0, program, s => if s.i < (program.length : Int) then none else some (.ok (0, s))
  | fuel + 1, program, s =>
    if s.i < (program.length : Int) then
      match runBody program s with
      | .error e => some (.error e)
      | .ok (.ret code s1) => some (.ok (code, s1))
      | .ok (.next s1) => runLoop fuel program { s1 with i := s1.i + 1 }
    else some (.ok (0, s))

/-- The locals of `run` as initialised by lines 3644-3651. -/
def RunState.init (cin : List Nat) : RunState :=
  { memory := List.replicate MEMORY_SIZE 0
    pointer := 0
    loop_map := List.replicate PROGRAM_SIZE (-1)
    i := 0
    cin := cin
    cout := [] }

/-- Lines 3643-3724: the free function `run`, on a process whose standard input holds
`cin`. The result pairs the returned `int` with the locals at return. Both compile
errors (`]` with an empty stack during the first scan, a non-empty stack after it)
return 2 before the second scan starts. -/
def run (fuel : Nat) (program : List Char) (cin : List Nat) :
    Option (Except Fault (Int × RunState)) :=
  match buildLoopMap program 0 [] (RunState.init cin).loop_map with
  | .error e => some (.error e)
  | .ok (reachedEnd, loop_stack, loop_map) =>
    if reachedEnd && loop_stack.isEmpty then
      runLoop fuel program { RunState.init cin with loop_map := loop_map }
    else some (.ok (2, { RunState.init cin with loop_map := loop_map }))

end TraeBFX

/-! ## Specification-side vocabulary -/

/-- The eight-symbol instruction alphabet of the language. -/
def alphabet : List Char := ['>', '<', '+', '-', '.', ',', '[', ']']

/-- The number of `[` in a text. -/
def opens (text : List Char) : Nat := text.count '['

/-- The number of `]` in a text. -/
def closes (text : List Char) : Nat := text.count ']'

/-- Brackets are balanced: no prefix holds more `]` than `[`, and the whole text holds
as many `]` as `[`. -/
def BracketsBalanced (text : List Char) : Prop :=
  (∀ k, k ≤ text.length → closes (text.take k) ≤ opens (text.take k)) ∧
    closes text = opens text

/-- The scenario program of the specification (the head of a greeting). -/
def helloHead : List Char :=
  "++++++++[>++++[>++>+++>+++>+<<<<-]>+>+>->>+[<]<-]>>.>---.+++++++..+++.".toList

namespace DevBFX

/-- What a caller of `run` observes: the returned `int` and the bytes on standard
output; `none` inside when the run stopped with a fault. -/
def observed (r : Option (Except Fault (Int × BrainfuckCompiler))) :
    Option (Option (Int × List Nat)) :=
  r.map (fun e => match e with
    | .ok (code, done) => some (code, done.cout)
    | .error _ => none)

/-- The machine with another standard input. -/
def setCin (m : BrainfuckCompiler) (cin : List Nat) : BrainfuckCompiler := { m with cin := cin }

/-- The value of the current cell `memory[data_pointer]` of a machine. -/
def currentCell (m : BrainfuckCompiler) : Option Nat := m.memory.get? m.data_pointer

/-- The current cell of the machine a finished run leaves behind. -/
def finalCell (r : Option (Except Fault (Int × BrainfuckCompiler))) : Option Nat :=
  match r with
  | some (.ok (_, done)) => currentCell done
  | _ => none

end DevBFX

/-- The state of the scan of `precomputeJumps` after the first `i` characters of
`code`, as a property of `loop_stack` and the two jump tables: the stack holds
distinct indices of `[` below `i`; every `]` below `i` is paired, through both
tables, with an earlier `[` that has left the stack; every `[` below `i` is either
still on the stack or paired, through both tables, with a later `]` below `i`. -/
def JumpInv (code : List Char) (i : Nat) (stack jf jb : List Nat) : Prop :=
  (∀ s, s ∈ stack → s < i ∧ code[s]? = some '[') ∧
  stack.Nodup ∧
  (∀ b, b < i → code[b]? = some ']' →
    ∃ a, jb[b]? = some a ∧ a < b ∧ code[a]? = some '[' ∧ jf[a]? = some b ∧ a ∉ stack) ∧
  (∀ a, a < i → code[a]? = some '[' →
    a ∈ stack ∨
      ∃ b, jf[a]? = some b ∧ a < b ∧ b < i ∧ code[b]? = some ']' ∧ jb[b]? = some a)

/-- The message of the `std::runtime_error` thrown by `precomputeJumps` (lines 55 and
67 of `Dev-BFX.cpp`), as returned by `what()`; `none` for the faults that are not
exceptions. -/
def Fault.what : Fault → Option String
  | .unmatchedClose pos => some ("Unmatched ']' at position " ++ toString pos)
  | .unmatchedOpen => some "Unmatched '[' in code"
  | _ => none

/-- The nesting depth reached after reading a text from depth `d`; `none` as soon as
a `]` is met at depth 0. -/
def bracketDepth : Nat → List Char → Option Nat
  | d, [] => some d
  | d, c :: rest =>
    if c = '[' then bracketDepth (d + 1) rest
    else if c = ']' then
      match d with
      | 0 => none
      | e + 1 => bracketDepth e rest
    else bracketDepth d rest

/-- The first list is the beginning of the second. -/
def startsWith : List Char → List Char → Bool
  | [], _ => true
  | _ :: _, [] => false
  | a :: as, b :: bs => a == b && startsWith as bs

/-- The text occurs somewhere in the line: `line.find(text) != std::string::npos`. -/
def findIn (text line : List Char) : Bool := line.tails.any (startsWith text)

/-- The lines that repeated `std::getline(file, line)` delivers for a file text: the
pieces between line feeds, a last piece without line feed included when not empty. -/
def getlines : List Char → List Char → List (List Char)
  | [], line => if line.isEmpty then [] else [line]
  | c :: rest, line => if c = '\n' then line :: getlines rest [] else getlines rest (line ++ [c])

namespace DevBFX

/-- The line that `compileToC` emits for one instruction after the indentation
(the `switch` of lines 200-225; a character that is no instruction emits nothing). -/
def compileToC_line (instruction : Char) : String :=
  if instruction = '>' then "++ptr;"
  else if instruction = '<' then "--ptr;"
  else if instruction = '+' then "++*ptr;"
  else if instruction = '-' then "--*ptr;"
  else if instruction = '.' then "putchar(*ptr);"
  else if instruction = ',' then "*ptr = getchar();"
  else if instruction = '[' then "while (*ptr) \x7b"
  else if instruction = ']' then "\x7d"
  else ""

/-- Lines 188-192 of `compileToC`: the text written before the loop. -/
def compileToC_prologue : String :=
  "#include <bits/stdc++.h>\n" ++ "using namespace std;\n\n" ++ "int main() \x7b\n" ++
    "    unsigned char memory[" ++ toString MEMORY_SIZE ++ "] = \x7b0\x7d;\n" ++
    "    unsigned char *ptr = memory;\n\n"

/-- Lines 230-231 of `compileToC`: the text written after the loop. -/
def compileToC_epilogue : String := "    return 0;\n" ++ "\x7d\n"

/-- Lines 185-234: `compileToC`. -/
def compileToC (m : BrainfuckCompiler) : String :=
  m.code.foldl
      (fun c_code instruction => c_code ++ "    " ++ compileToC_line instruction ++ "\n")
      compileToC_prologue ++
    compileToC_epilogue

/-- Lines 1509-1512: `struct ProgramData`. -/
structure ProgramData where
  original : List Char
  filtered : List Char
  deriving DecidableEq, Repr

/-- The filtering loop of `input_Bf`, lines 1843-1880, over the text still to be read.
`skip` is set by the `i++` that precedes a `continue`: the next character is passed
over. `next_ch` is `'\0'` at the last character. -/
def input_Bf_loop : List Char → Bool → Bool → Bool → List Char → List Char
  | [], _, _, _, filtered => filtered
  | ch :: rest, skip, inMultiLineComment, inSingleLineComment, filtered =>
    if skip then input_Bf_loop rest false inMultiLineComment inSingleLineComment filtered
    else
      let next_ch := rest.headD (Char.ofNat 0)
      if !inSingleLineComment && ch = '/' && next_ch = '*' then
        input_Bf_loop rest true true inSingleLineComment filtered
      else if inMultiLineComment && ch = '*' && next_ch = '/' then
        input_Bf_loop rest true false inSingleLineComment filtered
      else if inMultiLineComment then
        input_Bf_loop rest false inMultiLineComment inSingleLineComment filtered
      else if !inMultiLineComment && ch = '/' && next_ch = '/' then
        input_Bf_loop rest true inMultiLineComment true filtered
      else if inSingleLineComment && ch = '\n' then
        input_Bf_loop rest false inMultiLineComment false filtered
      else if inSingleLineComment then
        input_Bf_loop rest false inMultiLineComment inSingleLineComment filtered
      else if isInstruction ch then
        input_Bf_loop rest false inMultiLineComment inSingleLineComment (filtered ++ [ch])
      else
        input_Bf_loop rest false inMultiLineComment inSingleLineComment filtered

/-- The text that `input_Bf` builds from the lines of the editor, lines 1832-1835:
every line followed by a line feed. -/
def input_Bf_text (lines : List (List Char)) : List Char :=
  lines.foldl (fun input line => input ++ (line ++ ['\n'])) []

/-- Lines 1669-1882: `input_Bf`, from the lines the editing loop ends with (the
keyboard handling that produces them is not modelled). -/
def input_Bf (lines : List (List Char)) : ProgramData :=
  { original := input_Bf_text lines
    filtered := input_Bf_loop (input_Bf_text lines) false false false [] }

/-- Lines 1902-1934: the text that `saveProgram` writes to the file it opens. -/
def saveProgram (programData : ProgramData) : List Char :=
  "/* Brainfuck Program with Comments */\n".toList ++
    "/* Saved from Brainfuck IDE */\n\n".toList ++
    programData.original ++
    "\n\n/* Filtered executable code: */\n".toList ++
    ("/* ".toList ++ programData.filtered ++ " */\n".toList)

/-- The state of the reading loop of `loadProgram`. -/
structure LoadState where
  data : ProgramData
  inCommentBlock : Bool
  deriving DecidableEq, Repr

/-- The body of the `while` loop of `loadProgram`, lines 1945-1972, for one line. -/
def loadProgram_line (st : LoadState) (line : List Char) : LoadState :=
  let data := { st.data with original := st.data.original ++ (line ++ ['\n']) }
  if findIn "/* Brainfuck Program with Comments */".toList line ||
      findIn "/* Saved from Brainfuck IDE */".toList line ||
      findIn "/* Filtered executable code: */".toList line then
    { st with data := data }
  else
    let inCommentBlock :=
      if line.length ≥ 2 && line.take 2 == ['/', '*'] then true else st.inCommentBlock
    if inCommentBlock && line.length ≥ 2 && line.drop (line.length - 2) == ['*', '/'] then
      { data := data, inCommentBlock := false }
    else if inCommentBlock then
      { data := data, inCommentBlock := inCommentBlock }
    else
      { data := { data with filtered := data.filtered ++ line.filter isInstruction }
        inCommentBlock := inCommentBlock }

/-- Lines 1937-1979: `loadProgram`, from the text of the file it opens. -/
def loadProgram (fileText : List Char) : ProgramData :=
  ((getlines fileText []).foldl loadProgram_line
    { data := { original := [], filtered := [] }, inCommentBlock := false }).data

/-- The machine that `loadCode` leaves when it is called on the machine a finished
run left behind; `none` when the run or the load did not finish normally. -/
def loadAfterRun (fuel : Nat) (first second : List Char) (cin : List Nat) :
    Option BrainfuckCompiler :=
  match run fuel first cin with
  | some (.ok (_, used)) =>
    match loadCode used second with
    | .ok reloaded => some reloaded
    | .error _ => none
  | _ => none

end DevBFX

/-- The lines emitted for a program, one after the other: for every character four
spaces, the line of the emitter `line` for it, and a line feed. -/
def emittedLines (line : Char → String) : List Char → String
  | [] => ""
  | instruction :: rest => ("    " ++ line instruction ++ "\n") ++ emittedLines line rest

/-- The nesting depth in front of index `k`: the number of `[` minus the number of
`]` among the first `k` characters. -/
def depthBefore (code : List Char) (k : Nat) : Int :=
  (opens (code.take k) : Int) - (closes (code.take k) : Int)

/-- The `[` at index `i` and the `]` at index `j` match: `j` is the first index after
`i` behind which the depth is back to what it was in front of `i`. -/
def Matches (code : List Char) (i j : Nat) : Prop :=
  code[i]? = some '[' ∧ code[j]? = some ']' ∧ i < j ∧
    depthBefore code (j + 1) = depthBefore code i ∧
    ∀ k, i < k → k ≤ j → depthBefore code i < depthBefore code k

/-- What a scan for brackets knows about its stack (top first) after `i` characters:
every entry sits one level above the entry below it, and the depth has stayed above
the level of an entry ever since. -/
def StackInv (code : List Char) (i : Nat) : List Nat → Prop
  | [] => True
  | s :: below =>
    depthBefore code s = (below.length : Int) ∧
      (∀ k, s < k → k ≤ i → (below.length : Int) < depthBefore code k) ∧
      StackInv code i below

/-- The state of the scan of `precomputeJumps` after the first `i` characters, as far
as matching is concerned: the stack holds indices of `[` below `i`, one for every
open level, and every `]` below `i` has in `jump_backward` the `[` that matches it. -/
def MatchInv (code : List Char) (i : Nat) (stack jb : List Nat) : Prop :=
  (∀ s, s ∈ stack → s < i ∧ code[s]? = some '[') ∧
  depthBefore code i = (stack.length : Int) ∧
  StackInv code i stack ∧
  (∀ b a, b < i → code[b]? = some ']' → jb[b]? = some a → Matches code a b)

/-- The two jump tables resolve the brackets of the code: every `[` has in
`jump_forward` the `]` that matches it, every `]` has in `jump_backward` the `[` that
matches it, and each table entry is mirrored in the other table. -/
def Resolved (code : List Char) (jf jb : List Nat) : Prop :=
  (∀ a, code[a]? = some '[' →
    ∃ b, jf[a]? = some b ∧ jb[b]? = some a ∧ Matches code a b) ∧
  (∀ b, code[b]? = some ']' →
    ∃ a, jb[b]? = some a ∧ jf[a]? = some b ∧ Matches code a b)

namespace DevBFX

/-- The indices `i` and `j` form a pair of the jump tables of the machine: `i` holds
`[`, `j` holds `]`, `jump_forward[i] = j` and `jump_backward[j] = i`. -/
def IsPair (m : BrainfuckCompiler) (i j : Nat) : Prop :=
  m.code[i]? = some '[' ∧ m.code[j]? = some ']' ∧
    m.jump_forward[i]? = some j ∧ m.jump_backward[j]? = some i

/-- The character that `executeInstruction` switches on. -/
def fetched (m : BrainfuckCompiler) : Char :=
  m.code[m.instruction_pointer]?.getD (Char.ofNat 0)

end DevBFX

namespace TraeBFX

/-- The data members of class `BrainfuckCompiler` of `Trae-BFX.1.0.cpp` (lines
101-106), together with the two standard streams its member functions use. A cell
of `char memory[MEMORY_SIZE]` is kept as its byte value; `jumpTable`, a
`std::map<int, int>`, is kept as the list of its entries. The two `int` pointers
only take the values of indices, so they are natural numbers. -/
structure BrainfuckCompiler where
  memory : List Nat
  memoryPointer : Nat
  instructionPointer : Nat
  code : List Char
  jumpTable : List (Nat × Nat)
  cin : List Nat
  cout : List Nat
  deriving DecidableEq, Repr

namespace BrainfuckCompiler

/-- Line 101: `static const int MEMORY_SIZE = 30000;`. -/
def MEMORY_SIZE : Nat := 30000

/-- The byte that `memory[memoryPointer] = getchar()` stores, and the input left:
the next byte of standard input, or `EOF` (-1) narrowed to a `char`, which is the
byte 255. -/
def getchar (cin : List Nat) : Nat × List Nat :=
  match cin with
  | [] => (255, [])
  | b :: unread => (b % 256, unread)

/-- The statement `instructionPointer = jumpTable[instructionPointer];`:
`operator[]` of `std::map` returns the mapped value, and for a key that is absent
it first inserts the key with the value 0. -/
def jump (m : BrainfuckCompiler) : BrainfuckCompiler :=
  match m.jumpTable.lookup m.instructionPointer with
  | some target => { m with instructionPointer := target }
  | none =>
    { m with
        instructionPointer := 0
        jumpTable := (m.instructionPointer, 0) :: m.jumpTable }

/-- The `switch` inside the loop of `interpret`, lines 195-226, at an instruction
pointer that the loop test has found below the program length.
`(memoryPointer - 1 + MEMORY_SIZE) % MEMORY_SIZE` is written with the addition
first, the pointer being a natural number. -/
def interpretSwitch (m : BrainfuckCompiler) : Except Fault BrainfuckCompiler :=
  let instruction := (m.code.get? m.instructionPointer).getD (Char.ofNat 0)
  if instruction = '+' then
    match m.memory.get? m.memoryPointer with
    | none => .error .memoryOutOfRange
    | some v => .ok { m with memory := m.memory.set m.memoryPointer ((v + 1) % 256) }
  else if instruction = '-' then
    match m.memory.get? m.memoryPointer with
    | none => .error .memoryOutOfRange
    | some v => .ok { m with memory := m.memory.set m.memoryPointer ((v + 255) % 256) }
  else if instruction = '>' then
    .ok { m with memoryPointer := (m.memoryPointer + 1) % MEMORY_SIZE }
  else if instruction = '<' then
    .ok { m with memoryPointer := (m.memoryPointer + MEMORY_SIZE - 1) % MEMORY_SIZE }
  else if instruction = '.' then
    match m.memory.get? m.memoryPointer with
    | none => .error .memoryOutOfRange
    | some v => .ok { m with cout := m.cout ++ [v] }
  else if instruction = ',' then
    if (m.memory.get? m.memoryPointer).isSome then
      .ok { m with
              memory := m.memory.set m.memoryPointer (getchar m.cin).1
              cin := (getchar m.cin).2 }
    else .error .memoryOutOfRange
  else if instruction = '[' then
    match m.memory.get? m.memoryPointer with
    | none => .error .memoryOutOfRange
    | some v => if v = 0 then .ok (jump m) else .ok m
  else if instruction = ']' then
    match m.memory.get? m.memoryPointer with
    | none => .error .memoryOutOfRange
    | some v => if v ≠ 0 then .ok (jump m) else .ok m
  else .ok m

/-- Lines 193-229: `interpret`, the `while` loop around its own copy of the switch. -/
def interpret : Nat → BrainfuckCompiler → Option (Except Fault BrainfuckCompiler)
  | 0, m => if m.instructionPointer < m.code.length then none else some (.ok m)
  | fuel + 1, m =>
    if m.instructionPointer < m.code.length then
      match interpretSwitch m with
      | .error e => some (.error e)
      | .ok m1 => interpret fuel { m1 with instructionPointer := m1.instructionPointer + 1 }
    else some (.ok m)

/-- The `switch` of `step`, lines 243-272: the second, separately written copy. -/
def stepSwitch (m : BrainfuckCompiler) : Except Fault BrainfuckCompiler :=
  let instruction := (m.code.get? m.instructionPointer).getD (Char.ofNat 0)
  if instruction = '+' then
    match m.memory.get? m.memoryPointer with
    | none => .error .memoryOutOfRange
    | some v => .ok { m with memory := m.memory.set m.memoryPointer ((v + 1) % 256) }
  else if instruction = '-' then
    match m.memory.get? m.memoryPointer with
    | none => .error .memoryOutOfRange
    | some v => .ok { m with memory := m.memory.set m.memoryPointer ((v + 255) % 256) }
  else if instruction = '>' then
    .ok { m with memoryPointer := (m.memoryPointer + 1) % MEMORY_SIZE }
  else if instruction = '<' then
    .ok { m with memoryPointer := (m.memoryPointer + MEMORY_SIZE - 1) % MEMORY_SIZE }
  else if instruction = '.' then
    match m.memory.get? m.memoryPointer with
    | none => .error .memoryOutOfRange
    | some v => .ok { m with cout := m.cout ++ [v] }
  else if instruction = ',' then
    if (m.memory.get? m.memoryPointer).isSome then
      .ok { m with
              memory := m.memory.set m.memoryPointer (getchar m.cin).1
              cin := (getchar m.cin).2 }
    else .error .memoryOutOfRange
  else if instruction = '[' then
    match m.memory.get? m.memoryPointer with
    | none => .error .memoryOutOfRange
    | some v => if v = 0 then .ok (jump m) else .ok m
  else if instruction = ']' then
    match m.memory.get? m.memoryPointer with
    | none => .error .memoryOutOfRange
    | some v => if v ≠ 0 then .ok (jump m) else .ok m
  else .ok m

/-- Lines 238-275: `step`; the Boolean is the value returned. -/
def step (m : BrainfuckCompiler) : Except Fault (Bool × BrainfuckCompiler) :=
  if m.instructionPointer ≥ m.code.length then .ok (false, m)
  else
    match stepSwitch m with
    | .error e => .error e
    | .ok m1 => .ok (true, { m1 with instructionPointer := m1.instructionPointer + 1 })

/-- A caller that calls `step` until it returns `false`, as the debugger loop does;
`none` when the fuel runs out while `step` still returns `true`. -/
def stepUntilFalse : Nat → BrainfuckCompiler → Option (Except Fault BrainfuckCompiler)
  | 0, m =>
    match step m with
    | .ok (false, m1) => some (.ok m1)
    | _ => none
  | fuel + 1, m =>
    match step m with
    | .error e => some (.error e)
    | .ok (false, m1) => some (.ok m1)
    | .ok (true, m1) => stepUntilFalse fuel m1

end BrainfuckCompiler

end TraeBFX

/-- The nesting depth of the braces reached after reading a text from depth `d`;
`none` as soon as a closing brace is met at depth 0. -/
def braceDepth : Nat → List Char → Option Nat
  | d, [] => some d
  | d, c :: rest =>
    if c = '\x7b' then braceDepth (d + 1) rest
    else if c = '\x7d' then
      match d with
      | 0 => none
      | e + 1 => braceDepth e rest
    else braceDepth d rest

/-- The braces of a text are properly nested and balanced: the depth scan from 0
never meets a closing brace at depth 0 and ends at depth 0. -/
def BracesBalanced (text : String) : Prop := braceDepth 0 text.toList = some 0

/-- The number of lines of a text: the number of its line feeds. -/
def lineCount (text : String) : Nat := text.toList.count '\n'

namespace DevBFX

/-- The line that `compileToCpp` emits for one instruction after the indentation
(the `switch` of lines 252-277; a character that is no instruction emits nothing). -/
def compileToCpp_line (instruction : Char) : String :=
  if instruction = '>' then
    "data_pointer = (data_pointer + 1) % " ++ toString MEMORY_SIZE ++ ";"
  else if instruction = '<' then
    "data_pointer = (data_pointer == 0) ? " ++ toString (MEMORY_SIZE - 1) ++
      " : data_pointer - 1;"
  else if instruction = '+' then "memory[data_pointer]++;"
  else if instruction = '-' then "memory[data_pointer]--;"
  else if instruction = '.' then "cout << memory[data_pointer];"
  else if instruction = ',' then "cin >> memory[data_pointer];"
  else if instruction = '[' then "while (memory[data_pointer] != 0) \x7b"
  else if instruction = ']' then "\x7d"
  else ""

/-- Lines 240-244 of `compileToCpp`: the text written before the loop. -/
def compileToCpp_prologue : String :=
  "#include <bits/stdc++.h>\n" ++ "using namespace std;\n\n" ++ "int main() \x7b\n" ++
    "    vector<unsigned char> memory(" ++ toString MEMORY_SIZE ++ ", 0);\n" ++
    "    size_t data_pointer = 0;\n\n"

/-- Lines 282-283 of `compileToCpp`: the text written after the loop. -/
def compileToCpp_epilogue : String := "    return 0;\n" ++ "\x7d\n"

/-- Lines 237-286: `compileToCpp`. -/
def compileToCpp (m : BrainfuckCompiler) : String :=
  m.code.foldl
      (fun cpp_code instruction =>
        cpp_code ++ "    " ++ compileToCpp_line instruction ++ "\n")
      compileToCpp_prologue ++
    compileToCpp_epilogue

end DevBFX

/-- The operations that the statements emitted by `compileToC` and `compileToCpp`
denote, read by the rules of C and C++ (a reading of the emitted text, which the
emitters themselves do not contain):
a move of the cell index with or without reduction to the `size` cells, a change of
the current cell, an output, an input, and the two ends of a loop that runs while
the current cell is not 0. -/
inductive Operation where
  | right
  | rightWrap (size : Nat)
  | left
  | leftWrap (size : Nat)
  | increment
  | decrement
  | output
  | input
  | loopOpen
  | loopClose
  deriving DecidableEq, Repr

/-- The operation denoted by an emitted statement: `++ptr;` and `--ptr;` move the
pointer by one element, whatever its value; the two `data_pointer = ...` statements
move the index and reduce it to 30000 cells. -/
def denoted (line : String) : Option Operation :=
  if line = "++ptr;" then some .right
  else if line = "data_pointer = (data_pointer + 1) % 30000;" then some (.rightWrap 30000)
  else if line = "--ptr;" then some .left
  else if line = "data_pointer = (data_pointer == 0) ? 29999 : data_pointer - 1;" then
    some (.leftWrap 30000)
  else if line = "++*ptr;" ∨ line = "memory[data_pointer]++;" then some .increment
  else if line = "--*ptr;" ∨ line = "memory[data_pointer]--;" then some .decrement
  else if line = "putchar(*ptr);" ∨ line = "cout << memory[data_pointer];" then some .output
  else if line = "*ptr = getchar();" ∨ line = "cin >> memory[data_pointer];" then some .input
  else if line = "while (*ptr) \x7b" ∨ line = "while (memory[data_pointer] != 0) \x7b" then
    some .loopOpen
  else if line = "\x7d" then some .loopClose
  else none

/-- The cell index after an operation, from the cell index before it (the offset
`ptr - memory` of the C text, `data_pointer` of the C++ text). -/
def Operation.indexAfter : Operation → Int → Int
  | .right, p => p + 1
  | .rightWrap size, p => (p + 1) % (size : Int)
  | .left, p => p - 1
  | .leftWrap size, p => if p = 0 then (size : Int) - 1 else p - 1
  | _, p => p

namespace TraeBFX

/-- The table `loop_map` resolves the brackets of the program: the entry of every
`[` is the index of the `]` that matches it, the entry of every `]` is the index of
the `[` that matches it. -/
def LoopMapResolved (program : List Char) (loop_map : List Int) : Prop :=
  (∀ a, program[a]? = some '[' →
    ∃ b : Nat, loop_map[a]? = some (b : Int) ∧ Matches program a b) ∧
  (∀ b, program[b]? = some ']' →
    ∃ a : Nat, loop_map[b]? = some (a : Int) ∧ Matches program a b)

/-- The single table of the first scan of `run` and the two tables of
`precomputeJumps` of `Dev-BFX.cpp`, after the first `i` characters of the same text
with the same stack: the three tables have the same length, and at every bracket
below `i` that is not on the stack, `loop_map` holds what `jump_forward` holds for a
`[` and what `jump_backward` holds for a `]`. -/
def Agree (program : List Char) (i : Nat) (stack : List Nat) (loop_map : List Int)
    (jf jb : List Nat) : Prop :=
  jf.length = loop_map.length ∧ jb.length = loop_map.length ∧
  ∀ k, k < i → k ∉ stack →
    (program[k]? = some '[' → loop_map[k]? = jf[k]?.map Int.ofNat) ∧
    (program[k]? = some ']' → loop_map[k]? = jb[k]?.map Int.ofNat)

end TraeBFX

/-- The number of instruction characters among the first `k` characters of a program:
the index in the filtered code (as `loadCode` of `Dev-BFX.cpp` stores it) of the
character at index `k` of the program. -/
def instructionsBefore (program : List Char) (k : Nat) : Nat :=
  ((program.take k).filter DevBFX.isInstruction).length

/-- The bytes that the `.` of `Dev-BFX.cpp` writes for a sequence of cell values: each
value preceded by the label and followed by a line feed. -/
def labelled (bytes : List Nat) : List Nat :=
  bytes.flatMap (fun b => DevBFX.outputLabel ++ [b] ++ [10])

namespace TraeBFX

/-- What a caller of `run` observes: the returned `int` and the bytes on standard
output; `none` inside when the run stopped with a fault. -/
def observed (r : Option (Except Fault (Int × RunState))) :
    Option (Option (Int × List Nat)) :=
  r.map (fun e => match e with
    | .ok (code, done) => some (code, done.cout)
    | .error _ => none)

end TraeBFX

/-- The wrap-around machine of `Dev-BFX.cpp` in state `m` stands where the second scan
of the bounds-checked `run` of `Trae-BFX.1.0.cpp` stands in state `s` on `program`:
`m` runs the filtered program with resolved jump tables, its instruction pointer is
the index in the filtered code of the index `i` of `s`, tape and data pointer are the
same, the output of `m` is the output of `s` with every byte labelled, and `s` has a
resolved `loop_map`, its pointer inside the tape and a tape of `MEMORY_SIZE` cells. -/
def Simulates (program : List Char) (m : DevBFX.BrainfuckCompiler) (s : TraeBFX.RunState) :
    Prop :=
  m.code = program.filter DevBFX.isInstruction ∧
  0 ≤ s.i ∧ s.i ≤ (program.length : Int) ∧
  m.instruction_pointer = instructionsBefore program s.i.toNat ∧
  m.memory = s.memory ∧ m.data_pointer = s.pointer ∧ m.cout = labelled s.cout ∧
  Resolved m.code m.jump_forward m.jump_backward ∧
  TraeBFX.LoopMapResolved program s.loop_map ∧
  s.pointer < TraeBFX.MEMORY_SIZE ∧ s.memory.length = TraeBFX.MEMORY_SIZE

/-! # Theorems -/

/-! ## The instruction filter -/

namespace DevBFX

theorem isInstruction_iff (c : Char) : isInstruction c = true ↔ c ∈ alphabet := by
  simp [isInstruction, alphabet, or_assoc]

theorem loadCodeFilter_foldl (text acc : List Char) :
    text.foldl (fun code c => if isInstruction c then code ++ [c] else code) acc =
      acc ++ text.filter isInstruction := by
  induction text generalizing acc with
  | nil => simp
  | cons c rest ih =>
    by_cases hc : isInstruction c = true
    · simp [List.foldl_cons, ih, hc, List.filter_cons]
    · simp [List.foldl_cons, ih, hc, List.filter_cons]

theorem loadCodeFilter_eq_filter (text : List Char) :
    loadCodeFilter text = text.filter isInstruction := by
  simp [loadCodeFilter, loadCodeFilter_foldl]

theorem precomputeJumps_code (m done : BrainfuckCompiler)
    (h : precomputeJumps m = .ok done) : done.code = m.code := by
  unfold precomputeJumps at h
  split at h
  · cases h
  · split at h
    · cases h; rfl
    · cases h

/-- C4. For every input text, the code stored by `loadCode` is the text filtered by
membership in the eight-symbol alphabet: every stored character is one of the eight
symbols, every occurrence of a symbol is kept, and the kept characters stand in their
original relative order. The stored code is what `loadCode` hands to
`precomputeJumps`, and it is the code of the machine whenever the load succeeds. -/
theorem loadCode_stores_filtered (m : BrainfuckCompiler) (text : List Char) :
    loadCode m text = precomputeJumps { m with code := text.filter (fun c => c ∈ alphabet) } ∧
    loadCodeFilter text = text.filter (fun c => c ∈ alphabet) ∧
    (∀ c, c ∈ loadCodeFilter text → c ∈ alphabet) ∧
    (∀ c, c ∈ alphabet → (loadCodeFilter text).count c = text.count c) ∧
    (loadCodeFilter text).Sublist text ∧
    (∀ done, loadCode m text = .ok done → done.code = text.filter (fun c => c ∈ alphabet)) := by
  have hfil : loadCodeFilter text = text.filter (fun c => c ∈ alphabet) := by
    rw [loadCodeFilter_eq_filter]
    apply List.filter_congr
    intro c _
    by_cases hc : c ∈ alphabet
    · simp [hc, (isInstruction_iff c).2 hc]
    · have : ¬ isInstruction c = true := fun h => hc ((isInstruction_iff c).1 h)
      simp [hc, this]
  refine ⟨?_, hfil, ?_, ?_, ?_, ?_⟩
  · simp [loadCode, hfil]
  · intro c hc
    rw [hfil] at hc
    simpa using (List.mem_filter.1 hc).2
  · intro c hc
    rw [hfil, List.count_filter]
    simpa using hc
  · rw [hfil]
    exact List.filter_sublist text
  · intro done hdone
    have := precomputeJumps_code _ _ hdone
    rw [this, hfil]

/-- C5. Filtering is idempotent: the instruction filter of `loadCode` applied to its
own output returns that output. -/
theorem loadCodeFilter_idempotent (text : List Char) :
    loadCodeFilter (loadCodeFilter text) = loadCodeFilter text := by
  simp [loadCodeFilter_eq_filter, List.filter_filter]

end DevBFX

/-! ## Running to completion on the wrap-around machine -/

namespace DevBFX

/-- A finished `interpret` loop is not changed by more fuel. -/
theorem interpretLoop_mono (fuel extra : Nat) (m : BrainfuckCompiler)
    (r : Except Fault BrainfuckCompiler) (h : interpretLoop fuel m = some r) :
    interpretLoop (fuel + extra) m = some r := by
  induction fuel generalizing m with
  | zero =>
    by_cases hlt : m.instruction_pointer < m.code.length
    · simp [interpretLoop, hlt] at h
    · cases extra with
      | zero => simpa using h
      | succ e =>
        simp only [interpretLoop, hlt, if_false] at h
        simp [interpretLoop, hlt, h]
  | succ n ih =>
    rw [show n + 1 + extra = (n + extra) + 1 by omega]
    by_cases hlt : m.instruction_pointer < m.code.length
    · simp only [interpretLoop, hlt, if_true] at h ⊢
      cases hx : executeInstruction m with
      | error e => simpa [hx] using h
      | ok m1 =>
        rw [hx] at h
        exact ih _ h
    · simp only [interpretLoop, hlt, if_false] at h ⊢
      exact h

/-- A finished `run` is not changed by more fuel. -/
theorem run_mono (fuel extra : Nat) (program : List Char) (cin : List Nat)
    (r : Except Fault (Int × BrainfuckCompiler)) (h : run fuel program cin = some r) :
    run (fuel + extra) program cin = some r := by
  unfold run at h ⊢
  cases hl : loadCode (BrainfuckCompiler.new cin) program with
  | error e => simpa [hl] using h
  | ok bfc =>
    rw [hl] at h
    simp only at h ⊢
    cases hi : interpret fuel bfc with
    | none => simp [hi] at h
    | some res =>
      have hi2 : interpret (fuel + extra) bfc = some res := interpretLoop_mono _ _ _ _ hi
      rw [hi] at h
      rw [hi2]
      exact h

/-- Two finished runs of the same program on the same input agree. -/
theorem run_unique (f1 f2 : Nat) (program : List Char) (cin : List Nat)
    (r1 r2 : Except Fault (Int × BrainfuckCompiler))
    (h1 : run f1 program cin = some r1) (h2 : run f2 program cin = some r2) : r1 = r2 := by
  have a := run_mono f1 f2 program cin r1 h1
  have b := run_mono f2 f1 program cin r2 h2
  rw [Nat.add_comm] at b
  rw [a] at b
  exact Option.some.inj b

/-- C6. Running the empty program executes no instruction (the result needs no fuel at
all), returns 0, and leaves the machine with every tape cell 0, nothing written and
nothing read. -/
theorem run_empty_program (fuel : Nat) (cin : List Nat) :
    ∃ done, run fuel [] cin = some (.ok (0, done)) ∧
      done.memory = List.replicate MEMORY_SIZE 0 ∧
      (∀ cell, cell ∈ done.memory → cell = 0) ∧
      done.instruction_pointer = 0 ∧ done.data_pointer = 0 ∧
      done.cout = [] ∧ done.cin = cin := by
  refine ⟨{ BrainfuckCompiler.new cin with memory := List.replicate MEMORY_SIZE 0 }, ?_, rfl, ?_,
    rfl, rfl, rfl, rfl⟩
  · cases fuel <;>
      simp [run, loadCode, loadCodeFilter, precomputeJumps, precomputeJumpsLoop, interpret,
        interpretLoop, BrainfuckCompiler.new]
  · intro cell hcell
    exact List.eq_of_mem_replicate hcell

theorem observed_ok (r : Option (Except Fault (Int × BrainfuckCompiler))) (code : Int)
    (out : List Nat) (h : observed r = some (some (code, out))) :
    ∃ done, r = some (.ok (code, done)) ∧ done.cout = out := by
  unfold observed at h
  cases r with
  | none => simp at h
  | some e =>
    cases e with
    | error err => simp at h
    | ok p =>
      obtain ⟨c, done⟩ := p
      simp only [Option.map_some', Option.some.injEq, Prod.mk.injEq] at h
      exact ⟨done, by rw [h.1], h.2⟩

end DevBFX

/-! ## Programs that never read -/

namespace DevBFX

theorem executeInstruction_setCin (m : BrainfuckCompiler) (cin : List Nat)
    (h : (m.code.get? m.instruction_pointer).getD (Char.ofNat 0) ≠ ',') :
    executeInstruction (setCin m cin) =
      (executeInstruction m).map (fun done => setCin done cin) ∧
    ∀ done, executeInstruction m = .ok done → done.code = m.code := by
  unfold executeInstruction
  simp only [setCin] at h ⊢
  generalize (m.code.get? m.instruction_pointer).getD (Char.ofNat 0) = ch at h ⊢
  by_cases h0 : m.code.length < m.instruction_pointer
  · simp only [h0, if_true]
    exact ⟨rfl, fun _ hd => by cases hd⟩
  simp only [h0, if_false]
  by_cases h1 : ch = '>'
  · simp only [h1, if_true]
    exact ⟨rfl, fun _ hd => by cases hd; rfl⟩
  by_cases h2 : ch = '<'
  · simp only [h1, h2, if_true, if_false]
    exact ⟨rfl, fun _ hd => by cases hd; rfl⟩
  by_cases h3 : ch = '+'
  · simp only [h1, h2, h3, if_true, if_false]
    cases m.memory.get? m.data_pointer with
    | none => exact ⟨rfl, fun _ hd => by cases hd⟩
    | some v => exact ⟨rfl, fun _ hd => by cases hd; rfl⟩
  by_cases h4 : ch = '-'
  · simp only [h1, h2, h3, h4, if_true, if_false]
    cases m.memory.get? m.data_pointer with
    | none => exact ⟨rfl, fun _ hd => by cases hd⟩
    | some v => exact ⟨rfl, fun _ hd => by cases hd; rfl⟩
  by_cases h5 : ch = '.'
  · simp only [h1, h2, h3, h4, h5, if_true, if_false]
    cases m.memory.get? m.data_pointer with
    | none => exact ⟨rfl, fun _ hd => by cases hd⟩
    | some v => exact ⟨rfl, fun _ hd => by cases hd; rfl⟩
  by_cases h7 : ch = '['
  · simp only [h1, h2, h3, h4, h5, h, h7, if_true, if_false]
    cases m.memory.get? m.data_pointer with
    | none => exact ⟨rfl, fun _ hd => by cases hd⟩
    | some v =>
      by_cases hv : v = 0
      · simp only [hv, if_true]
        cases m.jump_forward.get? m.instruction_pointer with
        | none => exact ⟨rfl, fun _ hd => by cases hd⟩
        | some t => exact ⟨rfl, fun _ hd => by cases hd; rfl⟩
      · simp only [hv, if_false]
        exact ⟨rfl, fun _ hd => by cases hd; rfl⟩
  by_cases h8 : ch = ']'
  · simp only [h1, h2, h3, h4, h5, h, h7, h8, if_true, if_false]
    cases m.memory.get? m.data_pointer with
    | none => exact ⟨rfl, fun _ hd => by cases hd⟩
    | some v =>
      by_cases hv : v = 0
      · simp only [hv, ne_eq, not_true_eq_false, if_false]
        exact ⟨rfl, fun _ hd => by cases hd; rfl⟩
      · simp only [hv, ne_eq, not_false_eq_true, if_true]
        cases m.jump_backward.get? m.instruction_pointer with
        | none => exact ⟨rfl, fun _ hd => by cases hd⟩
        | some t => exact ⟨rfl, fun _ hd => by cases hd; rfl⟩
  simp only [h1, h2, h3, h4, h5, h, h7, h8, if_false]
  exact ⟨rfl, fun _ hd => by cases hd; rfl⟩

theorem interpretLoop_setCin (fuel : Nat) :
    ∀ (m : BrainfuckCompiler) (cin : List Nat), (∀ ch, ch ∈ m.code → ch ≠ ',') →
      interpretLoop fuel (setCin m cin) =
        (interpretLoop fuel m).map (Except.map (fun done => setCin done cin)) := by
  induction fuel with
  | zero =>
    intro m cin _
    by_cases hlt : m.instruction_pointer < m.code.length
    · simp [interpretLoop, setCin, hlt]
    · simp [interpretLoop, setCin, hlt, Except.map]
  | succ n ih =>
    intro m cin hno
    by_cases hlt : m.instruction_pointer < m.code.length
    · have hch : (m.code.get? m.instruction_pointer).getD (Char.ofNat 0) ≠ ',' := by
        rw [List.get?_eq_getElem?, List.getElem?_eq_getElem hlt]
        exact hno _ (List.getElem_mem _)
      obtain ⟨hstep, hcode⟩ := executeInstruction_setCin m cin hch
      have hlt2 : (setCin m cin).instruction_pointer < (setCin m cin).code.length := hlt
      rw [interpretLoop, interpretLoop, if_pos hlt, if_pos hlt2, hstep]
      cases hx : executeInstruction m with
      | error e => rfl
      | ok m1 =>
        have hc1 : m1.code = m.code := hcode m1 hx
        have := ih { m1 with instruction_pointer := m1.instruction_pointer + 1 } cin
          (by intro ch hmem; exact hno ch (by rw [← hc1]; exact hmem))
        simpa [Except.map, setCin] using this
    · have hlt2 : ¬ (setCin m cin).instruction_pointer < (setCin m cin).code.length := hlt
      rw [interpretLoop, interpretLoop, if_neg hlt, if_neg hlt2]
      rfl

theorem precomputeJumps_setCin (m : BrainfuckCompiler) (cin : List Nat) :
    precomputeJumps (setCin m cin) = (precomputeJumps m).map (fun done => setCin done cin) := by
  unfold precomputeJumps
  simp only [setCin]
  cases precomputeJumpsLoop m.code 0 [] m.jump_forward m.jump_backward with
  | error e => rfl
  | ok r =>
    obtain ⟨s, jf, jb⟩ := r
    by_cases hs : s.isEmpty = true
    · simp [hs, Except.map]
    · simp [hs, Except.map]

/-- A program without `,` behaves the same whatever is queued on standard input. -/
theorem observed_run_without_comma (fuel : Nat) (program : List Char) (cin : List Nat)
    (hno : ∀ ch, ch ∈ program → ch ≠ ',') :
    observed (run fuel program cin) = observed (run fuel program []) := by
  have hnew : BrainfuckCompiler.new cin = setCin (BrainfuckCompiler.new []) cin := rfl
  have hload : loadCode (BrainfuckCompiler.new cin) program =
      (loadCode (BrainfuckCompiler.new []) program).map (fun done => setCin done cin) := by
    rw [hnew]
    exact precomputeJumps_setCin
      { BrainfuckCompiler.new [] with code := loadCodeFilter program } cin
  unfold run
  rw [hload]
  cases hl : loadCode (BrainfuckCompiler.new []) program with
  | error e => rfl
  | ok bfc =>
    have hcode : bfc.code = loadCodeFilter program := precomputeJumps_code _ _ hl
    have hno2 : ∀ ch, ch ∈ bfc.code → ch ≠ ',' := by
      intro ch hmem
      rw [hcode, loadCodeFilter_eq_filter] at hmem
      exact hno ch (List.mem_filter.1 hmem).1
    have hint : interpret fuel (setCin bfc cin) =
        (interpret fuel bfc).map (Except.map (fun done => setCin done cin)) :=
      interpretLoop_setCin fuel
        { bfc with data_pointer := 0, instruction_pointer := 0,
                   memory := bfc.memory.map (fun _ => 0) } cin hno2
    simp only [Except.map]
    rw [hint]
    cases interpret fuel bfc with
    | none => rfl
    | some res =>
      cases res with
      | error e => rfl
      | ok done => rfl

end DevBFX

/-! ## The two scenario runs -/

namespace DevBFX

set_option maxRecDepth 100000 in
theorem helloHead_observed :
    observed (run 870 helloHead []) =
      some (some (0,
        (List.map (fun b => outputLabel ++ [b] ++ [10]) [72, 101, 108, 108, 111]).flatten)) := by
  decide

theorem echo_observed :
    observed (run 2 [',', '.'] [65]) =
      some (some (0, inputLabel ++ (outputLabel ++ [65] ++ [10]))) := by
  decide

theorem helloHead_without_comma : ∀ ch, ch ∈ helloHead → ch ≠ ',' := by
  decide

set_option maxRecDepth 100000 in
theorem helloHead_output_head :
    ((List.map (fun b => outputLabel ++ [b] ++ [10]) [72, 101, 108, 108, 111]).flatten).take 2
      ≠ [72, 101] := by
  decide

set_option maxRecDepth 100000 in
theorem echo_output_longer : inputLabel ++ (outputLabel ++ [65] ++ [10]) ≠ [65] := by
  decide

/-- C7, as amended. Whatever is queued on standard input, the scenario program
terminates with return code 0 (870 units of fuel are enough, and more change
nothing), and standard output is five lines, each the
label `Output(only-one-character) >> ` followed by one cell byte and a line feed; the
cell bytes are 72 `H`, 101 `e`, 108, 108, 111 in this order. -/
theorem helloHead_run (extra : Nat) (cin : List Nat) :
    ∃ done, run (870 + extra) helloHead cin = some (.ok (0, done)) ∧
      done.cout =
        (List.map (fun b => outputLabel ++ [b] ++ [10]) [72, 101, 108, 108, 111]).flatten := by
  have hobs := observed_run_without_comma 870 helloHead cin helloHead_without_comma
  rw [helloHead_observed] at hobs
  obtain ⟨done, hrun, hout⟩ := observed_ok _ _ _ hobs
  exact ⟨done, run_mono _ _ _ _ _ hrun, hout⟩

/-- C7, as stated, fails: whatever is queued on standard input, no finished run of the
scenario program has 72, 101 as the first two bytes of its output (they are 79 `O` and
117 `u`, the head of the label). -/
theorem helloHead_first_bytes_not_H_e :
    ¬ ∃ fuel cin done, run fuel helloHead cin = some (.ok (0, done)) ∧
        done.cout.take 2 = [72, 101] := by
  rintro ⟨fuel, cin, done, hrun, hout⟩
  have hobs := observed_run_without_comma 870 helloHead cin helloHead_without_comma
  rw [helloHead_observed] at hobs
  obtain ⟨done2, hrun2, hout2⟩ := observed_ok _ _ _ hobs
  have heq := run_unique _ _ _ _ _ _ hrun hrun2
  have hd : done = done2 := by
    simp only [Except.ok.injEq, Prod.mk.injEq] at heq
    exact heq.2
  rw [hd, hout2] at hout
  exact helloHead_output_head hout

/-- C8, as amended. With the single byte 65 queued on standard input, `,.` terminates
with return code 0 (two units of fuel are enough), and standard output is the prompt
of `,` followed by the label of `.`, the byte 65 and a line feed. -/
theorem echo_run (extra : Nat) :
    ∃ done, run (2 + extra) [',', '.'] [65] = some (.ok (0, done)) ∧
      done.cout = inputLabel ++ (outputLabel ++ [65] ++ [10]) := by
  obtain ⟨done, hrun, hout⟩ := observed_ok _ _ _ echo_observed
  exact ⟨done, run_mono _ _ _ _ _ hrun, hout⟩

/-- C8, as stated, fails: no finished run of `,.` on the input byte 65 has the single
byte 65 as its whole output. -/
theorem echo_output_not_single_byte :
    ¬ ∃ fuel done, run fuel [',', '.'] [65] = some (.ok (0, done)) ∧ done.cout = [65] := by
  rintro ⟨fuel, done, hrun, hout⟩
  obtain ⟨done2, hrun2, hout2⟩ := observed_ok _ _ _ echo_observed
  have heq := run_unique _ _ _ _ _ _ hrun hrun2
  have hd : done = done2 := by
    simp only [Except.ok.injEq, Prod.mk.injEq] at heq
    exact heq.2
  rw [hd, hout2] at hout
  exact echo_output_longer hout

/-- What `,` does at end of input: the prompt is written, nothing is read, and the
current cell becomes 0 (the terminator that `input[0]` yields on the empty line). No
fault is raised. -/
theorem executeInstruction_comma_end_of_input (m : BrainfuckCompiler)
    (hcode : m.code.get? m.instruction_pointer = some ',')
    (hdp : inRange m.memory m.data_pointer = true) (heof : m.cin = []) :
    executeInstruction m =
      .ok { m with cout := m.cout ++ inputLabel, cin := [],
                   memory := m.memory.set m.data_pointer 0 } := by
  have hle : ¬ m.code.length < m.instruction_pointer := by
    intro hlt
    have : m.code.get? m.instruction_pointer = none := by
      simp only [List.get?_eq_getElem?]
      exact List.getElem?_eq_none (Nat.le_of_lt hlt)
    rw [this] at hcode
    cases hcode
  simp only [List.get?_eq_getElem?] at hcode
  simp [executeInstruction, hle, hcode, hdp, heof, getline]

/-- C10, evaluated on the code. After `+` the current cell holds 1; when `,` is then
executed with standard input at end of input, the cell holds 0: it does not keep its
value. The run itself ends normally with return code 0. -/
theorem comma_at_end_of_input_clears_cell :
    finalCell (run 1 ['+'] []) = some 1 ∧ finalCell (run 2 ['+', ','] []) = some 0 ∧
      observed (run 2 ['+', ','] []) = some (some (0, inputLabel)) := by
  decide

end DevBFX

/-! ## The bounds-checked machine -/

namespace TraeBFX

theorem buildLoopMap_single_left (loop_map : List Int) :
    buildLoopMap ['<'] 0 [] loop_map = .ok (true, [], loop_map) := by
  simp [buildLoopMap]

/-- C9. In the bounds-checked machine, from every state of the second scan whose
current instruction is `<` with the pointer at 0, or `>` with the pointer at
`MEMORY_SIZE - 1` = 29999, `run` returns 1 in that very iteration and the tape, the
pointer and the streams are exactly as they were before the instruction. In
particular `run("<")` returns 1 with the tape still all-zero and the pointer at 0. -/
theorem run_pointer_out_of_range (fuel : Nat) (program : List Char) (s : RunState)
    (cin : List Nat) (hi : 0 ≤ s.i)
    (hedge : (program[s.i.toNat]? = some '<' ∧ s.pointer = 0) ∨
      (program[s.i.toNat]? = some '>' ∧ s.pointer = 29999)) :
    runLoop (fuel + 1) program s = some (.ok (1, s)) ∧
      run (fuel + 1) ['<'] cin = some (.ok (1, RunState.init cin)) ∧
      (RunState.init cin).memory = List.replicate 30000 0 ∧
      (RunState.init cin).pointer = 0 := by
  refine ⟨?_, ?_, rfl, rfl⟩
  · have hlt : s.i < (program.length : Int) := by
      have hsome : ∃ c, program[s.i.toNat]? = some c := by
        rcases hedge with h | h
        · exact ⟨_, h.1⟩
        · exact ⟨_, h.1⟩
      obtain ⟨c, hc⟩ := hsome
      have := (List.getElem?_eq_some.1 hc).1
      omega
    have hneg : ¬ s.i < 0 := by omega
    rcases hedge with ⟨hc, hp⟩ | ⟨hc, hp⟩
    · simp [runLoop, runBody, hlt, hneg, hc, hp]
    · simp [runLoop, runBody, hlt, hneg, hc, hp, MEMORY_SIZE]
  · simp [run, buildLoopMap_single_left, runLoop, runBody, RunState.init]

/-- C9 at a concrete state: `<` as the first instruction of the program `<+`. -/
theorem run_pointer_out_of_range_witness :
    runLoop 1 ['<', '+'] (RunState.init []) = some (.ok (1, RunState.init [])) ∧
      run 1 ['<'] [] = some (.ok (1, RunState.init [])) ∧
      (RunState.init []).memory = List.replicate 30000 0 ∧
      (RunState.init []).pointer = 0 :=
  run_pointer_out_of_range 0 ['<', '+'] (RunState.init []) [] (by decide)
    (Or.inl ⟨by decide, by decide⟩)

end TraeBFX

/-! ## The jump resolver -/

theorem inRange_iff (v : List Nat) (i : Nat) : inRange v i = true ↔ i < v.length := by
  unfold inRange
  rw [List.get?_eq_getElem?]
  by_cases h : i < v.length
  · simp [h]
  · simp [h, List.getElem?_eq_none (Nat.le_of_not_lt h)]

theorem opens_cons (c : Char) (rest : List Char) :
    opens (c :: rest) = (if c = '[' then 1 else 0) + opens rest := by
  by_cases h : c = '['
  · subst h; simp [opens, Nat.add_comm]
  · have h2 : ¬ ('[' = c) := fun e => h e.symm
    simp [opens, List.count_cons, h, h2]

theorem closes_cons (c : Char) (rest : List Char) :
    closes (c :: rest) = (if c = ']' then 1 else 0) + closes rest := by
  by_cases h : c = ']'
  · subst h; simp [closes, Nat.add_comm]
  · have h2 : ¬ (']' = c) := fun e => h e.symm
    simp [closes, List.count_cons, h, h2]

theorem opens_nil : opens [] = 0 := rfl

theorem closes_nil : closes [] = 0 := rfl

namespace DevBFX

/-- Within the capacity of the jump tables, the scan stops at the first `]` that has
no `[` left to match and reports its index. -/
theorem precomputeJumpsLoop_unmatchedClose (rest : List Char) :
    ∀ (i0 : Nat) (stack jf jb : List Nat) (k : Nat),
      rest[k]? = some ']' →
      (∀ j, j ≤ k → closes (rest.take j) ≤ stack.length + opens (rest.take j)) →
      stack.length + opens (rest.take (k + 1)) < closes (rest.take (k + 1)) →
      (∀ s, s ∈ stack → s < jf.length) → i0 + k ≤ jf.length → i0 + k ≤ jb.length →
      precomputeJumpsLoop rest i0 stack jf jb = .error (.unmatchedClose (i0 + k)) := by
  induction rest with
  | nil => intro i0 stack jf jb k hk; simp at hk
  | cons c r ih =>
    intro i0 stack jf jb k hk hpre hover hst hjf hjb
    cases k with
    | zero =>
      simp only [List.getElem?_cons_zero, Option.some.injEq] at hk
      subst hk
      have hs : stack = [] := by
        simp only [List.take_succ_cons, List.take_zero, opens_cons, closes_cons, opens_nil,
          closes_nil] at hover
        have hne : ¬ (']' = '[') := by decide
        simp only [hne, if_false, if_true, Nat.add_zero, Nat.zero_add] at hover
        exact List.length_eq_zero.1 (by omega)
      subst hs
      simp [precomputeJumpsLoop]
    | succ k =>
      simp only [List.getElem?_cons_succ] at hk
      have hpre' : ∀ j, j ≤ k →
          (if c = ']' then 1 else 0) + closes (r.take j) ≤
            stack.length + ((if c = '[' then 1 else 0) + opens (r.take j)) := by
        intro j hj
        have := hpre (j + 1) (by omega)
        simpa only [List.take_succ_cons, opens_cons, closes_cons] using this
      have hover' : stack.length + ((if c = '[' then 1 else 0) + opens (r.take (k + 1))) <
          (if c = ']' then 1 else 0) + closes (r.take (k + 1)) := by
        simpa only [List.take_succ_cons, opens_cons, closes_cons] using hover
      by_cases hc1 : c = '['
      · subst hc1
        have hne : ¬ ('[' = ']') := by decide
        simp only [hne, if_false, if_true, Nat.zero_add] at hpre' hover'
        simp only [precomputeJumpsLoop, if_true]
        have := ih (i0 + 1) (i0 :: stack) jf jb k hk
          (by intro j hj; have := hpre' j hj; simp only [List.length_cons]; omega)
          (by simp only [List.length_cons]; omega)
          (by
            intro s hs
            rcases List.mem_cons.1 hs with h | h
            · omega
            · exact hst s h)
          (by omega) (by omega)
        rw [this]
        congr 2
        omega
      · by_cases hc2 : c = ']'
        · subst hc2
          simp only [hc1, if_false, if_true, Nat.zero_add] at hpre' hover'
          cases stack with
          | nil =>
            have := hpre' 0 (Nat.zero_le _)
            simp [opens_nil, closes_nil] at this
          | cons start popped =>
            have h1 : inRange jf start = true :=
              (inRange_iff _ _).2 (hst start (List.mem_cons_self _ _))
            have h2 : inRange jb i0 = true := (inRange_iff _ _).2 (by omega)
            simp only [precomputeJumpsLoop, hc1, if_false, if_true]
            simp only [h1, h2, if_true]
            have := ih (i0 + 1) popped (jf.set start i0) (jb.set i0 start) k hk
              (by intro j hj; have := hpre' j hj; simp only [List.length_cons] at this; omega)
              (by simp only [List.length_cons] at hover'; omega)
              (by
                intro s hs
                rw [List.length_set]
                exact hst s (List.mem_cons_of_mem _ hs))
              (by rw [List.length_set]; omega) (by rw [List.length_set]; omega)
            rw [this]
            congr 2
            omega
        · simp only [hc1, hc2, if_false, Nat.zero_add] at hpre' hover'
          simp only [precomputeJumpsLoop, hc1, hc2, if_false]
          have := ih (i0 + 1) stack jf jb k hk hpre' hover' hst (by omega) (by omega)
          rw [this]
          congr 2
          omega

/-- Within the capacity of the jump tables, a scan that never meets a `]` with an
empty stack runs to the end; the stack then holds the `[` still open. -/
theorem precomputeJumpsLoop_ok (rest : List Char) :
    ∀ (i0 : Nat) (stack jf jb : List Nat),
      (∀ j, j ≤ rest.length → closes (rest.take j) ≤ stack.length + opens (rest.take j)) →
      (∀ s, s ∈ stack → s < jf.length) →
      i0 + rest.length ≤ jf.length → i0 + rest.length ≤ jb.length →
      ∃ stack2 jf2 jb2, precomputeJumpsLoop rest i0 stack jf jb = .ok (stack2, jf2, jb2) ∧
        stack2.length + closes rest = stack.length + opens rest ∧
        jf2.length = jf.length ∧ jb2.length = jb.length := by
  induction rest with
  | nil =>
    intro i0 stack jf jb _ _ _ _
    exact ⟨stack, jf, jb, by simp [precomputeJumpsLoop], by simp [opens_nil, closes_nil], rfl, rfl⟩
  | cons c r ih =>
    intro i0 stack jf jb hpre hst hjf hjb
    simp only [List.length_cons] at hjf hjb
    have hpre' : ∀ j, j ≤ r.length →
        (if c = ']' then 1 else 0) + closes (r.take j) ≤
          stack.length + ((if c = '[' then 1 else 0) + opens (r.take j)) := by
      intro j hj
      have := hpre (j + 1) (by simp only [List.length_cons]; omega)
      simpa only [List.take_succ_cons, opens_cons, closes_cons] using this
    by_cases hc1 : c = '['
    · subst hc1
      have hne : ¬ ('[' = ']') := by decide
      simp only [hne, if_false, if_true, Nat.zero_add] at hpre'
      obtain ⟨s2, jf2, jb2, hrun, hlen, h1, h2⟩ := ih (i0 + 1) (i0 :: stack) jf jb
        (by intro j hj; have := hpre' j hj; simp only [List.length_cons]; omega)
        (by
          intro s hs
          rcases List.mem_cons.1 hs with h | h
          · omega
          · exact hst s h)
        (by omega) (by omega)
      refine ⟨s2, jf2, jb2, ?_, ?_, h1, h2⟩
      · simp only [precomputeJumpsLoop, if_true]
        exact hrun
      · simp only [opens_cons, closes_cons, hne, if_false, if_true, List.length_cons] at hlen ⊢
        omega
    · by_cases hc2 : c = ']'
      · subst hc2
        simp only [hc1, if_false, if_true, Nat.zero_add] at hpre'
        cases stack with
        | nil =>
          have := hpre' 0 (Nat.zero_le _)
          simp [opens_nil, closes_nil] at this
        | cons start popped =>
          have hr1 : inRange jf start = true :=
            (inRange_iff _ _).2 (hst start (List.mem_cons_self _ _))
          have hr2 : inRange jb i0 = true := (inRange_iff _ _).2 (by omega)
          obtain ⟨s2, jf2, jb2, hrun, hlen, h1, h2⟩ :=
            ih (i0 + 1) popped (jf.set start i0) (jb.set i0 start)
              (by intro j hj; have := hpre' j hj; simp only [List.length_cons] at this; omega)
              (by
                intro s hs
                rw [List.length_set]
                exact hst s (List.mem_cons_of_mem _ hs))
              (by rw [List.length_set]; omega) (by rw [List.length_set]; omega)
          refine ⟨s2, jf2, jb2, ?_, ?_, ?_, ?_⟩
          · simp only [precomputeJumpsLoop, hc1, if_false, if_true, hr1, hr2]
            exact hrun
          · simp only [opens_cons, closes_cons, hc1, if_false, if_true, List.length_cons] at hlen ⊢
            omega
          · rw [h1, List.length_set]
          · rw [h2, List.length_set]
      · simp only [hc1, hc2, if_false, Nat.zero_add] at hpre'
        obtain ⟨s2, jf2, jb2, hrun, hlen, h1, h2⟩ := ih (i0 + 1) stack jf jb hpre' hst
          (by omega) (by omega)
        refine ⟨s2, jf2, jb2, ?_, ?_, h1, h2⟩
        · simp only [precomputeJumpsLoop, hc1, hc2, if_false]
          exact hrun
        · simp only [opens_cons, closes_cons, hc1, hc2, if_false] at hlen ⊢
          omega

/-- Within the capacity of the jump tables (a program of at most `MEMORY_SIZE`
instructions), a program with a `]` that has no `[` to match makes `precomputeJumps`
fail with the unmatched-close error carrying the index `k` of the first such `]`. -/
theorem precomputeJumps_unmatchedClose (m : BrainfuckCompiler) (k : Nat)
    (hjf : m.jump_forward.length = MEMORY_SIZE) (hjb : m.jump_backward.length = MEMORY_SIZE)
    (hcap : m.code.length ≤ MEMORY_SIZE)
    (hk : m.code[k]? = some ']')
    (hpre : ∀ j, j ≤ k → closes (m.code.take j) ≤ opens (m.code.take j))
    (hover : opens (m.code.take (k + 1)) < closes (m.code.take (k + 1))) :
    precomputeJumps m = .error (.unmatchedClose k) := by
  have hklt : k < m.code.length := (List.getElem?_eq_some.1 hk).1
  have := precomputeJumpsLoop_unmatchedClose m.code 0 [] m.jump_forward m.jump_backward k hk
    (by simpa using hpre) (by simpa using hover) (by simp) (by omega) (by omega)
  simp [precomputeJumps, this]

/-- The scan passes over a run of `+` without touching the stack or the tables. -/
theorem precomputeJumpsLoop_skip_plus (n : Nat) (rest : List Char) :
    ∀ (i : Nat) (stack jf jb : List Nat),
      precomputeJumpsLoop (List.replicate n '+' ++ rest) i stack jf jb =
        precomputeJumpsLoop rest (i + n) stack jf jb := by
  induction n with
  | zero => intro i stack jf jb; simp
  | succ n ih =>
    intro i stack jf jb
    have h1 : ¬ ('+' = '[') := by decide
    have h2 : ¬ ('+' = ']') := by decide
    rw [List.replicate_succ, List.cons_append]
    simp only [precomputeJumpsLoop, h1, h2, if_false]
    rw [ih]
    congr 1
    omega

theorem loadCodeFilter_plus_append (n : Nat) (rest : List Char) :
    loadCodeFilter (List.replicate n '+' ++ rest) =
      List.replicate n '+' ++ loadCodeFilter rest := by
  have hp : isInstruction '+' = true := by decide
  simp [loadCodeFilter_eq_filter, List.filter_append, hp]

theorem opens_plus_append (n : Nat) (rest : List Char) :
    opens (List.replicate n '+' ++ rest) = opens rest := by
  simp [opens, List.count_append, List.count_replicate]

theorem closes_plus_append (n : Nat) (rest : List Char) :
    closes (List.replicate n '+' ++ rest) = closes rest := by
  simp [closes, List.count_append, List.count_replicate]

theorem take_plus_append (n k : Nat) (rest : List Char) :
    (List.replicate n '+' ++ rest).take k =
      List.replicate (min k n) '+' ++ rest.take (k - n) := by
  rw [List.take_append_eq_append_take]
  simp

/-- A run of `+` followed by `[]` has balanced brackets. -/
theorem bracketsBalanced_plus_pair (n : Nat) :
    BracketsBalanced (List.replicate n '+' ++ ['[', ']']) := by
  constructor
  · intro k _
    rw [take_plus_append, opens_plus_append, closes_plus_append]
    rcases Nat.lt_or_ge (k - n) 1 with h | h
    · have : k - n = 0 := by omega
      rw [this]; decide
    · rcases Nat.lt_or_ge (k - n) 2 with h2 | h2
      · have : k - n = 1 := by omega
        rw [this]; decide
      · rw [List.take_of_length_le (by simpa using h2)]; decide
  · rw [opens_plus_append, closes_plus_append]; decide

/-- Once the `[` of a pair sits at an index at or beyond the size of the jump tables,
the store at its `]` falls outside `jump_forward`. -/
theorem loadCode_pair_outside_table (n : Nat) (cin : List Nat) (tail : List Char)
    (hn : MEMORY_SIZE ≤ n) (htail : loadCodeFilter tail = tail) :
    loadCode (BrainfuckCompiler.new cin) (List.replicate n '+' ++ '[' :: ']' :: tail) =
      .error .jumpTableOutOfRange := by
  have hf : loadCodeFilter ('[' :: ']' :: tail) = '[' :: ']' :: tail := by
    rw [loadCodeFilter_eq_filter] at htail ⊢
    have h1 : isInstruction '[' = true := by decide
    have h2 : isInstruction ']' = true := by decide
    simp [List.filter_cons, h1, h2, htail]
  have hr : inRange (BrainfuckCompiler.new cin).jump_forward (0 + n) = false := by
    have := inRange_iff (BrainfuckCompiler.new cin).jump_forward (0 + n)
    cases hv : inRange (BrainfuckCompiler.new cin).jump_forward (0 + n) with
    | false => rfl
    | true =>
      have hlt := this.1 hv
      simp only [BrainfuckCompiler.new, List.length_replicate] at hlt
      omega
  have h1 : ¬ (']' = '[') := by decide
  simp only [loadCode, loadCodeFilter_plus_append, hf, precomputeJumps,
    precomputeJumpsLoop_skip_plus]
  simp only [precomputeJumpsLoop, if_true, h1, if_false, hr]
  simp

/-- C1, evaluated on the code. The program of 30000 `+` followed by `[]` has
balanced brackets, yet `precomputeJumps` does not complete on it: at the `]` (index
30001) it stores into `jump_forward[30000]`, one past the 30000 entries the
constructor gave the table. -/
theorem precomputeJumps_balanced_outside_table :
    BracketsBalanced (List.replicate 30000 '+' ++ ['[', ']']) ∧
      loadCode (BrainfuckCompiler.new []) (List.replicate 30000 '+' ++ ['[', ']']) =
        .error .jumpTableOutOfRange :=
  ⟨bracketsBalanced_plus_pair 30000,
    loadCode_pair_outside_table 30000 [] [] (Nat.le_refl _) rfl⟩

end DevBFX

namespace DevBFX

/-- The scenario of C2: on the program `]` the error is the unmatched-close error for
index 0. -/
theorem loadCode_single_close :
    loadCode (BrainfuckCompiler.new []) [']'] = .error (.unmatchedClose 0) := by
  simp [loadCode, loadCodeFilter, isInstruction, precomputeJumps, precomputeJumpsLoop]

theorem jumpInv_open (code : List Char) (i : Nat) (stack jf jb : List Nat)
    (hinv : JumpInv code i stack jf jb) :
    JumpInv code (i + 1) (i :: stack) jf jb ∨ code[i]? ≠ some '[' := by
  by_cases hc : code[i]? = some '['
  · left
    obtain ⟨hst, hnd, hcl, hop⟩ := hinv
    refine ⟨?_, ?_, ?_, ?_⟩
    · intro s hs
      rcases List.mem_cons.1 hs with h | h
      · subst h; exact ⟨Nat.lt_succ_self _, hc⟩
      · exact ⟨Nat.lt_succ_of_lt (hst s h).1, (hst s h).2⟩
    · refine List.nodup_cons.2 ⟨?_, hnd⟩
      intro hmem
      exact Nat.lt_irrefl _ (hst i hmem).1
    · intro b hb hcb
      have hbi : b ≠ i := by
        intro h; subst h; rw [hc] at hcb; cases hcb
      obtain ⟨a, h1, h2, h3, h4, h5⟩ := hcl b (by omega) hcb
      refine ⟨a, h1, h2, h3, h4, ?_⟩
      intro hmem
      rcases List.mem_cons.1 hmem with h | h
      · omega
      · exact h5 h
    · intro a ha hca
      by_cases hai : a = i
      · left; rw [hai]; exact List.mem_cons_self _ _
      · rcases hop a (by omega) hca with h | ⟨b, h1, h2, h3, h4, h5⟩
        · left; exact List.mem_cons_of_mem _ h
        · right; exact ⟨b, h1, h2, by omega, h4, h5⟩
  · right; exact hc

theorem jumpInv_close (code : List Char) (i start : Nat) (popped jf jb : List Nat)
    (hc : code[i]? = some ']') (hinv : JumpInv code i (start :: popped) jf jb)
    (hjf : start < jf.length) (hjb : i < jb.length) :
    JumpInv code (i + 1) popped (jf.set start i) (jb.set i start) := by
  obtain ⟨hst, hnd, hcl, hop⟩ := hinv
  have hstart := hst start (List.mem_cons_self _ _)
  have hnd' := List.nodup_cons.1 hnd
  refine ⟨?_, hnd'.2, ?_, ?_⟩
  · intro s hs
    have := hst s (List.mem_cons_of_mem _ hs)
    exact ⟨Nat.lt_succ_of_lt this.1, this.2⟩
  · intro b hb hcb
    by_cases hbi : b = i
    · subst hbi
      exact ⟨start, List.getElem?_set_self hjb, hstart.1, hstart.2,
        List.getElem?_set_self hjf, hnd'.1⟩
    · obtain ⟨a, h1, h2, h3, h4, h5⟩ := hcl b (by omega) hcb
      have hane : start ≠ a := by
        intro h; subst h; exact h5 (List.mem_cons_self _ _)
      refine ⟨a, ?_, h2, h3, ?_, ?_⟩
      · rw [List.getElem?_set_ne (fun h => hbi h.symm)]; exact h1
      · rw [List.getElem?_set_ne hane]; exact h4
      · intro hmem; exact h5 (List.mem_cons_of_mem _ hmem)
  · intro a ha hca
    have hai : a ≠ i := by
      intro h; subst h; rw [hc] at hca; cases hca
    rcases hop a (by omega) hca with h | ⟨b, h1, h2, h3, h4, h5⟩
    · rcases List.mem_cons.1 h with h | h
      · right
        subst h
        exact ⟨i, List.getElem?_set_self hjf, hstart.1, Nat.lt_succ_self _, hc,
          List.getElem?_set_self hjb⟩
      · left; exact h
    · right
      obtain ⟨a2, g1, _, _, _, g5⟩ := hcl b h3 h4
      have ha2 : a2 = a := by
        rw [h5] at g1; exact (Option.some.inj g1).symm
      subst ha2
      have hane : start ≠ a2 := by
        intro h; subst h; exact g5 (List.mem_cons_self _ _)
      refine ⟨b, ?_, h2, by omega, h4, ?_⟩
      · rw [List.getElem?_set_ne hane]; exact h1
      · rw [List.getElem?_set_ne (by omega)]; exact h5

theorem jumpInv_other (code : List Char) (i : Nat) (stack jf jb : List Nat)
    (h1 : code[i]? ≠ some '[') (h2 : code[i]? ≠ some ']')
    (hinv : JumpInv code i stack jf jb) : JumpInv code (i + 1) stack jf jb := by
  obtain ⟨hst, hnd, hcl, hop⟩ := hinv
  refine ⟨?_, hnd, ?_, ?_⟩
  · intro s hs
    exact ⟨Nat.lt_succ_of_lt (hst s hs).1, (hst s hs).2⟩
  · intro b hb hcb
    have hbi : b ≠ i := by
      intro h; subst h; exact h2 hcb
    exact hcl b (by omega) hcb
  · intro a ha hca
    have hai : a ≠ i := by
      intro h; subst h; exact h1 hca
    rcases hop a (by omega) hca with h | ⟨b, g1, g2, g3, g4, g5⟩
    · left; exact h
    · right; exact ⟨b, g1, g2, by omega, g4, g5⟩

/-- The scan keeps its invariant: when it runs to the end, the invariant holds for
the whole text. -/
theorem precomputeJumpsLoop_inv (code : List Char) (rest : List Char) :
    ∀ (pre : List Char) (i : Nat) (stack jf jb : List Nat),
      code = pre ++ rest → pre.length = i → JumpInv code i stack jf jb →
      ∀ stack2 jf2 jb2, precomputeJumpsLoop rest i stack jf jb = .ok (stack2, jf2, jb2) →
        JumpInv code code.length stack2 jf2 jb2 := by
  induction rest with
  | nil =>
    intro pre i stack jf jb hcode hlen hinv stack2 jf2 jb2 hrun
    simp only [precomputeJumpsLoop, Except.ok.injEq, Prod.mk.injEq] at hrun
    obtain ⟨h1, h2, h3⟩ := hrun
    subst h1 h2 h3
    have : code.length = i := by rw [hcode]; simpa using hlen
    rw [this]; exact hinv
  | cons c r ih =>
    intro pre i stack jf jb hcode hlen hinv stack2 jf2 jb2 hrun
    have hci : code[i]? = some c := by
      rw [hcode, List.getElem?_append_right (by omega)]
      simp [hlen]
    have hcode' : code = (pre ++ [c]) ++ r := by rw [hcode]; simp
    have hlen' : (pre ++ [c]).length = i + 1 := by simp [hlen]
    by_cases hc1 : c = '['
    · subst hc1
      simp only [precomputeJumpsLoop, if_true] at hrun
      rcases jumpInv_open code i stack jf jb hinv with h | h
      · exact ih _ _ _ _ _ hcode' hlen' h _ _ _ hrun
      · exact absurd hci h
    · by_cases hc2 : c = ']'
      · subst hc2
        simp only [precomputeJumpsLoop, hc1, if_false, if_true] at hrun
        cases stack with
        | nil => simp at hrun
        | cons start popped =>
          simp only at hrun
          by_cases hr1 : inRange jf start = true
          · by_cases hr2 : inRange jb i = true
            · simp only [hr1, hr2, if_true] at hrun
              exact ih _ _ _ _ _ hcode' hlen'
                (jumpInv_close code i start popped jf jb hci hinv
                  ((inRange_iff _ _).1 hr1) ((inRange_iff _ _).1 hr2)) _ _ _ hrun
            · simp [hr1, hr2] at hrun
          · simp [hr1] at hrun
      · simp only [precomputeJumpsLoop, hc1, hc2, if_false] at hrun
        refine ih _ _ _ _ _ hcode' hlen' (jumpInv_other code i stack jf jb ?_ ?_ hinv) _ _ _ hrun
        · rw [hci]; intro h; exact hc1 (Option.some.inj h)
        · rw [hci]; intro h; exact hc2 (Option.some.inj h)

/-- Within the capacity of the jump tables (a program of at most `MEMORY_SIZE`
instructions), `precomputeJumps` completes on every program with balanced brackets,
and the two tables invert each other on bracket indices. -/
theorem precomputeJumps_involution (m : BrainfuckCompiler)
    (hjf : m.jump_forward.length = MEMORY_SIZE) (hjb : m.jump_backward.length = MEMORY_SIZE)
    (hcap : m.code.length ≤ MEMORY_SIZE) (hbal : BracketsBalanced m.code) :
    ∃ done, precomputeJumps m = .ok done ∧ done.code = m.code ∧
      (∀ i, m.code[i]? = some '[' →
        ∃ j : Nat, done.jump_forward[i]? = some j ∧ done.jump_backward[j]? = some i) ∧
      (∀ j, m.code[j]? = some ']' →
        ∃ i : Nat, done.jump_backward[j]? = some i ∧ done.jump_forward[i]? = some j) := by
  obtain ⟨s2, jf2, jb2, hrun, hlen, _, _⟩ :=
    precomputeJumpsLoop_ok m.code 0 [] m.jump_forward m.jump_backward
      (by simpa using hbal.1) (by simp) (by omega) (by omega)
  have hs2 : s2 = [] := by
    have := hbal.2
    simp only [List.length_nil, Nat.zero_add] at hlen
    exact List.length_eq_zero.1 (by omega)
  subst hs2
  have hinit : JumpInv m.code 0 [] m.jump_forward m.jump_backward := by
    refine ⟨by simp, List.nodup_nil, ?_, ?_⟩
    · intro b hb; omega
    · intro a ha; omega
  obtain ⟨_, _, hcl, hop⟩ :=
    precomputeJumpsLoop_inv m.code m.code [] 0 [] m.jump_forward m.jump_backward
      (by simp) rfl hinit _ _ _ hrun
  refine ⟨{ m with jump_forward := jf2, jump_backward := jb2 }, ?_, rfl, ?_, ?_⟩
  · simp [precomputeJumps, hrun]
  · intro i hi
    have hlt : i < m.code.length := (List.getElem?_eq_some.1 hi).1
    rcases hop i hlt hi with h | ⟨b, h1, _, _, _, h5⟩
    · simp at h
    · exact ⟨b, h1, h5⟩
  · intro j hj
    have hlt : j < m.code.length := (List.getElem?_eq_some.1 hj).1
    obtain ⟨a, h1, _, _, h4, _⟩ := hcl j hlt hj
    exact ⟨a, h1, h4⟩

end DevBFX

/-! ## Single instructions of the wrap-around machine -/

namespace DevBFX

/-- The character that `executeInstruction` switches on, when the instruction pointer
is inside the program. -/
theorem executeInstruction_fetch (m : BrainfuckCompiler) (c : Char)
    (hc : m.code[m.instruction_pointer]? = some c) :
    ¬ m.code.length < m.instruction_pointer ∧
      (m.code.get? m.instruction_pointer).getD (Char.ofNat 0) = c := by
  have hlt : m.instruction_pointer < m.code.length := (List.getElem?_eq_some.1 hc).1
  refine ⟨by omega, ?_⟩
  rw [List.get?_eq_getElem?, hc]
  rfl

theorem executeInstruction_right (m : BrainfuckCompiler)
    (hc : m.code[m.instruction_pointer]? = some '>') :
    executeInstruction m =
      .ok { m with data_pointer := (m.data_pointer + 1) % MEMORY_SIZE } := by
  obtain ⟨h0, hch⟩ := executeInstruction_fetch m _ hc
  unfold executeInstruction
  simp only [h0, hch, if_false, if_true]

theorem executeInstruction_left (m : BrainfuckCompiler)
    (hc : m.code[m.instruction_pointer]? = some '<') :
    executeInstruction m =
      .ok { m with data_pointer :=
              if m.data_pointer = 0 then MEMORY_SIZE - 1 else m.data_pointer - 1 } := by
  obtain ⟨h0, hch⟩ := executeInstruction_fetch m _ hc
  have h1 : ¬ ('<' = '>') := by decide
  unfold executeInstruction
  simp only [h0, hch, h1, if_false, if_true]

theorem executeInstruction_plus (m : BrainfuckCompiler) (v : Nat)
    (hc : m.code[m.instruction_pointer]? = some '+')
    (hv : m.memory[m.data_pointer]? = some v) :
    executeInstruction m =
      .ok { m with memory := m.memory.set m.data_pointer ((v + 1) % 256) } := by
  obtain ⟨h0, hch⟩ := executeInstruction_fetch m _ hc
  have h1 : ¬ ('+' = '>') := by decide
  have h2 : ¬ ('+' = '<') := by decide
  unfold executeInstruction
  simp only [h0, hch, h1, h2, if_false, if_true]
  simp only [List.get?_eq_getElem?, hv]

theorem executeInstruction_minus (m : BrainfuckCompiler) (v : Nat)
    (hc : m.code[m.instruction_pointer]? = some '-')
    (hv : m.memory[m.data_pointer]? = some v) :
    executeInstruction m =
      .ok { m with memory := m.memory.set m.data_pointer ((v + 255) % 256) } := by
  obtain ⟨h0, hch⟩ := executeInstruction_fetch m _ hc
  have h1 : ¬ ('-' = '>') := by decide
  have h2 : ¬ ('-' = '<') := by decide
  have h3 : ¬ ('-' = '+') := by decide
  unfold executeInstruction
  simp only [h0, hch, h1, h2, h3, if_false, if_true]
  simp only [List.get?_eq_getElem?, hv]

/-- C11. For every data pointer below 30000, `>` sets the data pointer to
`(dp + 1) mod 30000` and `<` sets it to `(dp - 1 + 30000) mod 30000`; nothing else of
the machine changes and no fault is raised. In particular `>` at 29999 gives 0 and
`<` at 0 gives 29999. -/
theorem executeInstruction_moves_pointer (m : BrainfuckCompiler)
    (hdp : m.data_pointer < 30000) :
    (m.code[m.instruction_pointer]? = some '>' →
      executeInstruction m = .ok { m with data_pointer := (m.data_pointer + 1) % 30000 }) ∧
    (m.code[m.instruction_pointer]? = some '<' →
      executeInstruction m =
          .ok { m with data_pointer := (m.data_pointer + 30000 - 1) % 30000 } ∧
        (((m.data_pointer + 30000 - 1) % 30000 : Nat) : Int) =
          ((m.data_pointer : Int) - 1 + 30000) % 30000) ∧
    (29999 + 1) % 30000 = 0 ∧ (0 + 30000 - 1) % 30000 = 29999 := by
  refine ⟨?_, ?_, by decide, by decide⟩
  · intro hc
    rw [executeInstruction_right m hc]
    rfl
  · intro hc
    rw [executeInstruction_left m hc]
    have hval : (if m.data_pointer = 0 then MEMORY_SIZE - 1 else m.data_pointer - 1) =
        (m.data_pointer + 30000 - 1) % 30000 := by
      by_cases h0 : m.data_pointer = 0
      · rw [if_pos h0, h0]; rfl
      · rw [if_neg h0]
        omega
    rw [hval]
    refine ⟨rfl, ?_⟩
    omega

/-- C11 at a concrete machine: the freshly constructed machine holding the program `>`. -/
theorem executeInstruction_moves_pointer_witness :
    executeInstruction { BrainfuckCompiler.new [] with code := ['>'] } =
      .ok { BrainfuckCompiler.new [] with code := ['>'], data_pointer := (0 + 1) % 30000 } :=
  (executeInstruction_moves_pointer { BrainfuckCompiler.new [] with code := ['>'] }
    (by decide)).1 (by decide)

/-- C12. Whatever value `v` the current cell holds (a byte, 0..255, on every machine
the code builds), `+` stores `(v + 1) mod 256` and `-` stores `(v + 255) mod 256`,
which is `(v - 1) mod 256`; nothing else of the machine changes and no fault is
raised. In particular 255 + 1 wraps to 0 and 0 - 1 wraps to 255. -/
theorem executeInstruction_cell_arithmetic (m : BrainfuckCompiler) (v : Nat)
    (hcell : m.memory[m.data_pointer]? = some v) :
    (m.code[m.instruction_pointer]? = some '+' →
      ∃ done, executeInstruction m = .ok done ∧
        done = { m with memory := m.memory.set m.data_pointer ((v + 1) % 256) } ∧
        done.memory[done.data_pointer]? = some ((v + 1) % 256)) ∧
    (m.code[m.instruction_pointer]? = some '-' →
      ∃ done, executeInstruction m = .ok done ∧
        done = { m with memory := m.memory.set m.data_pointer ((v + 255) % 256) } ∧
        done.memory[done.data_pointer]? = some ((v + 255) % 256) ∧
        (((v + 255) % 256 : Nat) : Int) = ((v : Int) - 1) % 256) ∧
    (255 + 1) % 256 = 0 ∧ (0 + 255) % 256 = 255 := by
  have hlt : m.data_pointer < m.memory.length := (List.getElem?_eq_some.1 hcell).1
  refine ⟨?_, ?_, by decide, by decide⟩
  · intro hc
    exact ⟨_, executeInstruction_plus m v hc hcell, rfl, List.getElem?_set_self hlt⟩
  · intro hc
    refine ⟨_, executeInstruction_minus m v hc hcell, rfl, List.getElem?_set_self hlt, ?_⟩
    omega

/-- C12 at a concrete machine: the freshly constructed machine holding the program
`+`, whose current cell is 0. -/
theorem executeInstruction_cell_arithmetic_witness :
    ∃ done, executeInstruction { BrainfuckCompiler.new [] with code := ['+'] } = .ok done ∧
      done = { BrainfuckCompiler.new [] with
                 code := ['+'], memory := (BrainfuckCompiler.new []).memory.set 0 ((0 + 1) % 256) } ∧
      done.memory[done.data_pointer]? = some ((0 + 1) % 256) :=
  (executeInstruction_cell_arithmetic { BrainfuckCompiler.new [] with code := ['+'] } 0
    (List.getElem?_replicate_of_lt (by decide))).1 (by decide)

/-- On a machine whose data pointer is a tape index and whose jump tables reach the
current bracket, `executeInstruction` raises no fault. -/
theorem executeInstruction_total (m : BrainfuckCompiler)
    (hip : m.instruction_pointer < m.code.length)
    (hdp : m.data_pointer < m.memory.length)
    (hjf : m.code[m.instruction_pointer]? = some '[' →
      m.instruction_pointer < m.jump_forward.length)
    (hjb : m.code[m.instruction_pointer]? = some ']' →
      m.instruction_pointer < m.jump_backward.length) :
    ∃ m1, executeInstruction m = .ok m1 := by
  have hc : m.code[m.instruction_pointer]? = some (m.code[m.instruction_pointer]) :=
    List.getElem?_eq_getElem hip
  have hv : m.memory.get? m.data_pointer = some (m.memory[m.data_pointer]) := by
    rw [List.get?_eq_getElem?]; exact List.getElem?_eq_getElem hdp
  have hr : inRange m.memory m.data_pointer = true := (inRange_iff _ _).2 hdp
  obtain ⟨h0, hch⟩ := executeInstruction_fetch m _ hc
  generalize m.code[m.instruction_pointer] = ch at hc hch
  unfold executeInstruction
  simp only [h0, hch, if_false, hv, hr, if_true]
  by_cases h1 : ch = '>'
  · simp only [h1, if_true]; exact ⟨_, rfl⟩
  by_cases h2 : ch = '<'
  · simp only [h1, h2, if_true, if_false]; exact ⟨_, rfl⟩
  by_cases h3 : ch = '+'
  · simp only [h1, h2, h3, if_true, if_false]; exact ⟨_, rfl⟩
  by_cases h4 : ch = '-'
  · simp only [h1, h2, h3, h4, if_true, if_false]; exact ⟨_, rfl⟩
  by_cases h5 : ch = '.'
  · simp only [h1, h2, h3, h4, h5, if_true, if_false]; exact ⟨_, rfl⟩
  by_cases h6 : ch = ','
  · simp only [h1, h2, h3, h4, h5, h6, if_true, if_false]; exact ⟨_, rfl⟩
  by_cases h7 : ch = '['
  · simp only [h1, h2, h3, h4, h5, h6, h7, if_true, if_false]
    have hlt := hjf (by rw [hc, h7])
    have hj : m.jump_forward.get? m.instruction_pointer =
        some (m.jump_forward[m.instruction_pointer]) := by
      rw [List.get?_eq_getElem?]; exact List.getElem?_eq_getElem hlt
    by_cases hz : m.memory[m.data_pointer] = 0
    · simp only [hz, if_true, hj]; exact ⟨_, rfl⟩
    · simp only [hz, if_false]; exact ⟨_, rfl⟩
  by_cases h8 : ch = ']'
  · simp only [h1, h2, h3, h4, h5, h6, h7, h8, if_true, if_false]
    have hlt := hjb (by rw [hc, h8])
    have hj : m.jump_backward.get? m.instruction_pointer =
        some (m.jump_backward[m.instruction_pointer]) := by
      rw [List.get?_eq_getElem?]; exact List.getElem?_eq_getElem hlt
    by_cases hz : m.memory[m.data_pointer] = 0
    · simp only [hz, ne_eq, not_true_eq_false, if_false]; exact ⟨_, rfl⟩
    · simp only [hz, ne_eq, not_false_eq_true, if_true, hj]; exact ⟨_, rfl⟩
  simp only [h1, h2, h3, h4, h5, h6, h7, h8, if_false]
  exact ⟨_, rfl⟩

/-- C13. `step`: when the instruction pointer is at or past the end of the code,
`step` returns `false` and leaves the whole machine (tape, data pointer, instruction
pointer, streams) as it was. Otherwise `step` is exactly one transition: the effect
of `executeInstruction` at the instruction pointer followed by one advance of the
instruction pointer, with `true` returned; and on every machine whose data pointer is
a tape index and whose jump tables reach the current bracket that transition exists,
so `step` does return `true`. -/
theorem step_one_transition (m : BrainfuckCompiler) :
    (m.code.length ≤ m.instruction_pointer → step m = .ok (false, m)) ∧
    (m.instruction_pointer < m.code.length →
      step m = (executeInstruction m).map (fun m1 =>
        (true, { m1 with instruction_pointer := m1.instruction_pointer + 1 }))) ∧
    (m.instruction_pointer < m.code.length → m.data_pointer < m.memory.length →
      (m.code[m.instruction_pointer]? = some '[' →
        m.instruction_pointer < m.jump_forward.length) →
      (m.code[m.instruction_pointer]? = some ']' →
        m.instruction_pointer < m.jump_backward.length) →
      ∃ m1, executeInstruction m = .ok m1 ∧
        step m = .ok (true, { m1 with instruction_pointer := m1.instruction_pointer + 1 })) := by
  refine ⟨?_, ?_, ?_⟩
  · intro h
    simp [step, h]
  · intro h
    have hn : ¬ m.instruction_pointer ≥ m.code.length := by omega
    unfold step
    rw [if_neg hn]
    cases executeInstruction m with
    | error e => rfl
    | ok m1 => rfl
  · intro h hdp hjf hjb
    obtain ⟨m1, hm1⟩ := executeInstruction_total m h hdp hjf hjb
    have hn : ¬ m.instruction_pointer ≥ m.code.length := by omega
    refine ⟨m1, hm1, ?_⟩
    unfold step
    rw [if_neg hn, hm1]

end DevBFX

/-! ## Loading a program -/

namespace DevBFX

theorem precomputeJumps_keeps_state (m done : BrainfuckCompiler)
    (h : precomputeJumps m = .ok done) :
    done.memory = m.memory ∧ done.data_pointer = m.data_pointer ∧
      done.instruction_pointer = m.instruction_pointer ∧ done.cin = m.cin ∧
      done.cout = m.cout := by
  unfold precomputeJumps at h
  split at h
  · cases h
  · split at h
    · cases h; exact ⟨rfl, rfl, rfl, rfl, rfl⟩
    · cases h

/-- C14, as stated, fails. The machine left behind by a run of `+>` has its data
pointer at 1, its instruction pointer at 2 and 1 in cell 0; after `loadCode` of the
empty program on that machine all three are still so. -/
theorem loadCode_does_not_reset :
    (loadAfterRun 2 ['+', '>'] [] []).map
        (fun m => (m.data_pointer, m.instruction_pointer, m.memory.get? 0)) =
      some (1, 2, some 1) := by
  decide

end DevBFX

/-! ## Balanced brackets and the nesting depth -/

/-- The depth scan finishes exactly on the texts in which no prefix holds more `]`
than `[` plus the starting depth; the depth it returns is the surplus of `[`. -/
theorem bracketDepth_iff (text : List Char) :
    ∀ (d e : Nat), bracketDepth d text = some e ↔
      (∀ j, j ≤ text.length → closes (text.take j) ≤ d + opens (text.take j)) ∧
        e + closes text = d + opens text := by
  induction text with
  | nil =>
    intro d e
    simp only [bracketDepth, Option.some.injEq, List.length_nil, List.take_nil, opens_nil,
      closes_nil, Nat.add_zero]
    constructor
    · intro h; exact ⟨fun _ _ => Nat.zero_le _, h.symm⟩
    · intro h; exact h.2.symm
  | cons c r ih =>
    intro d e
    have hstep : ∀ (P : Nat → Prop), (∀ j, j ≤ (c :: r).length → P j) ↔
        (P 0 ∧ ∀ j, j ≤ r.length → P (j + 1)) := by
      intro P
      constructor
      · intro h
        exact ⟨h 0 (Nat.zero_le _), fun j hj => h (j + 1) (by simp only [List.length_cons]; omega)⟩
      · intro h j hj
        cases j with
        | zero => exact h.1
        | succ j => exact h.2 j (by simp only [List.length_cons] at hj; omega)
    rw [hstep]
    simp only [List.take_zero, List.take_succ_cons, opens_cons, closes_cons, opens_nil,
      closes_nil]
    by_cases hc1 : c = '['
    · subst hc1
      have hne : ¬ ('[' = ']') := by decide
      simp only [bracketDepth, if_true, hne, if_false, Nat.zero_add]
      rw [ih (d + 1) e]
      constructor
      · intro ⟨h1, h2⟩
        exact ⟨⟨Nat.zero_le _, fun j hj => by have := h1 j hj; omega⟩, by omega⟩
      · intro ⟨⟨_, h1⟩, h2⟩
        exact ⟨fun j hj => by have := h1 j hj; omega, by omega⟩
    · by_cases hc2 : c = ']'
      · subst hc2
        simp only [bracketDepth, hc1, if_false, if_true]
        cases d with
        | zero =>
          simp only [Nat.zero_add]
          constructor
          · intro h; cases h
          · intro ⟨⟨_, h1⟩, _⟩
            have := h1 0 (Nat.zero_le _)
            simp only [List.take_zero, opens_nil, closes_nil] at this
            omega
        | succ d =>
          simp only
          rw [ih d e]
          constructor
          · intro ⟨h1, h2⟩
            exact ⟨⟨Nat.zero_le _, fun j hj => by have := h1 j hj; omega⟩, by omega⟩
          · intro ⟨⟨_, h1⟩, h2⟩
            exact ⟨fun j hj => by have := h1 j hj; omega, by omega⟩
      · simp only [bracketDepth, hc1, hc2, if_false, Nat.zero_add]
        rw [ih d e]
        constructor
        · intro ⟨h1, h2⟩
          exact ⟨⟨Nat.zero_le _, h1⟩, h2⟩
        · intro ⟨⟨_, h1⟩, h2⟩
          exact ⟨h1, h2⟩

/-- Brackets are balanced exactly when the depth scan from 0 ends at 0. -/
theorem bracketsBalanced_iff (text : List Char) :
    BracketsBalanced text ↔ bracketDepth 0 text = some 0 := by
  rw [bracketDepth_iff]
  simp only [BracketsBalanced, Nat.zero_add]

/-- Characters that are no instruction do not change the nesting depth. -/
theorem bracketDepth_filter (text : List Char) :
    ∀ d, bracketDepth d (text.filter DevBFX.isInstruction) = bracketDepth d text := by
  induction text with
  | nil => intro d; rfl
  | cons c r ih =>
    intro d
    by_cases hc1 : c = '['
    · subst hc1
      have : DevBFX.isInstruction '[' = true := by decide
      simp only [List.filter_cons, this, if_true, bracketDepth, ih]
    · by_cases hc2 : c = ']'
      · subst hc2
        have : DevBFX.isInstruction ']' = true := by decide
        simp only [List.filter_cons, this, if_true, bracketDepth, hc1, if_false]
        cases d with
        | zero => rfl
        | succ d => exact ih d
      · by_cases hi : DevBFX.isInstruction c = true
        · simp only [List.filter_cons, hi, if_true, bracketDepth, hc1, hc2, if_false, ih]
        · simp only [List.filter_cons, hi, bracketDepth, hc1, hc2, if_false, ih]
          exact ih d

namespace DevBFX

/-- A scan of `precomputeJumps` that runs to the end has met no `]` with an empty
stack, and its stack holds one index for every `[` still open. -/
theorem precomputeJumpsLoop_depth (rest : List Char) :
    ∀ (i : Nat) (stack jf jb s2 jf2 jb2 : List Nat),
      precomputeJumpsLoop rest i stack jf jb = .ok (s2, jf2, jb2) →
      bracketDepth stack.length rest = some s2.length := by
  induction rest with
  | nil =>
    intro i stack jf jb s2 jf2 jb2 h
    simp only [precomputeJumpsLoop, Except.ok.injEq, Prod.mk.injEq] at h
    rw [h.1]; rfl
  | cons c r ih =>
    intro i stack jf jb s2 jf2 jb2 h
    by_cases hc1 : c = '['
    · subst hc1
      simp only [precomputeJumpsLoop, if_true] at h
      simp only [bracketDepth, if_true]
      exact ih _ _ _ _ _ _ _ h
    · by_cases hc2 : c = ']'
      · subst hc2
        simp only [precomputeJumpsLoop, hc1, if_false, if_true] at h
        simp only [bracketDepth, hc1, if_false, if_true]
        cases stack with
        | nil => simp at h
        | cons start popped =>
          simp only at h
          by_cases hr1 : inRange jf start = true
          · by_cases hr2 : inRange jb i = true
            · simp only [hr1, hr2, if_true] at h
              exact ih _ _ _ _ _ _ _ h
            · simp [hr1, hr2] at h
          · simp [hr1] at h
      · simp only [precomputeJumpsLoop, hc1, hc2, if_false] at h
        simp only [bracketDepth, hc1, hc2, if_false]
        exact ih _ _ _ _ _ _ _ h

/-- Whenever `loadCode` succeeds, the brackets of the text are balanced. -/
theorem loadCode_ok_balanced (m done : BrainfuckCompiler) (text : List Char)
    (h : loadCode m text = .ok done) : BracketsBalanced text := by
  rw [bracketsBalanced_iff, ← bracketDepth_filter, ← loadCodeFilter_eq_filter]
  unfold loadCode precomputeJumps at h
  simp only at h
  split at h
  · cases h
  · rename_i s2 jf2 jb2 hrun
    have hd := precomputeJumpsLoop_depth _ _ _ _ _ _ _ _ hrun
    split at h
    · rename_i hemp
      have : s2 = [] := by simpa using hemp
      rw [this] at hd
      exact hd
    · cases h

/-- C15, on the code. For every program whose brackets are unbalanced, `run` does not
return at all: `loadCode` raises (the exception of `precomputeJumps`, or the store
outside a jump table) and nothing in `run` catches it. No run ever returns a value
other than 0, so the value 2 that `running` tests for is never produced. -/
theorem run_unbalanced_raises (fuel : Nat) (program : List Char) (cin : List Nat)
    (h : ¬ BracketsBalanced program) :
    (∃ e, run fuel program cin = some (.error e)) ∧
      (∀ code done, run fuel program cin ≠ some (.ok (code, done))) ∧
      (∀ f p input code done, run f p input = some (.ok (code, done)) → code = 0) := by
  have hret : ∀ f p input code done, run f p input = some (.ok (code, done)) → code = 0 := by
    intro f p input code done hr
    unfold run at hr
    split at hr
    · cases hr
    · split at hr
      · cases hr
      · cases hr
      · simp only [Option.some.injEq, Except.ok.injEq, Prod.mk.injEq] at hr
        exact hr.1.symm
  cases hl : loadCode (BrainfuckCompiler.new cin) program with
  | ok bfc => exact absurd (loadCode_ok_balanced _ _ _ hl) h
  | error e =>
    have hrun : run fuel program cin = some (.error e) := by
      unfold run
      rw [hl]
    refine ⟨⟨e, hrun⟩, ?_, hret⟩
    intro code done hc
    rw [hrun] at hc
    cases hc

/-- C15 at a concrete program: `]`, on which `run` raises the unmatched-close
exception for index 0. -/
theorem run_unbalanced_raises_witness :
    ∃ e, run 0 [']'] [] = some (.error e) :=
  (run_unbalanced_raises 0 [']'] [] (by
    rw [bracketsBalanced_iff]
    decide)).1

/-- The exception that `run` raises on `]` and on `[`. -/
theorem run_single_bracket (fuel : Nat) (cin : List Nat) :
    run fuel [']'] cin = some (.error (.unmatchedClose 0)) ∧
      run fuel ['['] cin = some (.error .unmatchedOpen) := by
  constructor <;>
    simp [run, loadCode, loadCodeFilter, isInstruction, precomputeJumps, precomputeJumpsLoop]

/-- C20, as amended. Jump resolution of `+[` fails with the unmatched-open error,
whose message is `Unmatched '[' in code`: it names no index. -/
theorem loadCode_plus_open :
    loadCode (BrainfuckCompiler.new []) ['+', '['] = .error .unmatchedOpen ∧
      Fault.what .unmatchedOpen = some "Unmatched '[' in code" := by
  constructor
  · simp [loadCode, loadCodeFilter, isInstruction, precomputeJumps, precomputeJumpsLoop]
  · rfl

/-- C20, as stated, fails. The error raised for `+[`, where the unmatched `[` is at
index 1, is the very error raised for `[`, where it is at index 0, and for `++[`,
where it is at index 2; its message holds no digit: the error does not identify the
index. (The error for an unmatched `]` does carry its index.) -/
theorem unmatchedOpen_has_no_index :
    loadCode (BrainfuckCompiler.new []) ['+', '['] =
        loadCode (BrainfuckCompiler.new []) ['['] ∧
      loadCode (BrainfuckCompiler.new []) ['+', '['] =
        loadCode (BrainfuckCompiler.new []) ['+', '+', '['] ∧
      (∀ e, loadCode (BrainfuckCompiler.new []) ['+', '['] = .error e →
        ∃ text, Fault.what e = some text ∧ text.toList.all (fun ch => !ch.isDigit) = true) ∧
      Fault.what (.unmatchedClose 1) = some "Unmatched ']' at position 1" := by
  have h1 : loadCode (BrainfuckCompiler.new []) ['+', '['] = .error .unmatchedOpen := by
    simp [loadCode, loadCodeFilter, isInstruction, precomputeJumps, precomputeJumpsLoop]
  have h0 : loadCode (BrainfuckCompiler.new []) ['['] = .error .unmatchedOpen := by
    simp [loadCode, loadCodeFilter, isInstruction, precomputeJumps, precomputeJumpsLoop]
  have h2 : loadCode (BrainfuckCompiler.new []) ['+', '+', '['] = .error .unmatchedOpen := by
    simp [loadCode, loadCodeFilter, isInstruction, precomputeJumps, precomputeJumpsLoop]
  refine ⟨by rw [h1, h0], by rw [h1, h2], ?_, by decide⟩
  intro e he
  rw [h1] at he
  cases he
  exact ⟨_, rfl, by decide⟩

end DevBFX

/-! ## Compile errors of the bounds-checked machine -/

theorem get?_isSome_iff {α : Type} (l : List α) (i : Nat) :
    (l.get? i).isSome = true ↔ i < l.length := by
  rw [List.get?_eq_getElem?]
  by_cases h : i < l.length
  · simp [h]
  · simp [h, List.getElem?_eq_none (Nat.le_of_not_lt h)]

namespace TraeBFX

/-- What the first scan of `run` returns, read off the nesting depth, for a program
that fits `loop_map`: it stops at a `]` met with an empty stack exactly when the depth
scan fails, and otherwise ends with one stack entry for every `[` still open. -/
theorem buildLoopMap_within (rest : List Char) :
    ∀ (i : Nat) (stack : List Nat) (loop_map : List Int),
      (∀ s, s ∈ stack → s < loop_map.length) → i + rest.length ≤ loop_map.length →
      (bracketDepth stack.length rest = none →
        ∃ map2, buildLoopMap rest i stack loop_map = .ok (false, [], map2)) ∧
      (∀ e, bracketDepth stack.length rest = some e →
        ∃ s2 map2, buildLoopMap rest i stack loop_map = .ok (true, s2, map2) ∧
          s2.length = e) := by
  induction rest with
  | nil =>
    intro i stack loop_map _ _
    constructor
    · intro h; simp [bracketDepth] at h
    · intro e h
      simp only [bracketDepth, Option.some.injEq] at h
      exact ⟨stack, loop_map, rfl, h⟩
  | cons c r ih =>
    intro i stack loop_map hst hcap
    simp only [List.length_cons] at hcap
    by_cases hc1 : c = '['
    · subst hc1
      simp only [bracketDepth, buildLoopMap, if_true]
      exact ih (i + 1) (i :: stack) loop_map
        (by
          intro s hs
          rcases List.mem_cons.1 hs with h | h
          · omega
          · exact hst s h)
        (by omega)
    · by_cases hc2 : c = ']'
      · subst hc2
        simp only [bracketDepth, buildLoopMap, hc1, if_false, if_true]
        cases stack with
        | nil =>
          simp only [List.length_nil]
          constructor
          · intro _; exact ⟨loop_map, rfl⟩
          · intro e h; cases h
        | cons start popped =>
          have h1 : (loop_map.get? start).isSome = true :=
            (get?_isSome_iff _ _).2 (hst start (List.mem_cons_self _ _))
          have h2 : ((loop_map.set start (i : Int)).get? i).isSome = true :=
            (get?_isSome_iff _ _).2 (by rw [List.length_set]; omega)
          simp only [List.length_cons, h1, h2, if_true]
          exact ih (i + 1) popped _
            (by
              intro s hs
              rw [List.length_set, List.length_set]
              exact hst s (List.mem_cons_of_mem _ hs))
            (by rw [List.length_set, List.length_set]; omega)
      · simp only [bracketDepth, buildLoopMap, hc1, hc2, if_false]
        exact ih (i + 1) stack loop_map hst (by omega)

/-- One pass through the body of the second scan leaves `run` only with the value 1. -/
theorem runBody_ret (program : List Char) (s s1 : RunState) (code : Int)
    (h : runBody program s = .ok (.ret code s1)) : code = 1 := by
  unfold runBody at h
  by_cases hneg : s.i < 0
  · simp only [hneg, if_true] at h; cases h
  simp only [hneg, if_false] at h
  cases hget : program.get? s.i.toNat with
  | none => rw [hget] at h; cases h
  | some c =>
    rw [hget] at h
    simp only at h
    by_cases h1 : c = '>'
    · simp only [h1, if_true] at h
      by_cases hp : s.pointer = MEMORY_SIZE - 1
      · simp only [hp, if_true, Except.ok.injEq, Flow.ret.injEq] at h; exact h.1.symm
      · simp only [hp, if_false] at h; cases h
    by_cases h2 : c = '<'
    · subst h2
      simp only [h1, if_true, if_false] at h
      by_cases hp : s.pointer = 0
      · simp only [hp, if_true, Except.ok.injEq, Flow.ret.injEq] at h; exact h.1.symm
      · simp only [hp, if_false] at h; cases h
    by_cases h3 : c = '+'
    · subst h3
      simp only [h1, h2, if_true, if_false] at h
      cases hm : s.memory.get? s.pointer <;> rw [hm] at h <;> cases h
    by_cases h4 : c = '-'
    · subst h4
      simp only [h1, h2, h3, if_true, if_false] at h
      cases hm : s.memory.get? s.pointer <;> rw [hm] at h <;> cases h
    by_cases h5 : c = '.'
    · subst h5
      simp only [h1, h2, h3, h4, if_true, if_false] at h
      cases hm : s.memory.get? s.pointer <;> rw [hm] at h <;> cases h
    by_cases h6 : c = ','
    · subst h6
      simp only [h1, h2, h3, h4, h5, if_true, if_false] at h
      cases hd : s.cin.dropWhile (fun b => b = 10) with
      | nil => rw [hd] at h; cases h
      | cons b unread =>
        rw [hd] at h
        simp only at h
        by_cases hm : (s.memory.get? s.pointer).isSome = true
        · simp only [hm, if_true] at h; cases h
        · simp only [hm] at h; cases h
    by_cases h7 : c = '['
    · subst h7
      simp only [h1, h2, h3, h4, h5, h6, if_true, if_false] at h
      cases hm : s.memory.get? s.pointer with
      | none => rw [hm] at h; cases h
      | some v =>
        rw [hm] at h
        simp only at h
        by_cases hv : v = 0
        · simp only [hv, if_true] at h
          cases hj : s.loop_map.get? s.i.toNat <;> rw [hj] at h <;> cases h
        · simp only [hv, if_false] at h; cases h
    by_cases h8 : c = ']'
    · subst h8
      simp only [h1, h2, h3, h4, h5, h6, h7, if_true, if_false] at h
      cases hm : s.memory.get? s.pointer with
      | none => rw [hm] at h; cases h
      | some v =>
        rw [hm] at h
        simp only at h
        by_cases hv : v = 0
        · simp only [hv, ne_eq, not_true_eq_false, if_false] at h; cases h
        · simp only [hv, ne_eq, not_false_eq_true, if_true] at h
          cases hj : s.loop_map.get? s.i.toNat <;> rw [hj] at h <;> cases h
    simp only [h1, h2, h3, h4, h5, h6, h7, h8, if_false] at h
    cases h

/-- The first scan passes over a run of `+` without touching the stack or the map. -/
theorem buildLoopMap_skip_plus (n : Nat) (rest : List Char) :
    ∀ (i : Nat) (stack : List Nat) (loop_map : List Int),
      buildLoopMap (List.replicate n '+' ++ rest) i stack loop_map =
        buildLoopMap rest (i + n) stack loop_map := by
  induction n with
  | zero => intro i stack loop_map; simp
  | succ n ih =>
    intro i stack loop_map
    have h1 : ¬ ('+' = '[') := by decide
    have h2 : ¬ ('+' = ']') := by decide
    rw [List.replicate_succ, List.cons_append]
    simp only [buildLoopMap, h1, h2, if_false]
    rw [ih]
    congr 1
    omega

/-- Once the `[` of a pair sits at an index at or beyond `PROGRAM_SIZE`, the store at
its `]` falls outside `loop_map`. -/
theorem run_pair_outside_loop_map (n fuel : Nat) (cin : List Nat) (tail : List Char)
    (hn : PROGRAM_SIZE ≤ n) :
    run fuel (List.replicate n '+' ++ '[' :: ']' :: tail) cin =
      some (.error .jumpTableOutOfRange) := by
  have hr : ((RunState.init cin).loop_map.get? (0 + n)).isSome = false := by
    cases hv : ((RunState.init cin).loop_map.get? (0 + n)).isSome with
    | false => rfl
    | true =>
      have hlt := (get?_isSome_iff _ _).1 hv
      simp only [RunState.init, List.length_replicate] at hlt
      omega
  have h1 : ¬ (']' = '[') := by decide
  unfold run
  rw [buildLoopMap_skip_plus]
  simp only [buildLoopMap, if_true, h1, if_false, hr]
  simp

/-- The first scan of `run` makes no store outside `loop_map` whenever every `]` of
the program stands at an index inside `loop_map`, whatever the length of the
program: a program without brackets, however long, is scanned to its end. -/
theorem buildLoopMap_ok_of_closes_inside (rest : List Char) :
    ∀ (i : Nat) (stack : List Nat) (loop_map : List Int),
      (∀ s, s ∈ stack → s < i) →
      (∀ k, rest[k]? = some ']' → i + k < loop_map.length) →
      ∃ r, buildLoopMap rest i stack loop_map = .ok r := by
  induction rest with
  | nil => intro i stack loop_map _ _; exact ⟨_, rfl⟩
  | cons c r ih =>
    intro i stack loop_map hst hin
    have hshift : ∀ lm2 : List Int, lm2.length = loop_map.length →
        ∀ k, r[k]? = some ']' → i + 1 + k < lm2.length := by
      intro lm2 e k hk
      have := hin (k + 1) (by simpa using hk)
      omega
    by_cases hc1 : c = '['
    · subst hc1
      simp only [buildLoopMap, if_true]
      refine ih (i + 1) (i :: stack) loop_map ?_ (hshift loop_map rfl)
      intro s hs
      rcases List.mem_cons.1 hs with h | h
      · omega
      · have := hst s h; omega
    · by_cases hc2 : c = ']'
      · subst hc2
        simp only [buildLoopMap, hc1, if_false, if_true]
        cases stack with
        | nil => exact ⟨_, rfl⟩
        | cons start popped =>
          have hi : i < loop_map.length := by
            have := hin 0 List.getElem?_cons_zero
            omega
          have hs : start < loop_map.length := by
            have := hst start (List.mem_cons_self _ _)
            omega
          have e1 : (loop_map.get? start).isSome = true := by
            rw [List.get?_eq_getElem?, List.getElem?_eq_getElem hs]; rfl
          have e2 : ((loop_map.set start (i : Int)).get? i).isSome = true := by
            rw [List.get?_eq_getElem?, List.getElem?_eq_getElem (by simpa using hi)]; rfl
          simp only [e1, e2, if_true]
          refine ih (i + 1) popped _ ?_ (hshift _ (by simp))
          intro s hs2
          have := hst s (List.mem_cons_of_mem _ hs2)
          omega
      · simp only [buildLoopMap, hc1, hc2, if_false]
        refine ih (i + 1) stack loop_map ?_ (hshift loop_map rfl)
        intro s hs
        have := hst s hs
        omega

end TraeBFX

/-! ## The source emitter -/

namespace DevBFX

theorem emit_foldl (line : Char → String) (code : List Char) :
    ∀ acc : String,
      code.foldl (fun c_code instruction => c_code ++ "    " ++ line instruction ++ "\n") acc =
        acc ++ emittedLines line code := by
  induction code with
  | nil => intro acc; simp [emittedLines]
  | cons c r ih =>
    intro acc
    rw [List.foldl_cons, ih]
    simp only [emittedLines, String.append_assoc]

/-- C17. For every program, the text returned by `compileToC` is the fixed prologue,
then for every instruction in program order one line made of four spaces, the fixed
text of that instruction and a line feed (the fixed texts hold no line feed), then
the fixed epilogue `    return 0;` and the closing brace. For the program `+.` the
two instruction lines are `    ++*ptr;` and `    putchar(*ptr);`, after a prologue
that declares the zeroed array and points `ptr` at its first cell. -/
theorem compileToC_text (m : BrainfuckCompiler) :
    compileToC m =
        compileToC_prologue ++ emittedLines compileToC_line m.code ++ compileToC_epilogue ∧
      (∀ c, c ∈ alphabet → (compileToC_line c).toList.all (fun ch => ch != '\n') = true) ∧
      compileToC_epilogue = "    return 0;\n\x7d\n" ∧
      emittedLines compileToC_line ['+', '.'] = "    ++*ptr;\n    putchar(*ptr);\n" ∧
      compileToC { BrainfuckCompiler.new [] with code := ['+', '.'] } =
        "#include <bits/stdc++.h>\nusing namespace std;\n\nint main() \x7b\n    unsigned char memory[30000] = \x7b0\x7d;\n    unsigned char *ptr = memory;\n\n    ++*ptr;\n    putchar(*ptr);\n    return 0;\n\x7d\n" := by
  refine ⟨?_, by decide, by decide, by decide, by decide⟩
  unfold compileToC
  rw [emit_foldl]

end DevBFX

/-! ## The editor: filtering with comments, saving and loading -/

namespace DevBFX

theorem filter_sublist_cons (p : Char → Bool) (ch : Char) (rest : List Char) :
    (rest.filter p).Sublist ((ch :: rest).filter p) := by
  by_cases h : p ch = true
  · rw [List.filter_cons_of_pos h]; exact List.sublist_cons_self _ _
  · rw [List.filter_cons_of_neg h]

/-- The filtering loop of `input_Bf` only ever appends instruction characters of the
text, in their order: what it adds is a subsequence of the text filtered by the
alphabet. -/
theorem input_Bf_loop_sublist (text : List Char) :
    ∀ (skip inMulti inSingle : Bool) (filtered : List Char),
      ∃ added, input_Bf_loop text skip inMulti inSingle filtered = filtered ++ added ∧
        added.Sublist (text.filter isInstruction) := by
  induction text with
  | nil =>
    intro skip inMulti inSingle filtered
    exact ⟨[], by simp [input_Bf_loop], List.Sublist.refl _⟩
  | cons ch rest ih =>
    intro skip inMulti inSingle filtered
    have hdrop : ∀ (s a b : Bool),
        ∃ added, input_Bf_loop rest s a b filtered = filtered ++ added ∧
          added.Sublist ((ch :: rest).filter isInstruction) := by
      intro s a b
      obtain ⟨added, h1, h2⟩ := ih s a b filtered
      exact ⟨added, h1, h2.trans (filter_sublist_cons isInstruction ch rest)⟩
    simp only [input_Bf_loop]
    repeat' split
    all_goals first
      | exact hdrop _ _ _
      | (obtain ⟨added, g1, g2⟩ := ih false inMulti inSingle (filtered ++ [ch])
         refine ⟨ch :: added, by rw [g1]; simp, ?_⟩
         rw [List.filter_cons_of_pos (by assumption)]
         exact g2.cons₂ ch)

/-- On a text without `/` no comment is ever opened, and the filtering loop of
`input_Bf` appends every instruction character. -/
theorem input_Bf_loop_without_slash (text : List Char) :
    (∀ ch, ch ∈ text → ch ≠ '/') → ∀ filtered : List Char,
      input_Bf_loop text false false false filtered = filtered ++ text.filter isInstruction := by
  induction text with
  | nil => intro _ filtered; simp [input_Bf_loop]
  | cons ch rest ih =>
    intro hno filtered
    have hne : ch ≠ '/' := hno ch (List.mem_cons_self _ _)
    have hrest : ∀ c, c ∈ rest → c ≠ '/' := fun c hc => hno c (List.mem_cons_of_mem _ hc)
    by_cases hi : isInstruction ch = true
    · simp [input_Bf_loop, hne, hi, ih hrest]
    · simp [input_Bf_loop, hne, hi, ih hrest]

/-- Outside a comment, a stretch of text without `/` contributes its instruction
characters, whatever follows it. -/
theorem input_Bf_loop_plain (pre : List Char) :
    (∀ ch, ch ∈ pre → ch ≠ '/') → ∀ rest filtered : List Char,
      input_Bf_loop (pre ++ rest) false false false filtered =
        input_Bf_loop rest false false false (filtered ++ pre.filter isInstruction) := by
  induction pre with
  | nil => intro _ rest filtered; simp
  | cons ch r ih =>
    intro hno rest filtered
    have hne : ch ≠ '/' := hno ch (List.mem_cons_self _ _)
    have hrest : ∀ c, c ∈ r → c ≠ '/' := fun c hc => hno c (List.mem_cons_of_mem _ hc)
    by_cases hi : isInstruction ch = true
    · simp [input_Bf_loop, hne, hi, ih hrest]
    · simp [input_Bf_loop, hne, hi, ih hrest]

/-- Outside a comment, a `/` that is followed by neither `*` nor `/` is dropped alone. -/
theorem input_Bf_loop_lone_slash (c : Char) (rest filtered : List Char)
    (h1 : c ≠ '*') (h2 : c ≠ '/') :
    input_Bf_loop ('/' :: c :: rest) false false false filtered =
      input_Bf_loop (c :: rest) false false false filtered := by
  have hs : isInstruction '/' = false := by decide
  rw [input_Bf_loop]
  simp [h1, h2, hs]

/-- Inside a multi-line comment, everything up to and including the closing `*/` is
dropped, for a body that holds no `*/` and does not end in `/`. -/
theorem input_Bf_loop_in_multi (body : List Char) :
    ∀ (skip : Bool) (rest filtered : List Char),
      (∀ a b, body ≠ a ++ '*' :: '/' :: b) → (∀ a, body ≠ a ++ ['/']) →
      (skip = true → body ≠ []) →
      input_Bf_loop (body ++ '*' :: '/' :: rest) skip true false filtered =
        input_Bf_loop rest false false false filtered := by
  induction body with
  | nil =>
    intro skip rest filtered _ _ hskip
    have hs : skip = false := by
      cases skip with
      | false => rfl
      | true => exact absurd rfl (hskip rfl)
    subst hs
    simp [input_Bf_loop]
  | cons c r ih =>
    intro skip rest filtered hno hend hskip
    have hno' : ∀ a b, r ≠ a ++ '*' :: '/' :: b := by
      intro a b e
      exact hno (c :: a) b (by rw [e]; rfl)
    have hend' : ∀ a, r ≠ a ++ ['/'] := by
      intro a e
      exact hend (c :: a) (by rw [e]; rfl)
    cases skip with
    | true =>
      rw [List.cons_append, input_Bf_loop]
      simp only [if_true]
      exact ih false rest filtered hno' hend' (fun h => by cases h)
    | false =>
      rw [List.cons_append, input_Bf_loop]
      cases r with
      | nil =>
        have hc : c ≠ '/' := fun e => hend [] (by rw [e]; rfl)
        have key := ih false rest filtered hno' hend' (fun h => by cases h)
        simp only [List.nil_append] at key
        simp [hc, key]
      | cons d t =>
        by_cases h1 : c = '/' ∧ d = '*'
        · obtain ⟨e1, e2⟩ := h1
          subst e1 e2
          have key := ih true rest filtered hno' hend' (fun _ => by simp)
          simp only [List.cons_append] at key
          simp [key]
        · have h2 : ¬ (c = '*' ∧ d = '/') := by
            intro ⟨e1, e2⟩
            exact hno [] t (by rw [e1, e2]; rfl)
          have := ih false rest filtered hno' hend' (fun h => by cases h)
          simp only [List.cons_append] at this
          simp [h1, h2, this]

/-- Inside a multi-line comment that is never closed, everything is dropped. -/
theorem input_Bf_loop_unclosed_multi (body : List Char) :
    ∀ (skip : Bool) (filtered : List Char),
      (∀ a b, body ≠ a ++ '*' :: '/' :: b) →
      input_Bf_loop body skip true false filtered = filtered := by
  induction body with
  | nil => intro skip filtered _; simp [input_Bf_loop]
  | cons c r ih =>
    intro skip filtered hno
    have hno' : ∀ a b, r ≠ a ++ '*' :: '/' :: b := by
      intro a b e
      exact hno (c :: a) b (by rw [e]; rfl)
    cases skip with
    | true =>
      rw [input_Bf_loop]
      simp only [if_true]
      exact ih false filtered hno'
    | false =>
      rw [input_Bf_loop]
      cases r with
      | nil => simp [input_Bf_loop]
      | cons d t =>
        have h2 : ¬ (c = '*' ∧ d = '/') := by
          intro ⟨e1, e2⟩
          exact hno [] t (by rw [e1, e2]; rfl)
        by_cases h1 : c = '/' ∧ d = '*'
        · obtain ⟨e1, e2⟩ := h1
          subst e1 e2
          have key := ih true filtered hno'
          simp [key]
        · have key := ih false filtered hno'
          simp [h1, h2, key]

/-- Inside a single-line comment, everything up to and including the next line feed
is dropped. -/
theorem input_Bf_loop_in_single (body : List Char) :
    ∀ (skip : Bool) (rest filtered : List Char),
      (∀ ch, ch ∈ body → ch ≠ '\n') → (skip = true → body ≠ []) →
      input_Bf_loop (body ++ '\n' :: rest) skip false true filtered =
        input_Bf_loop rest false false false filtered := by
  induction body with
  | nil =>
    intro skip rest filtered _ hskip
    have hs : skip = false := by
      cases skip with
      | false => rfl
      | true => exact absurd rfl (hskip rfl)
    subst hs
    have hn : ¬ ('\n' = '/') := by decide
    simp [input_Bf_loop, hn]
  | cons c r ih =>
    intro skip rest filtered hno hskip
    have hc : c ≠ '\n' := hno c (List.mem_cons_self _ _)
    have hno' : ∀ ch, ch ∈ r → ch ≠ '\n' := fun ch h => hno ch (List.mem_cons_of_mem _ h)
    cases skip with
    | true =>
      rw [List.cons_append, input_Bf_loop]
      simp only [if_true]
      exact ih false rest filtered hno' (fun h => by cases h)
    | false =>
      rw [List.cons_append, input_Bf_loop]
      cases r with
      | nil =>
        have hn : ¬ ('\n' = '/') := by decide
        have key := ih false rest filtered hno' (fun h => by cases h)
        simp only [List.nil_append] at key
        simp [hc, hn, key]
      | cons d t =>
        by_cases h1 : c = '/' ∧ d = '/'
        · obtain ⟨e1, e2⟩ := h1
          subst e1 e2
          have key := ih true rest filtered hno' (fun _ => by simp)
          simp only [List.cons_append] at key
          simp [key]
        · have := ih false rest filtered hno' (fun h => by cases h)
          simp only [List.cons_append] at this
          simp [h1, hc, this]

/-- C19, as amended. The filter of `input_Bf` special-cases comment syntax. For every
raw text the filtered program holds only instruction characters and is a subsequence
of the text filtered by membership in the eight-symbol alphabet, with equality when
the text holds no `/`; what `input_Bf` filters is the text built from the lines of
the editor. Outside a comment: a stretch without `/` contributes its instruction
characters; a `/` followed by neither `*` nor `/` is dropped alone; `/*` opens a
multi-line comment, and everything up to and including the closing `*/` is dropped
(for a body that holds no `*/` and does not end in `/`), everything to the end of the
text when there is no `*/`; `//` opens a single-line comment, and everything up to
and including the next line feed is dropped. A marker inside a comment of the other
kind does not count: on `/* // */ +` the `+` is kept, and on the two lines `// /* +`
and `- */` the `-` is kept. A `/` just before the closing `*/` takes the `*` for
itself: on `/* a /*/ +` the comment is not closed and the `+` is dropped. -/
theorem input_Bf_comment_handling (text : List Char) (lines : List (List Char)) :
    (input_Bf_loop text false false false []).Sublist
        (text.filter (fun c => c ∈ alphabet)) ∧
    (∀ c, c ∈ input_Bf_loop text false false false [] → c ∈ alphabet) ∧
    ((∀ ch, ch ∈ text → ch ≠ '/') →
      input_Bf_loop text false false false [] = text.filter (fun c => c ∈ alphabet)) ∧
    (input_Bf lines).filtered =
      input_Bf_loop (input_Bf lines).original false false false [] ∧
    (∀ pre rest filtered : List Char, (∀ ch, ch ∈ pre → ch ≠ '/') →
      input_Bf_loop (pre ++ rest) false false false filtered =
        input_Bf_loop rest false false false
          (filtered ++ pre.filter (fun c => c ∈ alphabet))) ∧
    (∀ (c : Char) (rest filtered : List Char), c ≠ '*' → c ≠ '/' →
      input_Bf_loop ('/' :: c :: rest) false false false filtered =
        input_Bf_loop (c :: rest) false false false filtered) ∧
    (∀ body rest filtered : List Char,
      (∀ a b, body ≠ a ++ '*' :: '/' :: b) → (∀ a, body ≠ a ++ ['/']) →
      input_Bf_loop ('/' :: '*' :: (body ++ '*' :: '/' :: rest)) false false false filtered =
        input_Bf_loop rest false false false filtered) ∧
    (∀ body filtered : List Char, (∀ a b, body ≠ a ++ '*' :: '/' :: b) →
      input_Bf_loop ('/' :: '*' :: body) false false false filtered = filtered) ∧
    (∀ body rest filtered : List Char, (∀ ch, ch ∈ body → ch ≠ '\n') →
      input_Bf_loop ('/' :: '/' :: (body ++ '\n' :: rest)) false false false filtered =
        input_Bf_loop rest false false false filtered) ∧
    (input_Bf ["/* // */ +".toList]).filtered = ['+'] ∧
    (input_Bf ["// /* +".toList, "- */".toList]).filtered = ['-'] ∧
    (input_Bf ["/* a /*/ +".toList]).filtered = [] := by
  have hfilter : ∀ l : List Char,
      l.filter isInstruction = l.filter (fun c => c ∈ alphabet) := by
    intro l
    apply List.filter_congr
    intro c _
    by_cases hc : c ∈ alphabet
    · simp [hc, (isInstruction_iff c).2 hc]
    · have : ¬ isInstruction c = true := fun h => hc ((isInstruction_iff c).1 h)
      simp [hc, this]
  obtain ⟨added, h1, h2⟩ := input_Bf_loop_sublist text false false false []
  rw [List.nil_append] at h1
  rw [h1, ← hfilter]
  refine ⟨h2, ?_, ?_, rfl, ?_, ?_, ?_, ?_, ?_, by decide, by decide, by decide⟩
  · intro c hc
    have := h2.subset hc
    exact (isInstruction_iff c).1 (List.mem_filter.1 this).2
  · intro hno
    rw [← h1, input_Bf_loop_without_slash text hno, List.nil_append]
  · intro pre rest filtered hno
    rw [← hfilter]
    exact input_Bf_loop_plain pre hno rest filtered
  · intro c rest filtered g1 g2
    exact input_Bf_loop_lone_slash c rest filtered g1 g2
  · intro body rest filtered hno hend
    have key := input_Bf_loop_in_multi body false rest filtered hno hend (fun h => by cases h)
    rw [input_Bf_loop]
    simp only [Bool.false_eq_true, if_false]
    rw [input_Bf_loop]
    simpa using key
  · intro body filtered hno
    have key := input_Bf_loop_unclosed_multi body false filtered hno
    rw [input_Bf_loop]
    simp only [Bool.false_eq_true, if_false]
    rw [input_Bf_loop]
    simpa using key
  · intro body rest filtered hno
    have key := input_Bf_loop_in_single body false rest filtered hno (fun h => by cases h)
    have hs : ¬ ('/' = '*') := by decide
    rw [input_Bf_loop]
    simp only [Bool.false_eq_true, if_false]
    rw [input_Bf_loop]
    simpa [hs] using key

/-- C19, as stated, fails. Typed as the only line, `/*+*/` gives an empty filtered
program although the text filtered by the alphabet is `+`; likewise `// -` gives an
empty filtered program although the text filtered by the alphabet is `-`. -/
theorem input_Bf_drops_commented_instructions :
    (input_Bf ["/*+*/".toList]).filtered = [] ∧
      (input_Bf ["/*+*/".toList]).original.filter (fun c => c ∈ alphabet) = ['+'] ∧
      (input_Bf ["// -".toList]).filtered = [] ∧
      (input_Bf ["// -".toList]).original.filter (fun c => c ∈ alphabet) = ['-'] := by
  decide

/-- C18, evaluated on the code. When the user types the single line `+ // -`,
`input_Bf` yields the filtered program `+`; the file that `saveProgram` writes holds
that line between the header and the footer comments; `loadProgram` of the file text
yields the filtered program `+-`: it keeps the `-` that stands after `//`. -/
theorem save_load_changes_filtered :
    (input_Bf ["+ // -".toList]).filtered = ['+'] ∧
      saveProgram (input_Bf ["+ // -".toList]) =
        ("/* Brainfuck Program with Comments */\n/* Saved from Brainfuck IDE */\n\n" ++
          "+ // -\n\n\n/* Filtered executable code: */\n/* + */\n").toList ∧
      (loadProgram (saveProgram (input_Bf ["+ // -".toList]))).filtered = ['+', '-'] := by
  decide

end DevBFX

/-! ## Matching brackets -/

theorem depthBefore_zero (code : List Char) : depthBefore code 0 = 0 := by
  simp [depthBefore, opens_nil, closes_nil]

theorem opens_append (a b : List Char) : opens (a ++ b) = opens a + opens b := by
  simp [opens, List.count_append]

theorem closes_append (a b : List Char) : closes (a ++ b) = closes a + closes b := by
  simp [closes, List.count_append]

/-- One character changes the depth by +1 (`[`), -1 (`]`) or not at all. -/
theorem depthBefore_succ (code : List Char) (i : Nat) (c : Char) (hc : code[i]? = some c) :
    depthBefore code (i + 1) =
      depthBefore code i + (if c = '[' then 1 else 0) - (if c = ']' then 1 else 0) := by
  have hlt : i < code.length := (List.getElem?_eq_some.1 hc).1
  have hget : code[i] = c := (List.getElem?_eq_some.1 hc).2
  have htake : code.take (i + 1) = code.take i ++ [c] := by
    rw [List.take_succ, hc]; rfl
  unfold depthBefore
  rw [htake, opens_append, closes_append, opens_cons, closes_cons, opens_nil, closes_nil]
  by_cases h1 : c = '['
  · subst h1
    have : ¬ ('[' = ']') := by decide
    simp [this]
    omega
  · by_cases h2 : c = ']'
    · subst h2
      simp [h1]
      omega
    · simp [h1, h2]

/-- The `]` that matches a `[` is unique. -/
theorem Matches.close_unique {code : List Char} {i j j2 : Nat}
    (h1 : Matches code i j) (h2 : Matches code i j2) : j = j2 := by
  obtain ⟨_, _, hij, hd, hk⟩ := h1
  obtain ⟨_, _, hij2, hd2, hk2⟩ := h2
  rcases Nat.lt_trichotomy j j2 with h | h | h
  · have := hk2 (j + 1) (by omega) (by omega)
    omega
  · exact h
  · have := hk (j2 + 1) (by omega) (by omega)
    omega

/-- The `[` that matches a `]` is unique. -/
theorem Matches.open_unique {code : List Char} {i i2 j : Nat}
    (h1 : Matches code i j) (h2 : Matches code i2 j) : i = i2 := by
  obtain ⟨hi, hj, hij, hd, hk⟩ := h1
  obtain ⟨hi2, _, hij2, hd2, hk2⟩ := h2
  rcases Nat.lt_trichotomy i i2 with h | h | h
  · have := hk i2 h (by omega)
    omega
  · exact h
  · have := hk2 i h (by omega)
    omega

/-- Two matched pairs never partially overlap. -/
theorem Matches.no_overlap {code : List Char} {i j k l : Nat}
    (h1 : Matches code i j) (h2 : Matches code k l) (hik : i < k) : j < k ∨ l < j := by
  by_cases hjk : j < k
  · exact Or.inl hjk
  · right
    have hkj : k < j := by
      rcases Nat.lt_or_ge k j with h | h
      · exact h
      · have hkj : k = j := by omega
        have a := h2.1
        have b := h1.2.1
        rw [hkj, b] at a
        cases a
    rcases Nat.lt_trichotomy l j with h | h | h
    · exact h
    · have := Matches.open_unique h1 (h ▸ h2)
      omega
    · exfalso
      have a := h2.2.2.2.2 (j + 1) (by omega) (by omega)
      have b := h1.2.2.2.2 k hik (by omega)
      have c := h1.2.2.2.1
      omega

theorem StackInv.mono {code : List Char} {i : Nat} :
    ∀ {stack : List Nat}, StackInv code i stack →
      (stack.length : Int) ≤ depthBefore code (i + 1) → StackInv code (i + 1) stack := by
  intro stack
  induction stack with
  | nil => intro _ _; trivial
  | cons s below ih =>
    intro h hd
    obtain ⟨h1, h2, h3⟩ := h
    simp only [List.length_cons, Nat.cast_add, Nat.cast_one] at hd
    refine ⟨h1, ?_, ih h3 (by omega)⟩
    intro k hsk hk
    rcases Nat.lt_or_ge k (i + 1) with h | h
    · exact h2 k hsk (by omega)
    · have : k = i + 1 := by omega
      rw [this]; omega

namespace DevBFX

theorem matchInv_open (code : List Char) (i : Nat) (stack jb : List Nat)
    (hc : code[i]? = some '[') (hinv : MatchInv code i stack jb) :
    MatchInv code (i + 1) (i :: stack) jb := by
  obtain ⟨hst, hd, hsi, hcl⟩ := hinv
  have hs := depthBefore_succ code i _ hc
  have hne : ¬ ('[' = ']') := by decide
  simp only [if_true, hne, if_false] at hs
  refine ⟨?_, ?_, ⟨hd, ?_, StackInv.mono hsi (by omega)⟩, ?_⟩
  · intro s hs
    rcases List.mem_cons.1 hs with h | h
    · subst h; exact ⟨Nat.lt_succ_self _, hc⟩
    · exact ⟨Nat.lt_succ_of_lt (hst s h).1, (hst s h).2⟩
  · simp only [List.length_cons, Nat.cast_add, Nat.cast_one]; omega
  · intro k hik hk
    have : k = i + 1 := by omega
    rw [this]; omega
  · intro b a hb hcb hj
    have hbi : b ≠ i := by
      intro h; subst h; rw [hc] at hcb; cases hcb
    exact hcl b a (by omega) hcb hj

theorem matchInv_close (code : List Char) (i start : Nat) (popped jb : List Nat)
    (hc : code[i]? = some ']') (hinv : MatchInv code i (start :: popped) jb)
    (hjb : i < jb.length) :
    MatchInv code (i + 1) popped (jb.set i start) := by
  obtain ⟨hst, hd, ⟨hs1, hs2, hs3⟩, hcl⟩ := hinv
  have hs := depthBefore_succ code i _ hc
  have hne : ¬ (']' = '[') := by decide
  simp only [if_true, hne, if_false] at hs
  simp only [List.length_cons, Nat.cast_add, Nat.cast_one] at hd
  have hstart := hst start (List.mem_cons_self _ _)
  refine ⟨?_, by omega, StackInv.mono hs3 (by omega), ?_⟩
  · intro s hs
    have := hst s (List.mem_cons_of_mem _ hs)
    exact ⟨Nat.lt_succ_of_lt this.1, this.2⟩
  · intro b a hb hcb hj
    by_cases hbi : b = i
    · subst hbi
      rw [List.getElem?_set_self hjb] at hj
      have : a = start := (Option.some.inj hj).symm
      subst this
      exact ⟨hstart.2, hc, hstart.1, by omega, fun k h1 h2 => by rw [hs1]; exact hs2 k h1 h2⟩
    · rw [List.getElem?_set_ne (fun h => hbi h.symm)] at hj
      exact hcl b a (by omega) hcb hj

theorem matchInv_other (code : List Char) (i : Nat) (c : Char) (stack jb : List Nat)
    (hc : code[i]? = some c) (h1 : c ≠ '[') (h2 : c ≠ ']')
    (hinv : MatchInv code i stack jb) : MatchInv code (i + 1) stack jb := by
  obtain ⟨hst, hd, hsi, hcl⟩ := hinv
  have hs := depthBefore_succ code i _ hc
  simp only [h1, h2, if_false] at hs
  refine ⟨?_, by omega, StackInv.mono hsi (by omega), ?_⟩
  · intro s hs
    exact ⟨Nat.lt_succ_of_lt (hst s hs).1, (hst s hs).2⟩
  · intro b a hb hcb hj
    have hbi : b ≠ i := by
      intro h; subst h; rw [hc] at hcb; exact h2 (Option.some.inj hcb)
    exact hcl b a (by omega) hcb hj

/-- The scan keeps its matching invariant up to the end of the text. -/
theorem precomputeJumpsLoop_matchInv (code : List Char) (rest : List Char) :
    ∀ (pre : List Char) (i : Nat) (stack jf jb : List Nat),
      code = pre ++ rest → pre.length = i → MatchInv code i stack jb →
      ∀ stack2 jf2 jb2, precomputeJumpsLoop rest i stack jf jb = .ok (stack2, jf2, jb2) →
        MatchInv code code.length stack2 jb2 := by
  induction rest with
  | nil =>
    intro pre i stack jf jb hcode hlen hinv stack2 jf2 jb2 hrun
    simp only [precomputeJumpsLoop, Except.ok.injEq, Prod.mk.injEq] at hrun
    obtain ⟨h1, h2, h3⟩ := hrun
    subst h1 h2 h3
    have : code.length = i := by rw [hcode]; simpa using hlen
    rw [this]; exact hinv
  | cons c r ih =>
    intro pre i stack jf jb hcode hlen hinv stack2 jf2 jb2 hrun
    have hci : code[i]? = some c := by
      rw [hcode, List.getElem?_append_right (by omega)]
      simp [hlen]
    have hcode2 : code = (pre ++ [c]) ++ r := by rw [hcode]; simp
    have hlen2 : (pre ++ [c]).length = i + 1 := by simp [hlen]
    by_cases hc1 : c = '['
    · subst hc1
      simp only [precomputeJumpsLoop, if_true] at hrun
      exact ih _ _ _ _ _ hcode2 hlen2 (matchInv_open code i stack jb hci hinv) _ _ _ hrun
    · by_cases hc2 : c = ']'
      · subst hc2
        simp only [precomputeJumpsLoop, hc1, if_false, if_true] at hrun
        cases stack with
        | nil => simp at hrun
        | cons start popped =>
          simp only at hrun
          by_cases hr1 : inRange jf start = true
          · by_cases hr2 : inRange jb i = true
            · simp only [hr1, hr2, if_true] at hrun
              exact ih _ _ _ _ _ hcode2 hlen2
                (matchInv_close code i start popped jb hci hinv ((inRange_iff _ _).1 hr2))
                _ _ _ hrun
            · simp [hr1, hr2] at hrun
          · simp [hr1] at hrun
      · simp only [precomputeJumpsLoop, hc1, hc2, if_false] at hrun
        exact ih _ _ _ _ _ hcode2 hlen2 (matchInv_other code i c stack jb hci hc1 hc2 hinv)
          _ _ _ hrun

end DevBFX

/-! ## What one instruction does -/

namespace DevBFX

/-- Every normal return of `executeInstruction`, by the character it switched on. -/
theorem executeInstruction_inv (m m1 : BrainfuckCompiler)
    (h : executeInstruction m = .ok m1) :
    (fetched m = '>' ∧
      m1 = { m with data_pointer := (m.data_pointer + 1) % MEMORY_SIZE }) ∨
    (fetched m = '<' ∧
      m1 = { m with data_pointer :=
               if m.data_pointer = 0 then MEMORY_SIZE - 1 else m.data_pointer - 1 }) ∨
    (fetched m = '+' ∧ ∃ v, m.memory[m.data_pointer]? = some v ∧
      m1 = { m with memory := m.memory.set m.data_pointer ((v + 1) % 256) }) ∨
    (fetched m = '-' ∧ ∃ v, m.memory[m.data_pointer]? = some v ∧
      m1 = { m with memory := m.memory.set m.data_pointer ((v + 255) % 256) }) ∨
    (fetched m = '.' ∧ ∃ v, m.memory[m.data_pointer]? = some v ∧
      m1 = { m with cout := m.cout ++ (outputLabel ++ [v] ++ [10]) }) ∨
    (fetched m = ',' ∧ m.data_pointer < m.memory.length ∧
      m1 = { m with
               cout := m.cout ++ inputLabel
               cin := (getline m.cin).2
               memory := m.memory.set m.data_pointer ((getline m.cin).1.headD 0 % 256) }) ∨
    (fetched m = '[' ∧ ∃ v, m.memory[m.data_pointer]? = some v ∧
      ((v = 0 ∧ ∃ t, m.jump_forward[m.instruction_pointer]? = some t ∧
          m1 = { m with instruction_pointer := t }) ∨
        (v ≠ 0 ∧ m1 = m))) ∨
    (fetched m = ']' ∧ ∃ v, m.memory[m.data_pointer]? = some v ∧
      ((v ≠ 0 ∧ ∃ t, m.jump_backward[m.instruction_pointer]? = some t ∧
          m1 = { m with instruction_pointer := t }) ∨
        (v = 0 ∧ m1 = m))) ∨
    (fetched m ≠ '>' ∧ fetched m ≠ '<' ∧ fetched m ≠ '+' ∧ fetched m ≠ '-' ∧
      fetched m ≠ '.' ∧ fetched m ≠ ',' ∧ fetched m ≠ '[' ∧ fetched m ≠ ']' ∧ m1 = m) := by
  unfold executeInstruction at h
  simp only [List.get?_eq_getElem?] at h
  unfold fetched
  generalize m.code[m.instruction_pointer]?.getD (Char.ofNat 0) = ch at h ⊢
  by_cases h0 : m.code.length < m.instruction_pointer
  · simp only [h0, if_true] at h; cases h
  simp only [h0, if_false] at h
  by_cases h1 : ch = '>'
  · subst h1
    simp only [if_true, Except.ok.injEq] at h
    exact Or.inl ⟨rfl, h.symm⟩
  by_cases h2 : ch = '<'
  · subst h2
    simp only [h1, if_true, if_false, Except.ok.injEq] at h
    exact Or.inr (Or.inl ⟨rfl, h.symm⟩)
  by_cases h3 : ch = '+'
  · subst h3
    simp only [h1, h2, if_true, if_false] at h
    cases hv : m.memory[m.data_pointer]? with
    | none => rw [hv] at h; cases h
    | some v =>
      rw [hv] at h
      simp only [Except.ok.injEq] at h
      exact Or.inr (Or.inr (Or.inl ⟨rfl, v, rfl, h.symm⟩))
  by_cases h4 : ch = '-'
  · subst h4
    simp only [h1, h2, h3, if_true, if_false] at h
    cases hv : m.memory[m.data_pointer]? with
    | none => rw [hv] at h; cases h
    | some v =>
      rw [hv] at h
      simp only [Except.ok.injEq] at h
      exact Or.inr (Or.inr (Or.inr (Or.inl ⟨rfl, v, rfl, h.symm⟩)))
  by_cases h5 : ch = '.'
  · subst h5
    simp only [h1, h2, h3, h4, if_true, if_false] at h
    cases hv : m.memory[m.data_pointer]? with
    | none => rw [hv] at h; cases h
    | some v =>
      rw [hv] at h
      simp only [Except.ok.injEq] at h
      exact Or.inr (Or.inr (Or.inr (Or.inr (Or.inl ⟨rfl, v, rfl, h.symm⟩))))
  by_cases h6 : ch = ','
  · subst h6
    simp only [h1, h2, h3, h4, h5, if_true, if_false] at h
    by_cases hr : inRange m.memory m.data_pointer = true
    · simp only [hr, if_true, Except.ok.injEq] at h
      exact Or.inr (Or.inr (Or.inr (Or.inr (Or.inr (Or.inl
        ⟨rfl, (inRange_iff _ _).1 hr, h.symm⟩)))))
    · rw [if_neg hr] at h; cases h
  by_cases h7 : ch = '['
  · subst h7
    simp only [h1, h2, h3, h4, h5, h6, if_true, if_false] at h
    cases hv : m.memory[m.data_pointer]? with
    | none => rw [hv] at h; cases h
    | some v =>
      rw [hv] at h
      simp only at h
      refine Or.inr (Or.inr (Or.inr (Or.inr (Or.inr (Or.inr (Or.inl ⟨rfl, v, rfl, ?_⟩))))))
      by_cases hz : v = 0
      · simp only [hz, if_true] at h
        cases hj : m.jump_forward[m.instruction_pointer]? with
        | none => rw [hj] at h; cases h
        | some t =>
          rw [hj] at h
          simp only [Except.ok.injEq] at h
          exact Or.inl ⟨hz, t, rfl, h.symm⟩
      · simp only [hz, if_false, Except.ok.injEq] at h
        exact Or.inr ⟨hz, h.symm⟩
  by_cases h8 : ch = ']'
  · subst h8
    simp only [h1, h2, h3, h4, h5, h6, h7, if_true, if_false] at h
    cases hv : m.memory[m.data_pointer]? with
    | none => rw [hv] at h; cases h
    | some v =>
      rw [hv] at h
      simp only at h
      refine Or.inr (Or.inr (Or.inr (Or.inr (Or.inr (Or.inr (Or.inr (Or.inl
        ⟨rfl, v, rfl, ?_⟩)))))))
      by_cases hz : v = 0
      · simp only [hz, ne_eq, not_true_eq_false, if_false, Except.ok.injEq] at h
        exact Or.inr ⟨hz, h.symm⟩
      · simp only [hz, ne_eq, not_false_eq_true, if_true] at h
        cases hj : m.jump_backward[m.instruction_pointer]? with
        | none => rw [hj] at h; cases h
        | some t =>
          rw [hj] at h
          simp only [Except.ok.injEq] at h
          exact Or.inl ⟨hz, t, rfl, h.symm⟩
  simp only [h1, h2, h3, h4, h5, h6, h7, h8, if_false, Except.ok.injEq] at h
  exact Or.inr (Or.inr (Or.inr (Or.inr (Or.inr (Or.inr (Or.inr (Or.inr
    ⟨h1, h2, h3, h4, h5, h6, h7, h8, h.symm⟩)))))))

/-- Every fault of `executeInstruction`: an instruction pointer past the terminator,
a data pointer outside the tape, or a bracket outside its jump table. -/
theorem executeInstruction_error_inv (m : BrainfuckCompiler) (e : Fault)
    (h : executeInstruction m = .error e) :
    (e = .codeOutOfRange ∧ m.code.length < m.instruction_pointer) ∨
    (e = .memoryOutOfRange ∧ m.memory.length ≤ m.data_pointer) ∨
    (e = .jumpTableOutOfRange ∧
      ((fetched m = '[' ∧ m.jump_forward.length ≤ m.instruction_pointer) ∨
        (fetched m = ']' ∧ m.jump_backward.length ≤ m.instruction_pointer))) := by
  unfold executeInstruction at h
  simp only [List.get?_eq_getElem?] at h
  unfold fetched
  generalize m.code[m.instruction_pointer]?.getD (Char.ofNat 0) = ch at h ⊢
  have hmem : m.memory[m.data_pointer]? = none → m.memory.length ≤ m.data_pointer := by
    intro hn
    exact List.getElem?_eq_none_iff.1 hn
  by_cases h0 : m.code.length < m.instruction_pointer
  · simp only [h0, if_true, Except.error.injEq] at h
    exact Or.inl ⟨h.symm, h0⟩
  simp only [h0, if_false] at h
  by_cases h1 : ch = '>'
  · subst h1; simp only [if_true] at h; cases h
  by_cases h2 : ch = '<'
  · subst h2; simp only [h1, if_true, if_false] at h; cases h
  by_cases h3 : ch = '+'
  · subst h3
    simp only [h1, h2, if_true, if_false] at h
    cases hv : m.memory[m.data_pointer]? with
    | none =>
      rw [hv] at h
      simp only [Except.error.injEq] at h
      exact Or.inr (Or.inl ⟨h.symm, hmem hv⟩)
    | some v => rw [hv] at h; cases h
  by_cases h4 : ch = '-'
  · subst h4
    simp only [h1, h2, h3, if_true, if_false] at h
    cases hv : m.memory[m.data_pointer]? with
    | none =>
      rw [hv] at h
      simp only [Except.error.injEq] at h
      exact Or.inr (Or.inl ⟨h.symm, hmem hv⟩)
    | some v => rw [hv] at h; cases h
  by_cases h5 : ch = '.'
  · subst h5
    simp only [h1, h2, h3, h4, if_true, if_false] at h
    cases hv : m.memory[m.data_pointer]? with
    | none =>
      rw [hv] at h
      simp only [Except.error.injEq] at h
      exact Or.inr (Or.inl ⟨h.symm, hmem hv⟩)
    | some v => rw [hv] at h; cases h
  by_cases h6 : ch = ','
  · subst h6
    simp only [h1, h2, h3, h4, h5, if_true, if_false] at h
    by_cases hr : inRange m.memory m.data_pointer = true
    · simp only [hr, if_true] at h; cases h
    · rw [if_neg hr] at h
      simp only [Except.error.injEq] at h
      have : ¬ m.data_pointer < m.memory.length := fun hlt => hr ((inRange_iff _ _).2 hlt)
      exact Or.inr (Or.inl ⟨h.symm, by omega⟩)
  by_cases h7 : ch = '['
  · subst h7
    simp only [h1, h2, h3, h4, h5, h6, if_true, if_false] at h
    cases hv : m.memory[m.data_pointer]? with
    | none =>
      rw [hv] at h
      simp only [Except.error.injEq] at h
      exact Or.inr (Or.inl ⟨h.symm, hmem hv⟩)
    | some v =>
      rw [hv] at h
      simp only at h
      by_cases hz : v = 0
      · simp only [hz, if_true] at h
        cases hj : m.jump_forward[m.instruction_pointer]? with
        | none =>
          rw [hj] at h
          simp only [Except.error.injEq] at h
          exact Or.inr (Or.inr ⟨h.symm, Or.inl ⟨rfl, List.getElem?_eq_none_iff.1 hj⟩⟩)
        | some t => rw [hj] at h; cases h
      · simp only [hz, if_false] at h; cases h
  by_cases h8 : ch = ']'
  · subst h8
    simp only [h1, h2, h3, h4, h5, h6, h7, if_true, if_false] at h
    cases hv : m.memory[m.data_pointer]? with
    | none =>
      rw [hv] at h
      simp only [Except.error.injEq] at h
      exact Or.inr (Or.inl ⟨h.symm, hmem hv⟩)
    | some v =>
      rw [hv] at h
      simp only at h
      by_cases hz : v = 0
      · simp only [hz, ne_eq, not_true_eq_false, if_false] at h; cases h
      · simp only [hz, ne_eq, not_false_eq_true, if_true] at h
        cases hj : m.jump_backward[m.instruction_pointer]? with
        | none =>
          rw [hj] at h
          simp only [Except.error.injEq] at h
          exact Or.inr (Or.inr ⟨h.symm, Or.inr ⟨rfl, List.getElem?_eq_none_iff.1 hj⟩⟩)
        | some t => rw [hj] at h; cases h
  simp only [h1, h2, h3, h4, h5, h6, h7, h8, if_false] at h
  cases h

end DevBFX

/-! ## The pairs of the jump tables -/

namespace DevBFX

/-- Whenever `precomputeJumps` succeeds, the two tables it leaves resolve the brackets
of the code: each bracket is mapped to the bracket that matches it. -/
theorem precomputeJumps_resolved (m done : BrainfuckCompiler)
    (h : precomputeJumps m = .ok done) :
    done.code = m.code ∧ Resolved m.code done.jump_forward done.jump_backward := by
  unfold precomputeJumps at h
  split at h
  · cases h
  · rename_i s2 jf2 jb2 hrun
    split at h
    · rename_i hemp
      have hs2 : s2 = [] := by simpa using hemp
      subst hs2
      simp only [Except.ok.injEq] at h
      subst h
      have hinit : JumpInv m.code 0 [] m.jump_forward m.jump_backward := by
        refine ⟨by simp, List.nodup_nil, ?_, ?_⟩
        · intro b hb; omega
        · intro a ha; omega
      have hminit : MatchInv m.code 0 [] m.jump_backward := by
        refine ⟨by simp, ?_, trivial, ?_⟩
        · rw [depthBefore_zero]; rfl
        · intro b a hb; omega
      obtain ⟨_, _, hcl, hop⟩ :=
        precomputeJumpsLoop_inv m.code m.code [] 0 [] m.jump_forward m.jump_backward
          (by simp) rfl hinit _ _ _ hrun
      obtain ⟨_, _, _, hmatch⟩ :=
        precomputeJumpsLoop_matchInv m.code m.code [] 0 [] m.jump_forward m.jump_backward
          (by simp) rfl hminit _ _ _ hrun
      refine ⟨rfl, ?_, ?_⟩
      · intro a ha
        have hlt : a < m.code.length := (List.getElem?_eq_some.1 ha).1
        rcases hop a hlt ha with hin | ⟨b, h1, _, h3, h4, h5⟩
        · simp at hin
        · exact ⟨b, h1, h5, hmatch b a h3 h4 h5⟩
      · intro b hb
        have hlt : b < m.code.length := (List.getElem?_eq_some.1 hb).1
        obtain ⟨a, h1, _, _, h4, _⟩ := hcl b hlt hb
        exact ⟨a, h1, h4, hmatch b a hlt hb h1⟩
    · cases h

/-- Whenever `loadCode` succeeds, the tables of the loaded machine resolve the
brackets of its code. -/
theorem loadCode_resolved (m done : BrainfuckCompiler) (text : List Char)
    (h : loadCode m text = .ok done) :
    Resolved done.code done.jump_forward done.jump_backward := by
  obtain ⟨h1, h2⟩ := precomputeJumps_resolved _ _ h
  rw [h1]
  exact h2

/-- A pair of resolved tables is a pair of matching brackets. -/
theorem IsPair.matches (m : BrainfuckCompiler) (i j : Nat)
    (hres : Resolved m.code m.jump_forward m.jump_backward) (h : IsPair m i j) :
    Matches m.code i j := by
  obtain ⟨_, h2, _, h4⟩ := h
  obtain ⟨a, ha, _, hm⟩ := hres.2 j h2
  rw [h4] at ha
  cases ha
  exact hm

/-- C21. For every program on which `precomputeJumps` succeeds: each index `i` holding
`[` is paired with exactly one index `j > i` holding `]` (`jump_forward[i] = j` and
`jump_backward[j] = i`), each index holding `]` is paired with exactly one index
holding `[`, the two brackets of a pair match each other, and two pairs never
partially overlap: for pairs `(i, j)` and `(k, l)` with `i < k`, either `j < k` or
`l < j`. -/
theorem precomputeJumps_pairs_nested (m done : BrainfuckCompiler)
    (h : precomputeJumps m = .ok done) :
    (∀ i, done.code[i]? = some '[' →
      ∃ j, i < j ∧ IsPair done i j ∧ ∀ j2, IsPair done i j2 → j2 = j) ∧
    (∀ j, done.code[j]? = some ']' →
      ∃ i, i < j ∧ IsPair done i j ∧ ∀ i2, IsPair done i2 j → i2 = i) ∧
    (∀ i j, IsPair done i j → Matches done.code i j) ∧
    (∀ i j k l, IsPair done i j → IsPair done k l → i < k → j < k ∨ l < j) := by
  obtain ⟨hcode, hres⟩ := precomputeJumps_resolved _ _ h
  rw [← hcode] at hres
  refine ⟨?_, ?_, ?_, ?_⟩
  · intro i hi
    obtain ⟨j, h1, h2, hm⟩ := hres.1 i hi
    refine ⟨j, hm.2.2.1, ⟨hi, hm.2.1, h1, h2⟩, ?_⟩
    intro j2 hp
    have := hp.2.2.1
    rw [h1] at this
    exact (Option.some.inj this).symm
  · intro j hj
    obtain ⟨i, h1, h2, hm⟩ := hres.2 j hj
    refine ⟨i, hm.2.2.1, ⟨hm.1, hj, h2, h1⟩, ?_⟩
    intro i2 hp
    have := hp.2.2.2
    rw [h1] at this
    exact (Option.some.inj this).symm
  · intro i j hp
    exact IsPair.matches done i j hres hp
  · intro i j k l h1 h2 hik
    exact Matches.no_overlap (IsPair.matches done i j hres h1)
      (IsPair.matches done k l hres h2) hik

/-- C21 at a concrete program: the freshly constructed machine holding `[[]]`, whose
pairs are `(0, 3)` and `(1, 2)`; the `[` at index 0 has exactly one partner. -/
theorem precomputeJumps_pairs_nested_witness :
    ∃ j, 0 < j ∧
      IsPair { BrainfuckCompiler.new [] with
                 code := ['[', '[', ']', ']']
                 jump_forward := ((BrainfuckCompiler.new []).jump_forward.set 1 2).set 0 3
                 jump_backward := ((BrainfuckCompiler.new []).jump_backward.set 2 1).set 3 0 }
        0 j ∧
      ∀ j2,
        IsPair { BrainfuckCompiler.new [] with
                   code := ['[', '[', ']', ']']
                   jump_forward := ((BrainfuckCompiler.new []).jump_forward.set 1 2).set 0 3
                   jump_backward :=
                     ((BrainfuckCompiler.new []).jump_backward.set 2 1).set 3 0 }
          0 j2 → j2 = j :=
  (precomputeJumps_pairs_nested
    { BrainfuckCompiler.new [] with code := ['[', '[', ']', ']'] }
    { BrainfuckCompiler.new [] with
        code := ['[', '[', ']', ']']
        jump_forward := ((BrainfuckCompiler.new []).jump_forward.set 1 2).set 0 3
        jump_backward := ((BrainfuckCompiler.new []).jump_backward.set 2 1).set 3 0 }
    rfl).1 0 rfl

end DevBFX

/-! ## Brackets, frames and ranges of one instruction -/

namespace DevBFX

/-- Inside the program, the character switched on is the one at the instruction
pointer. -/
theorem fetched_eq (m : BrainfuckCompiler) (hip : m.instruction_pointer < m.code.length) :
    m.code[m.instruction_pointer]? = some (fetched m) := by
  unfold fetched
  rw [List.getElem?_eq_getElem hip]
  rfl

theorem executeInstruction_dot (m : BrainfuckCompiler) (v : Nat)
    (hc : m.code[m.instruction_pointer]? = some '.')
    (hv : m.memory[m.data_pointer]? = some v) :
    executeInstruction m = .ok { m with cout := m.cout ++ (outputLabel ++ [v] ++ [10]) } := by
  obtain ⟨h0, hch⟩ := executeInstruction_fetch m _ hc
  have h1 : ¬ ('.' = '>') := by decide
  have h2 : ¬ ('.' = '<') := by decide
  have h3 : ¬ ('.' = '+') := by decide
  have h4 : ¬ ('.' = '-') := by decide
  unfold executeInstruction
  simp only [h0, hch, h1, h2, h3, h4, if_false, if_true]
  simp only [List.get?_eq_getElem?, hv]

theorem executeInstruction_open_jump (m : BrainfuckCompiler) (t : Nat)
    (hc : m.code[m.instruction_pointer]? = some '[')
    (hv : m.memory[m.data_pointer]? = some 0)
    (ht : m.jump_forward[m.instruction_pointer]? = some t) :
    executeInstruction m = .ok { m with instruction_pointer := t } := by
  obtain ⟨h0, hch⟩ := executeInstruction_fetch m _ hc
  have h1 : ¬ ('[' = '>') := by decide
  have h2 : ¬ ('[' = '<') := by decide
  have h3 : ¬ ('[' = '+') := by decide
  have h4 : ¬ ('[' = '-') := by decide
  have h5 : ¬ ('[' = '.') := by decide
  have h6 : ¬ ('[' = ',') := by decide
  unfold executeInstruction
  simp only [h0, hch, h1, h2, h3, h4, h5, h6, if_false, if_true]
  simp only [List.get?_eq_getElem?, hv, ht, if_true]

theorem executeInstruction_open_enter (m : BrainfuckCompiler) (v : Nat)
    (hc : m.code[m.instruction_pointer]? = some '[')
    (hv : m.memory[m.data_pointer]? = some v) (hz : v ≠ 0) :
    executeInstruction m = .ok m := by
  obtain ⟨h0, hch⟩ := executeInstruction_fetch m _ hc
  have h1 : ¬ ('[' = '>') := by decide
  have h2 : ¬ ('[' = '<') := by decide
  have h3 : ¬ ('[' = '+') := by decide
  have h4 : ¬ ('[' = '-') := by decide
  have h5 : ¬ ('[' = '.') := by decide
  have h6 : ¬ ('[' = ',') := by decide
  unfold executeInstruction
  simp only [h0, hch, h1, h2, h3, h4, h5, h6, if_false, if_true]
  simp only [List.get?_eq_getElem?, hv, hz, if_false]

theorem executeInstruction_close_jump (m : BrainfuckCompiler) (v t : Nat)
    (hc : m.code[m.instruction_pointer]? = some ']')
    (hv : m.memory[m.data_pointer]? = some v) (hz : v ≠ 0)
    (ht : m.jump_backward[m.instruction_pointer]? = some t) :
    executeInstruction m = .ok { m with instruction_pointer := t } := by
  obtain ⟨h0, hch⟩ := executeInstruction_fetch m _ hc
  have h1 : ¬ (']' = '>') := by decide
  have h2 : ¬ (']' = '<') := by decide
  have h3 : ¬ (']' = '+') := by decide
  have h4 : ¬ (']' = '-') := by decide
  have h5 : ¬ (']' = '.') := by decide
  have h6 : ¬ (']' = ',') := by decide
  have h7 : ¬ (']' = '[') := by decide
  unfold executeInstruction
  simp only [h0, hch, h1, h2, h3, h4, h5, h6, h7, if_false, if_true]
  simp only [List.get?_eq_getElem?, hv, ht, ne_eq, hz, not_false_eq_true, if_true]

theorem executeInstruction_close_leave (m : BrainfuckCompiler)
    (hc : m.code[m.instruction_pointer]? = some ']')
    (hv : m.memory[m.data_pointer]? = some 0) :
    executeInstruction m = .ok m := by
  obtain ⟨h0, hch⟩ := executeInstruction_fetch m _ hc
  have h1 : ¬ (']' = '>') := by decide
  have h2 : ¬ (']' = '<') := by decide
  have h3 : ¬ (']' = '+') := by decide
  have h4 : ¬ (']' = '-') := by decide
  have h5 : ¬ (']' = '.') := by decide
  have h6 : ¬ (']' = ',') := by decide
  have h7 : ¬ (']' = '[') := by decide
  unfold executeInstruction
  simp only [h0, hch, h1, h2, h3, h4, h5, h6, h7, if_false, if_true]
  simp only [List.get?_eq_getElem?, hv, ne_eq, not_true_eq_false, if_false]

/-- What `step` returns inside the program, from what `executeInstruction` returns. -/
theorem step_of_executeInstruction (m m1 : BrainfuckCompiler)
    (hip : m.instruction_pointer < m.code.length) (h : executeInstruction m = .ok m1) :
    step m = .ok (true, { m1 with instruction_pointer := m1.instruction_pointer + 1 }) := by
  have hn : ¬ m.instruction_pointer ≥ m.code.length := by omega
  unfold step
  rw [if_neg hn, h]

/-- Every normal return of `step`: either the machine stands at the end of the code
and is returned as it is, or one instruction was executed and the instruction pointer
advanced. -/
theorem step_inv (m m1 : BrainfuckCompiler) (b : Bool) (h : step m = .ok (b, m1)) :
    (b = false ∧ m1 = m ∧ m.code.length ≤ m.instruction_pointer) ∨
    (b = true ∧ m.instruction_pointer < m.code.length ∧
      ∃ m2, executeInstruction m = .ok m2 ∧
        m1 = { m2 with instruction_pointer := m2.instruction_pointer + 1 }) := by
  unfold step at h
  by_cases hge : m.instruction_pointer ≥ m.code.length
  · rw [if_pos hge] at h
    simp only [Except.ok.injEq, Prod.mk.injEq] at h
    exact Or.inl ⟨h.1.symm, h.2.symm, hge⟩
  · rw [if_neg hge] at h
    cases he : executeInstruction m with
    | error e => rw [he] at h; cases h
    | ok m2 =>
      rw [he] at h
      simp only [Except.ok.injEq, Prod.mk.injEq] at h
      exact Or.inr ⟨h.1.symm, by omega, m2, rfl, h.2.symm⟩

/-- One instruction keeps the data pointer below 30000 and the tape at 30000 cells. -/
theorem executeInstruction_keeps_range (m m1 : BrainfuckCompiler)
    (hdp : m.data_pointer < 30000) (hlen : m.memory.length = 30000)
    (h : executeInstruction m = .ok m1) :
    m1.data_pointer < 30000 ∧ m1.memory.length = 30000 := by
  rcases executeInstruction_inv m m1 h with
    ⟨_, rfl⟩ | ⟨_, rfl⟩ | ⟨_, v, _, rfl⟩ | ⟨_, v, _, rfl⟩ | ⟨_, v, _, rfl⟩ | ⟨_, _, rfl⟩ |
    ⟨_, v, _, ⟨_, t, _, rfl⟩ | ⟨_, rfl⟩⟩ | ⟨_, v, _, ⟨_, t, _, rfl⟩ | ⟨_, rfl⟩⟩ |
    ⟨_, _, _, _, _, _, _, _, rfl⟩
  · refine ⟨?_, hlen⟩
    show (m.data_pointer + 1) % 30000 < 30000
    omega
  · refine ⟨?_, hlen⟩
    show (if m.data_pointer = 0 then 30000 - 1 else m.data_pointer - 1) < 30000
    split <;> omega
  · exact ⟨hdp, by simp only [List.length_set]; exact hlen⟩
  · exact ⟨hdp, by simp only [List.length_set]; exact hlen⟩
  · exact ⟨hdp, hlen⟩
  · exact ⟨hdp, by simp only [List.length_set]; exact hlen⟩
  · exact ⟨hdp, hlen⟩
  · exact ⟨hdp, hlen⟩
  · exact ⟨hdp, hlen⟩
  · exact ⟨hdp, hlen⟩
  · exact ⟨hdp, hlen⟩

/-- With the data pointer inside the tape, no instruction accesses the tape out of
range. -/
theorem executeInstruction_memory_safe (m : BrainfuckCompiler)
    (hdp : m.data_pointer < m.memory.length) :
    executeInstruction m ≠ .error .memoryOutOfRange := by
  intro h
  rcases executeInstruction_error_inv m _ h with ⟨h1, _⟩ | ⟨_, h2⟩ | ⟨h1, _⟩
  · cases h1
  · omega
  · cases h1

/-- The loop of `interpret` keeps the data pointer below 30000 and the tape at 30000
cells, and never accesses the tape out of range. -/
theorem interpretLoop_keeps_range (fuel : Nat) :
    ∀ m : BrainfuckCompiler, m.data_pointer < 30000 → m.memory.length = 30000 →
      interpretLoop fuel m ≠ some (.error .memoryOutOfRange) ∧
      ∀ done, interpretLoop fuel m = some (.ok done) →
        done.data_pointer < 30000 ∧ done.memory.length = 30000 := by
  induction fuel with
  | zero =>
    intro m hdp hlen
    unfold interpretLoop
    by_cases hip : m.instruction_pointer < m.code.length
    · rw [if_pos hip]
      exact ⟨by simp, by intro done hd; cases hd⟩
    · rw [if_neg hip]
      refine ⟨by simp, ?_⟩
      intro done hd
      simp only [Option.some.injEq, Except.ok.injEq] at hd
      subst hd
      exact ⟨hdp, hlen⟩
  | succ n ih =>
    intro m hdp hlen
    unfold interpretLoop
    by_cases hip : m.instruction_pointer < m.code.length
    · rw [if_pos hip]
      cases he : executeInstruction m with
      | error e =>
        simp only
        constructor
        · intro hcontra
          simp only [Option.some.injEq, Except.error.injEq] at hcontra
          subst hcontra
          exact executeInstruction_memory_safe m (by omega) he
        · intro done hd; cases hd
      | ok m1 =>
        simp only
        obtain ⟨h1, h2⟩ := executeInstruction_keeps_range m m1 hdp hlen he
        exact ih _ h1 h2
    · rw [if_neg hip]
      refine ⟨by simp, ?_⟩
      intro done hd
      simp only [Option.some.injEq, Except.ok.injEq] at hd
      subst hd
      exact ⟨hdp, hlen⟩

/-- C26. The data pointer is always a valid tape index on the wrap-around machine:
for every state with `data_pointer < 30000` and a tape of 30000 cells, the state after
`executeInstruction` (whatever the instruction) again has `data_pointer < 30000` and a
tape of 30000 cells; hence no `memory[data_pointer]` access of `executeInstruction`,
`step` or `interpret` is out of range, and the states they return satisfy the same two
bounds. -/
theorem data_pointer_stays_in_range (m : BrainfuckCompiler)
    (hdp : m.data_pointer < 30000) (hlen : m.memory.length = 30000) :
    (∀ m1, executeInstruction m = .ok m1 →
      m1.data_pointer < 30000 ∧ m1.memory.length = 30000) ∧
    executeInstruction m ≠ .error .memoryOutOfRange ∧
    (∀ b m1, step m = .ok (b, m1) →
      m1.data_pointer < 30000 ∧ m1.memory.length = 30000) ∧
    step m ≠ .error .memoryOutOfRange ∧
    (∀ fuel, interpretLoop fuel m ≠ some (.error .memoryOutOfRange)) ∧
    (∀ fuel done, interpretLoop fuel m = some (.ok done) →
      done.data_pointer < 30000 ∧ done.memory.length = 30000) ∧
    (∀ fuel, interpret fuel m ≠ some (.error .memoryOutOfRange)) ∧
    (∀ fuel done, interpret fuel m = some (.ok done) →
      done.data_pointer < 30000 ∧ done.memory.length = 30000) := by
  have hsafe := executeInstruction_memory_safe m (by omega)
  have h0 : (0 : Nat) < 30000 := by omega
  have hreset : ({ m with
      data_pointer := 0
      instruction_pointer := 0
      memory := m.memory.map (fun _ => 0) } : BrainfuckCompiler).memory.length = 30000 := by
    simp only [List.length_map]; exact hlen
  refine ⟨fun m1 h => executeInstruction_keeps_range m m1 hdp hlen h, hsafe, ?_, ?_,
    fun fuel => (interpretLoop_keeps_range fuel m hdp hlen).1,
    fun fuel => (interpretLoop_keeps_range fuel m hdp hlen).2,
    fun fuel => (interpretLoop_keeps_range fuel _ h0 hreset).1,
    fun fuel => (interpretLoop_keeps_range fuel _ h0 hreset).2⟩
  · intro b m1 h
    rcases step_inv m m1 b h with ⟨_, rfl, _⟩ | ⟨_, _, m2, he, rfl⟩
    · exact ⟨hdp, hlen⟩
    · exact executeInstruction_keeps_range m m2 hdp hlen he
  · intro h
    unfold step at h
    by_cases hge : m.instruction_pointer ≥ m.code.length
    · rw [if_pos hge] at h; cases h
    · rw [if_neg hge] at h
      cases he : executeInstruction m with
      | error e =>
        rw [he] at h
        simp only [Except.error.injEq] at h
        subst h
        exact hsafe he
      | ok m2 => rw [he] at h; cases h

/-- C26 at a concrete state: the freshly constructed machine holding `>`, whose data
pointer is 0 and whose tape has 30000 cells; after `>` the data pointer is 1. -/
theorem data_pointer_stays_in_range_witness :
    ({ BrainfuckCompiler.new [] with code := ['>'], data_pointer := 1 } :
        BrainfuckCompiler).data_pointer < 30000 ∧
      ({ BrainfuckCompiler.new [] with code := ['>'], data_pointer := 1 } :
        BrainfuckCompiler).memory.length = 30000 :=
  (data_pointer_stays_in_range { BrainfuckCompiler.new [] with code := ['>'] } (by decide)
    (List.length_replicate 30000 0)).1
    { BrainfuckCompiler.new [] with code := ['>'], data_pointer := 1 } rfl

end DevBFX

/-! ## Jumps of a loaded program -/

namespace DevBFX

/-- Every cell of a freshly constructed machine holds 0. -/
theorem new_cell (cin : List Nat) (i : Nat) (h : i < MEMORY_SIZE) :
    (BrainfuckCompiler.new cin).memory[i]? = some 0 := by
  show (List.replicate MEMORY_SIZE 0)[i]? = some 0
  generalize MEMORY_SIZE = n at h
  rw [List.getElem?_replicate, if_pos h]

/-- C22. For every successfully loaded program (`loadCode` returned `loaded`; the state
`m` runs its code with its jump tables) and every state whose instruction pointer is
at a bracket index `i`, `step` returns `true` and: at `[` with current cell 0 the
instruction pointer becomes (index of the matching `]`) + 1; at `]` with a non-zero
current cell it becomes (index of the matching `[`) + 1; at `[` with a non-zero cell
or `]` with a zero cell it becomes `i + 1`. In all four cases nothing but the
instruction pointer changes: tape, data pointer and streams are those of `m`. -/
theorem step_at_bracket (m0 loaded m : BrainfuckCompiler) (text : List Char) (v : Nat)
    (hload : loadCode m0 text = .ok loaded)
    (hcode : m.code = loaded.code)
    (hjf : m.jump_forward = loaded.jump_forward)
    (hjb : m.jump_backward = loaded.jump_backward)
    (hv : m.memory[m.data_pointer]? = some v) :
    (m.code[m.instruction_pointer]? = some '[' → v = 0 →
      ∃ j, Matches m.code m.instruction_pointer j ∧
        step m = .ok (true, { m with instruction_pointer := j + 1 })) ∧
    (m.code[m.instruction_pointer]? = some ']' → v ≠ 0 →
      ∃ j, Matches m.code j m.instruction_pointer ∧
        step m = .ok (true, { m with instruction_pointer := j + 1 })) ∧
    (m.code[m.instruction_pointer]? = some '[' → v ≠ 0 →
      step m = .ok (true, { m with instruction_pointer := m.instruction_pointer + 1 })) ∧
    (m.code[m.instruction_pointer]? = some ']' → v = 0 →
      step m = .ok (true, { m with instruction_pointer := m.instruction_pointer + 1 })) := by
  have hres : Resolved m.code m.jump_forward m.jump_backward := by
    rw [hcode, hjf, hjb]
    exact loadCode_resolved _ _ _ hload
  have hip : ∀ c, m.code[m.instruction_pointer]? = some c →
      m.instruction_pointer < m.code.length := fun c hc => (List.getElem?_eq_some.1 hc).1
  refine ⟨?_, ?_, ?_, ?_⟩
  · intro hc hz
    subst hz
    obtain ⟨j, h1, _, hm⟩ := hres.1 _ hc
    exact ⟨j, hm, step_of_executeInstruction m _ (hip _ hc)
      (executeInstruction_open_jump m j hc hv h1)⟩
  · intro hc hz
    obtain ⟨j, h1, _, hm⟩ := hres.2 _ hc
    exact ⟨j, hm, step_of_executeInstruction m _ (hip _ hc)
      (executeInstruction_close_jump m v j hc hv hz h1)⟩
  · intro hc hz
    exact step_of_executeInstruction m _ (hip _ hc) (executeInstruction_open_enter m v hc hv hz)
  · intro hc hz
    subst hz
    exact step_of_executeInstruction m _ (hip _ hc) (executeInstruction_close_leave m hc hv)

/-- C22 at a concrete state: the machine that loaded `[]`, standing at the `[` with
cell 0; `step` takes it to index 2, one past the matching `]` at index 1. -/
theorem step_at_bracket_witness :
    ∃ j, Matches ['[', ']'] 0 j ∧
      step { BrainfuckCompiler.new [] with
               code := ['[', ']']
               jump_forward := (BrainfuckCompiler.new []).jump_forward.set 0 1
               jump_backward := (BrainfuckCompiler.new []).jump_backward.set 1 0 } =
        .ok (true,
          { BrainfuckCompiler.new [] with
              code := ['[', ']']
              jump_forward := (BrainfuckCompiler.new []).jump_forward.set 0 1
              jump_backward := (BrainfuckCompiler.new []).jump_backward.set 1 0
              instruction_pointer := j + 1 }) :=
  (step_at_bracket (BrainfuckCompiler.new [])
    { BrainfuckCompiler.new [] with
        code := ['[', ']']
        jump_forward := (BrainfuckCompiler.new []).jump_forward.set 0 1
        jump_backward := (BrainfuckCompiler.new []).jump_backward.set 1 0 }
    { BrainfuckCompiler.new [] with
        code := ['[', ']']
        jump_forward := (BrainfuckCompiler.new []).jump_forward.set 0 1
        jump_backward := (BrainfuckCompiler.new []).jump_backward.set 1 0 }
    ['[', ']'] 0 rfl rfl rfl rfl (new_cell [] 0 (by decide))).1 rfl rfl

/-- One instruction of a program with resolved jump tables leaves the program and the
tables as they are and the instruction pointer inside the program. -/
theorem executeInstruction_keeps_program (m m1 : BrainfuckCompiler)
    (hres : Resolved m.code m.jump_forward m.jump_backward)
    (hip : m.instruction_pointer < m.code.length)
    (h : executeInstruction m = .ok m1) :
    m1.code = m.code ∧ m1.jump_forward = m.jump_forward ∧
      m1.jump_backward = m.jump_backward ∧ m1.instruction_pointer < m.code.length := by
  have hf := fetched_eq m hip
  rcases executeInstruction_inv m m1 h with
    ⟨_, rfl⟩ | ⟨_, rfl⟩ | ⟨_, v, _, rfl⟩ | ⟨_, v, _, rfl⟩ | ⟨_, v, _, rfl⟩ | ⟨_, _, rfl⟩ |
    ⟨hc, v, _, ⟨_, t, ht, rfl⟩ | ⟨_, rfl⟩⟩ | ⟨hc, v, _, ⟨_, t, ht, rfl⟩ | ⟨_, rfl⟩⟩ |
    ⟨_, _, _, _, _, _, _, _, rfl⟩
  · exact ⟨rfl, rfl, rfl, hip⟩
  · exact ⟨rfl, rfl, rfl, hip⟩
  · exact ⟨rfl, rfl, rfl, hip⟩
  · exact ⟨rfl, rfl, rfl, hip⟩
  · exact ⟨rfl, rfl, rfl, hip⟩
  · exact ⟨rfl, rfl, rfl, hip⟩
  · refine ⟨rfl, rfl, rfl, ?_⟩
    rw [hc] at hf
    obtain ⟨b, h1, _, hm⟩ := hres.1 _ hf
    rw [ht] at h1
    cases h1
    exact (List.getElem?_eq_some.1 hm.2.1).1
  · exact ⟨rfl, rfl, rfl, hip⟩
  · refine ⟨rfl, rfl, rfl, ?_⟩
    rw [hc] at hf
    obtain ⟨a, h1, _, hm⟩ := hres.2 _ hf
    rw [ht] at h1
    cases h1
    exact (List.getElem?_eq_some.1 hm.1).1
  · exact ⟨rfl, rfl, rfl, hip⟩
  · exact ⟨rfl, rfl, rfl, hip⟩

/-- The loop of `interpret` on a program with resolved jump tables, started inside
the program or at its end, can only exit with the instruction pointer at the end of
the program. -/
theorem interpretLoop_exit (fuel : Nat) :
    ∀ m done : BrainfuckCompiler, Resolved m.code m.jump_forward m.jump_backward →
      m.instruction_pointer ≤ m.code.length →
      interpretLoop fuel m = some (.ok done) →
      done.instruction_pointer = done.code.length ∧ done.code = m.code := by
  induction fuel with
  | zero =>
    intro m done _ hle h
    unfold interpretLoop at h
    by_cases hip : m.instruction_pointer < m.code.length
    · rw [if_pos hip] at h; cases h
    · rw [if_neg hip] at h
      simp only [Option.some.injEq, Except.ok.injEq] at h
      subst h
      exact ⟨by omega, rfl⟩
  | succ n ih =>
    intro m done hres hle h
    unfold interpretLoop at h
    by_cases hip : m.instruction_pointer < m.code.length
    · rw [if_pos hip] at h
      cases he : executeInstruction m with
      | error e => rw [he] at h; cases h
      | ok m1 =>
        rw [he] at h
        simp only at h
        obtain ⟨h1, h2, h3, h4⟩ := executeInstruction_keeps_program m m1 hres hip he
        have hres1 : Resolved
            ({ m1 with instruction_pointer := m1.instruction_pointer + 1 } :
              BrainfuckCompiler).code
            ({ m1 with instruction_pointer := m1.instruction_pointer + 1 } :
              BrainfuckCompiler).jump_forward
            ({ m1 with instruction_pointer := m1.instruction_pointer + 1 } :
              BrainfuckCompiler).jump_backward := by
          show Resolved m1.code m1.jump_forward m1.jump_backward
          rw [h1, h2, h3]; exact hres
        have hle1 : ({ m1 with instruction_pointer := m1.instruction_pointer + 1 } :
              BrainfuckCompiler).instruction_pointer ≤
            ({ m1 with instruction_pointer := m1.instruction_pointer + 1 } :
              BrainfuckCompiler).code.length := by
          show m1.instruction_pointer + 1 ≤ m1.code.length
          rw [h1]; omega
        obtain ⟨g1, g2⟩ := ih _ done hres1 hle1 h
        exact ⟨g1, by rw [g2]; exact h1⟩
    · rw [if_neg hip] at h
      simp only [Option.some.injEq, Except.ok.injEq] at h
      subst h
      exact ⟨by omega, rfl⟩

/-- C28. The instruction pointer never leaves the program: after a successful
`loadCode` (it returned `loaded`; the state `m` runs its code with its jump tables),
every jump target stored for a bracket is the index of a bracket inside the program;
for every state with `instruction_pointer < code.length()` one `step` leaves
`instruction_pointer <= code.length()` and the program and tables untouched; and
`interpret` (or its loop, started inside the program), when it terminates, exits with
`instruction_pointer` equal to `code.length()`. -/
theorem instruction_pointer_stays_in_program (m0 loaded m : BrainfuckCompiler)
    (text : List Char)
    (hload : loadCode m0 text = .ok loaded)
    (hcode : m.code = loaded.code)
    (hjf : m.jump_forward = loaded.jump_forward)
    (hjb : m.jump_backward = loaded.jump_backward) :
    (∀ i : Nat, m.code[i]? = some '[' →
      ∃ t : Nat, m.jump_forward[i]? = some t ∧ m.code[t]? = some ']') ∧
    (∀ i : Nat, m.code[i]? = some ']' →
      ∃ t : Nat, m.jump_backward[i]? = some t ∧ m.code[t]? = some '[') ∧
    (∀ b m1, m.instruction_pointer < m.code.length → step m = .ok (b, m1) →
      m1.instruction_pointer ≤ m1.code.length ∧ m1.code = m.code ∧
        m1.jump_forward = m.jump_forward ∧ m1.jump_backward = m.jump_backward) ∧
    (∀ fuel done, m.instruction_pointer ≤ m.code.length →
      interpretLoop fuel m = some (.ok done) →
      done.instruction_pointer = done.code.length) ∧
    (∀ fuel done, interpret fuel m = some (.ok done) →
      done.instruction_pointer = done.code.length) := by
  have hres : Resolved m.code m.jump_forward m.jump_backward := by
    rw [hcode, hjf, hjb]
    exact loadCode_resolved _ _ _ hload
  refine ⟨?_, ?_, ?_, ?_, ?_⟩
  · intro i hi
    obtain ⟨b, h1, _, hm⟩ := hres.1 i hi
    exact ⟨b, h1, hm.2.1⟩
  · intro i hi
    obtain ⟨a, h1, _, hm⟩ := hres.2 i hi
    exact ⟨a, h1, hm.1⟩
  · intro b m1 hip h
    rcases step_inv m m1 b h with ⟨_, rfl, _⟩ | ⟨_, _, m2, he, rfl⟩
    · exact ⟨by omega, rfl, rfl, rfl⟩
    · obtain ⟨h1, h2, h3, h4⟩ := executeInstruction_keeps_program m m2 hres hip he
      refine ⟨?_, h1, h2, h3⟩
      show m2.instruction_pointer + 1 ≤ m2.code.length
      rw [h1]; omega
  · intro fuel done hle h
    exact (interpretLoop_exit fuel m done hres hle h).1
  · intro fuel done h
    unfold interpret at h
    exact (interpretLoop_exit fuel
      { m with
          data_pointer := 0
          instruction_pointer := 0
          memory := m.memory.map (fun _ => 0) } done hres (Nat.zero_le _) h).1

/-- C28 at a concrete state: the machine that loaded `[]`; the target stored for the
`[` at index 0 is the index of a `]`. -/
theorem instruction_pointer_stays_in_program_witness :
    ∃ t : Nat, ((BrainfuckCompiler.new []).jump_forward.set 0 1)[0]? = some t ∧
      ['[', ']'][t]? = some ']' :=
  (instruction_pointer_stays_in_program (BrainfuckCompiler.new [])
    { BrainfuckCompiler.new [] with
        code := ['[', ']']
        jump_forward := (BrainfuckCompiler.new []).jump_forward.set 0 1
        jump_backward := (BrainfuckCompiler.new []).jump_backward.set 1 0 }
    { BrainfuckCompiler.new [] with
        code := ['[', ']']
        jump_forward := (BrainfuckCompiler.new []).jump_forward.set 0 1
        jump_backward := (BrainfuckCompiler.new []).jump_backward.set 1 0 }
    ['[', ']'] rfl rfl rfl rfl).1 0 rfl

end DevBFX

/-! ## What each instruction leaves alone -/

namespace DevBFX

/-- C27, as stated, fails: `.` is not the only instruction that writes to standard
output, and it does not write exactly one byte. On the freshly constructed machine,
`,` appends its 50-byte prompt to the output, and `.` appends 32 bytes: the label,
the cell and a line feed. -/
theorem comma_and_dot_write_labels :
    (executeInstruction { BrainfuckCompiler.new [65, 10] with code := [','] }).map
        (fun m1 => m1.cout) = .ok inputLabel ∧
      (executeInstruction { BrainfuckCompiler.new [] with code := ['.'] }).map
        (fun m1 => m1.cout) = .ok (outputLabel ++ [0, 10]) ∧
      inputLabel.length = 50 ∧ (outputLabel ++ [0, 10]).length = 32 := by
  refine ⟨?_, ?_, ?_, ?_⟩
  · rfl
  · rfl
  · decide
  · decide

/-- C27, amended. For every state from which `executeInstruction` returns: `+`, `-`
and `,` leave the data pointer and every cell other than `memory[data_pointer]`
unchanged; `>` and `<` leave the whole tape unchanged; `.`, `[` and `]` leave both
tape and data pointer unchanged; `.` appends to the output its label, one byte equal
to `memory[data_pointer]` and a line feed; `,` appends its prompt to the output; and
the other instructions write nothing. -/
theorem executeInstruction_frame (m m1 : BrainfuckCompiler)
    (h : executeInstruction m = .ok m1) :
    (fetched m = '+' ∨ fetched m = '-' ∨ fetched m = ',' →
      m1.data_pointer = m.data_pointer ∧
        ∀ k, k ≠ m.data_pointer → m1.memory[k]? = m.memory[k]?) ∧
    (fetched m = '>' ∨ fetched m = '<' → m1.memory = m.memory) ∧
    (fetched m = '.' ∨ fetched m = '[' ∨ fetched m = ']' →
      m1.memory = m.memory ∧ m1.data_pointer = m.data_pointer) ∧
    (fetched m = '.' →
      ∃ v, m.memory[m.data_pointer]? = some v ∧
        m1.cout = m.cout ++ (outputLabel ++ [v] ++ [10])) ∧
    (fetched m = ',' → m1.cout = m.cout ++ inputLabel) ∧
    (fetched m ≠ '.' → fetched m ≠ ',' → m1.cout = m.cout) := by
  have hset : ∀ (x k : Nat), k ≠ m.data_pointer →
      (m.memory.set m.data_pointer x)[k]? = m.memory[k]? := by
    intro x k hk
    exact List.getElem?_set_ne (fun e => hk e.symm)
  rcases executeInstruction_inv m m1 h with
    ⟨hc, rfl⟩ | ⟨hc, rfl⟩ | ⟨hc, v, hv, rfl⟩ | ⟨hc, v, hv, rfl⟩ | ⟨hc, v, hv, rfl⟩ |
    ⟨hc, _, rfl⟩ |
    ⟨hc, v, hv, ⟨_, t, _, rfl⟩ | ⟨_, rfl⟩⟩ | ⟨hc, v, hv, ⟨_, t, _, rfl⟩ | ⟨_, rfl⟩⟩ |
    ⟨n1, n2, n3, n4, n5, n6, n7, n8, rfl⟩
  · rw [hc]; simp
  · rw [hc]; simp
  · rw [hc]; simp; exact hset _
  · rw [hc]; simp; exact hset _
  · rw [hc]; simp; exact hv
  · rw [hc]; simp; exact hset _
  · rw [hc]; simp
  · rw [hc]; simp
  · rw [hc]; simp
  · rw [hc]; simp
  · simp [n1, n2, n3, n4, n5, n6, n7, n8]

/-- C27 (amended) at a concrete state: the freshly constructed machine executing `+`
keeps its data pointer. -/
theorem executeInstruction_frame_witness :
    ({ BrainfuckCompiler.new [] with
         code := ['+']
         memory := (BrainfuckCompiler.new []).memory.set 0 1 } :
      BrainfuckCompiler).data_pointer = 0 :=
  ((executeInstruction_frame { BrainfuckCompiler.new [] with code := ['+'] }
    { BrainfuckCompiler.new [] with
        code := ['+']
        memory := (BrainfuckCompiler.new []).memory.set 0 1 } rfl).1 (Or.inl rfl)).1

end DevBFX

/-! ## The two copies of the switch in the class of `Trae-BFX.1.0.cpp` -/

namespace TraeBFX

namespace BrainfuckCompiler

/-- The switch of `step` and the switch of `interpret` are the same function of the
machine state. -/
theorem stepSwitch_eq_interpretSwitch (m : BrainfuckCompiler) :
    stepSwitch m = interpretSwitch m := rfl

/-- C23. Run-to-completion and single-step cannot diverge in the class of
`Trae-BFX.1.0.cpp`: for every machine state (program, jump table, tape, pointers)
and every input stream, a call of `step` inside the program returns `true` with
exactly the state that one iteration of the loop of `interpret` produces (same tape,
memory pointer, instruction pointer, jump table, output and remaining input), and
faults exactly when that iteration does; hence `interpret` and calling `step` until
it returns `false` give the same result with any amount of fuel: both terminate or
neither does, and they end in the same state. -/
theorem interpret_agrees_with_step :
    (∀ m : BrainfuckCompiler, m.instructionPointer < m.code.length →
      step m = (interpretSwitch m).map (fun m1 =>
        (true, { m1 with instructionPointer := m1.instructionPointer + 1 }))) ∧
    (∀ m : BrainfuckCompiler, m.code.length ≤ m.instructionPointer →
      step m = .ok (false, m) ∧ ∀ fuel, interpret fuel m = some (.ok m)) ∧
    (∀ fuel (m : BrainfuckCompiler), interpret fuel m = stepUntilFalse fuel m) := by
  have hstep : ∀ m : BrainfuckCompiler, m.instructionPointer < m.code.length →
      step m = (interpretSwitch m).map (fun m1 =>
        (true, { m1 with instructionPointer := m1.instructionPointer + 1 })) := by
    intro m hip
    have hn : ¬ m.instructionPointer ≥ m.code.length := by omega
    unfold step
    rw [if_neg hn, stepSwitch_eq_interpretSwitch]
    cases interpretSwitch m with
    | error e => rfl
    | ok m1 => rfl
  have hend : ∀ m : BrainfuckCompiler, m.code.length ≤ m.instructionPointer →
      step m = .ok (false, m) := by
    intro m hge
    unfold step
    rw [if_pos hge]
  refine ⟨hstep, ?_, ?_⟩
  · intro m hge
    refine ⟨hend m hge, ?_⟩
    intro fuel
    have hn : ¬ m.instructionPointer < m.code.length := by omega
    cases fuel with
    | zero => unfold interpret; rw [if_neg hn]
    | succ n => unfold interpret; rw [if_neg hn]
  · intro fuel
    induction fuel with
    | zero =>
      intro m
      unfold interpret stepUntilFalse
      by_cases hip : m.instructionPointer < m.code.length
      · rw [if_pos hip, hstep m hip]
        cases interpretSwitch m with
        | error e => rfl
        | ok m1 => rfl
      · rw [if_neg hip, hend m (by omega)]
    | succ n ih =>
      intro m
      unfold interpret stepUntilFalse
      by_cases hip : m.instructionPointer < m.code.length
      · rw [if_pos hip, hstep m hip]
        cases interpretSwitch m with
        | error e => rfl
        | ok m1 => exact ih _
      · rw [if_neg hip, hend m (by omega)]

end BrainfuckCompiler

end TraeBFX

/-! ## The braces of the emitted text -/

theorem braceDepth_append (a b : List Char) :
    ∀ d, braceDepth d (a ++ b) = (braceDepth d a).bind (fun e => braceDepth e b) := by
  induction a with
  | nil => intro d; rfl
  | cons c r ih =>
    intro d
    rw [List.cons_append]
    by_cases h1 : c = '\x7b'
    · simp only [braceDepth, h1, if_true]
      exact ih (d + 1)
    · by_cases h2 : c = '\x7d'
      · simp only [braceDepth, h1, h2, if_false, if_true]
        cases d with
        | zero => rfl
        | succ d => exact ih d
      · simp only [braceDepth, h1, h2, if_false]
        exact ih d

/-- The depth scan shifted by one level: a scan that finishes from depth `d` finishes
from depth `d + 1`, one level higher. -/
theorem bracketDepth_succ (text : List Char) :
    ∀ d e, bracketDepth d text = some e → bracketDepth (d + 1) text = some (e + 1) := by
  induction text with
  | nil =>
    intro d e h
    simp only [bracketDepth, Option.some.injEq] at h ⊢
    omega
  | cons c r ih =>
    intro d e h
    by_cases h1 : c = '['
    · subst h1
      simp only [bracketDepth, if_true] at h ⊢
      exact ih _ _ h
    · by_cases h2 : c = ']'
      · subst h2
        simp only [bracketDepth, h1, if_false, if_true] at h ⊢
        cases d with
        | zero => cases h
        | succ d => exact ih _ _ h
      · simp only [bracketDepth, h1, h2, if_false] at h ⊢
        exact ih _ _ h

namespace DevBFX

/-- The text of `compileToC`, cut into prologue, instruction lines and epilogue. -/
theorem compileToC_eq (m : BrainfuckCompiler) :
    compileToC m =
      compileToC_prologue ++ emittedLines compileToC_line m.code ++ compileToC_epilogue := by
  unfold compileToC
  rw [emit_foldl]

/-- The text of `compileToCpp`, cut into prologue, instruction lines and epilogue. -/
theorem compileToCpp_eq (m : BrainfuckCompiler) :
    compileToCpp m =
      compileToCpp_prologue ++ emittedLines compileToCpp_line m.code ++
        compileToCpp_epilogue := by
  unfold compileToCpp
  rw [emit_foldl]

/-- The braces of one line of `compileToC` are the brackets of its instruction. -/
theorem braceDepth_compileToC_line (c : Char) (rest : List Char) (d : Nat) :
    braceDepth d (("    " ++ compileToC_line c ++ "\n").toList ++ rest) =
      if c = '[' then braceDepth (d + 1) rest
      else if c = ']' then
        match d with
        | 0 => none
        | e + 1 => braceDepth e rest
      else braceDepth d rest := by
  unfold compileToC_line
  by_cases h1 : c = '>'
  · subst h1; rfl
  by_cases h2 : c = '<'
  · subst h2; rfl
  by_cases h3 : c = '+'
  · subst h3; rfl
  by_cases h4 : c = '-'
  · subst h4; rfl
  by_cases h5 : c = '.'
  · subst h5; rfl
  by_cases h6 : c = ','
  · subst h6; rfl
  by_cases h7 : c = '['
  · subst h7; rfl
  by_cases h8 : c = ']'
  · subst h8
    cases d with
    | zero => rfl
    | succ d => rfl
  simp only [h1, h2, h3, h4, h5, h6, h7, h8, if_false]
  rfl

/-- The braces of the instruction lines of `compileToC` nest as the brackets of the
program do. -/
theorem braceDepth_emittedLines (code rest : List Char) :
    ∀ d, braceDepth d ((emittedLines compileToC_line code).toList ++ rest) =
      (bracketDepth d code).bind (fun e => braceDepth e rest) := by
  induction code with
  | nil => intro d; rfl
  | cons c r ih =>
    intro d
    have hcut : (emittedLines compileToC_line (c :: r)).toList ++ rest =
        ("    " ++ compileToC_line c ++ "\n").toList ++
          ((emittedLines compileToC_line r).toList ++ rest) := by
      simp only [emittedLines, String.toList, String.data_append, List.append_assoc]
    rw [hcut, braceDepth_compileToC_line]
    by_cases h1 : c = '['
    · subst h1
      simp only [if_true, bracketDepth, ih]
    · by_cases h2 : c = ']'
      · subst h2
        simp only [h1, if_false, if_true, bracketDepth]
        cases d with
        | zero => rfl
        | succ d => exact ih d
      · simp only [h1, h2, if_false, bracketDepth, ih]

/-- The depth scan over the whole text of `compileToC`: the prologue opens the brace
of `main`, the instruction lines follow the brackets of the program from depth 1, and
the epilogue closes one brace. -/
theorem braceDepth_compileToC (m : BrainfuckCompiler) :
    braceDepth 0 (compileToC m).toList =
      (bracketDepth 1 m.code).bind (fun e =>
        match e with
        | 0 => none
        | f + 1 => some f) := by
  rw [compileToC_eq]
  have hcut : (compileToC_prologue ++ emittedLines compileToC_line m.code ++
      compileToC_epilogue).toList =
        compileToC_prologue.toList ++
          ((emittedLines compileToC_line m.code).toList ++ compileToC_epilogue.toList) := by
    simp only [String.toList, String.data_append, List.append_assoc]
  rw [hcut, braceDepth_append]
  have hpro : braceDepth 0 compileToC_prologue.toList = some 1 := by decide
  rw [hpro]
  simp only [Option.some_bind]
  rw [braceDepth_emittedLines]
  cases bracketDepth 1 m.code with
  | none => rfl
  | some e =>
    simp only [Option.some_bind]
    cases e with
    | zero => rfl
    | succ f => rfl

/-- C24, as stated, fails: the program `][` does not have balanced brackets, yet the
braces of the text that `compileToC` returns for it are properly nested and balanced
(the brace emitted for `]` closes the brace of `main`, and the closing brace of the
epilogue closes the one emitted for `[`). -/
theorem compileToC_braces_balanced_on_unbalanced_program :
    BracesBalanced (compileToC { BrainfuckCompiler.new [] with code := [']', '['] }) ∧
      ¬ BracketsBalanced [']', '['] := by
  constructor
  · unfold BracesBalanced
    rw [braceDepth_compileToC]
    rfl
  · rw [bracketsBalanced_iff]
    decide

/-- C24, amended. For every program, the emitter returns a text (prologue, one line
for every instruction, epilogue) without any check of the brackets; when the
brackets of the program are balanced, the braces of that text are properly nested
and balanced; and the braces are properly nested and balanced exactly when the
program holds as many `]` as `[` and no prefix of it holds more than one `]` in
excess of `[` (the depth scan from 1 ends at 1). -/
theorem compileToC_braces (m : BrainfuckCompiler) :
    compileToC m =
        compileToC_prologue ++ emittedLines compileToC_line m.code ++ compileToC_epilogue ∧
    (BracketsBalanced m.code → BracesBalanced (compileToC m)) ∧
    (BracesBalanced (compileToC m) ↔ bracketDepth 1 m.code = some 1) ∧
    (BracesBalanced (compileToC m) ↔
      ((∀ k, k ≤ m.code.length → closes (m.code.take k) ≤ 1 + opens (m.code.take k)) ∧
        closes m.code = opens m.code)) := by
  have hiff : BracesBalanced (compileToC m) ↔ bracketDepth 1 m.code = some 1 := by
    unfold BracesBalanced
    rw [braceDepth_compileToC]
    cases bracketDepth 1 m.code with
    | none => simp
    | some e =>
      cases e with
      | zero => simp
      | succ f => simp
  refine ⟨compileToC_eq m, ?_, hiff, ?_⟩
  · intro hbal
    rw [hiff]
    exact bracketDepth_succ _ 0 0 ((bracketsBalanced_iff _).1 hbal)
  · rw [hiff, bracketDepth_iff]
    constructor
    · intro ⟨h1, h2⟩
      exact ⟨h1, by omega⟩
    · intro ⟨h1, h2⟩
      exact ⟨h1, by omega⟩

end DevBFX

/-! ## The two emission targets -/

theorem lineCount_append (a b : String) : lineCount (a ++ b) = lineCount a + lineCount b := by
  simp only [lineCount, String.toList, String.data_append, List.count_append]

/-- When every instruction line holds exactly one line feed, the instruction lines
are as many as the instructions. -/
theorem lineCount_emittedLines (line : Char → String)
    (hline : ∀ c, lineCount ("    " ++ line c ++ "\n") = 1) (code : List Char) :
    lineCount (emittedLines line code) = code.length := by
  induction code with
  | nil => rfl
  | cons c r ih =>
    simp only [emittedLines, List.length_cons]
    rw [lineCount_append, hline, ih]
    omega

namespace DevBFX

theorem lineCount_compileToC_line (c : Char) :
    lineCount ("    " ++ compileToC_line c ++ "\n") = 1 := by
  unfold compileToC_line
  by_cases h1 : c = '>'
  · subst h1; decide
  by_cases h2 : c = '<'
  · subst h2; decide
  by_cases h3 : c = '+'
  · subst h3; decide
  by_cases h4 : c = '-'
  · subst h4; decide
  by_cases h5 : c = '.'
  · subst h5; decide
  by_cases h6 : c = ','
  · subst h6; decide
  by_cases h7 : c = '['
  · subst h7; decide
  by_cases h8 : c = ']'
  · subst h8; decide
  simp only [h1, h2, h3, h4, h5, h6, h7, h8, if_false]
  decide

theorem lineCount_compileToCpp_line (c : Char) :
    lineCount ("    " ++ compileToCpp_line c ++ "\n") = 1 := by
  unfold compileToCpp_line
  by_cases h1 : c = '>'
  · subst h1; decide
  by_cases h2 : c = '<'
  · subst h2; decide
  by_cases h3 : c = '+'
  · subst h3; decide
  by_cases h4 : c = '-'
  · subst h4; decide
  by_cases h5 : c = '.'
  · subst h5; decide
  by_cases h6 : c = ','
  · subst h6; decide
  by_cases h7 : c = '['
  · subst h7; decide
  by_cases h8 : c = ']'
  · subst h8; decide
  simp only [h1, h2, h3, h4, h5, h6, h7, h8, if_false]
  decide

/-- Both emitters return nine fixed lines and one line for every instruction. -/
theorem lineCount_compile (m : BrainfuckCompiler) :
    lineCount (compileToC m) = m.code.length + 9 ∧
      lineCount (compileToCpp m) = m.code.length + 9 := by
  have hc : lineCount compileToC_prologue = 7 := by decide
  have hcpp : lineCount compileToCpp_prologue = 7 := by decide
  have he : lineCount compileToC_epilogue = 2 := by decide
  have hepp : lineCount compileToCpp_epilogue = 2 := by decide
  constructor
  · rw [compileToC_eq, lineCount_append, lineCount_append,
      lineCount_emittedLines _ lineCount_compileToC_line, hc, he]
    omega
  · rw [compileToCpp_eq, lineCount_append, lineCount_append,
      lineCount_emittedLines _ lineCount_compileToCpp_line, hcpp, hepp]
    omega

/-- C25, on the code. The two emitters return the same number of lines for every
program, and the lines they emit for `+`, `-`, `[` and `]` denote the same
operations; but the lines for `>` and `<` do not: `compileToC` emits `++ptr;` and
`--ptr;`, which move the pointer without reduction, where `compileToCpp` emits the
moves reduced to the 30000 cells. The two agree while the index stays inside the
memory and differ at both ends: from index 29999 `>` leads to 30000 (outside the
array) in the C text and to 0 in the C++ text; from index 0 `<` leads to -1 (outside
the array) in the C text and to 29999 in the C++ text. -/
theorem compileToC_moves_without_wrap :
    (∀ m : BrainfuckCompiler, lineCount (compileToC m) = lineCount (compileToCpp m)) ∧
    (∀ c, c ∈ ['+', '-', '[', ']'] →
      denoted (compileToC_line c) = denoted (compileToCpp_line c) ∧
        (denoted (compileToC_line c)).isSome = true) ∧
    denoted (compileToC_line '>') = some .right ∧
    denoted (compileToCpp_line '>') = some (.rightWrap 30000) ∧
    denoted (compileToC_line '<') = some .left ∧
    denoted (compileToCpp_line '<') = some (.leftWrap 30000) ∧
    (∀ p : Int, 0 ≤ p → p < 29999 →
      Operation.right.indexAfter p = (Operation.rightWrap 30000).indexAfter p) ∧
    (∀ p : Int, 0 < p → p < 30000 →
      Operation.left.indexAfter p = (Operation.leftWrap 30000).indexAfter p) ∧
    Operation.right.indexAfter 29999 = 30000 ∧
    (Operation.rightWrap 30000).indexAfter 29999 = 0 ∧
    Operation.left.indexAfter 0 = -1 ∧
    (Operation.leftWrap 30000).indexAfter 0 = 29999 := by
  refine ⟨?_, by decide, by decide, by decide, by decide, by decide, ?_, ?_,
    by decide, by decide, by decide, by decide⟩
  · intro m
    rw [(lineCount_compile m).1, (lineCount_compile m).2]
  · intro p h0 h1
    simp only [Operation.indexAfter]
    omega
  · intro p h0 h1
    have hp : p ≠ 0 := by omega
    simp only [Operation.indexAfter, hp, if_false]

end DevBFX

/-! ## The jump table of the bounds-checked machine -/

namespace DevBFX

/-- Whenever the scan of `precomputeJumps` ends with an empty stack, the two tables
it leaves resolve the brackets of the code. -/
theorem precomputeJumpsLoop_resolved (code : List Char) (jf jb jf2 jb2 : List Nat)
    (hrun : precomputeJumpsLoop code 0 [] jf jb = .ok ([], jf2, jb2)) :
    Resolved code jf2 jb2 := by
  have hinit : JumpInv code 0 [] jf jb := by
    refine ⟨by simp, List.nodup_nil, ?_, ?_⟩
    · intro b hb; omega
    · intro a ha; omega
  have hminit : MatchInv code 0 [] jb := by
    refine ⟨by simp, ?_, trivial, ?_⟩
    · rw [depthBefore_zero]; rfl
    · intro b a hb; omega
  obtain ⟨_, _, hcl, hop⟩ :=
    precomputeJumpsLoop_inv code code [] 0 [] jf jb (by simp) rfl hinit _ _ _ hrun
  obtain ⟨_, _, _, hmatch⟩ :=
    precomputeJumpsLoop_matchInv code code [] 0 [] jf jb (by simp) rfl hminit _ _ _ hrun
  refine ⟨?_, ?_⟩
  · intro a ha
    have hlt : a < code.length := (List.getElem?_eq_some.1 ha).1
    rcases hop a hlt ha with hin | ⟨b, h1, _, h3, h4, h5⟩
    · simp at hin
    · exact ⟨b, h1, h5, hmatch b a h3 h4 h5⟩
  · intro b hb
    have hlt : b < code.length := (List.getElem?_eq_some.1 hb).1
    obtain ⟨a, h1, _, _, h4, _⟩ := hcl b hlt hb
    exact ⟨a, h1, h4, hmatch b a hlt hb h1⟩

end DevBFX

namespace TraeBFX

/-- The first scan of `run` and the scan of `precomputeJumps` of `Dev-BFX.cpp`, on
the same text and on tables of the same length, proceed in step: whenever the first
reaches the end of the text, so does the second, with the same stack and with tables
that agree with `loop_map` on every bracket that has left the stack. -/
theorem buildLoopMap_lockstep (program rest : List Char) :
    ∀ (pre : List Char) (i : Nat) (stack : List Nat) (lm : List Int) (jf jb : List Nat),
      program = pre ++ rest → pre.length = i →
      (∀ s, s ∈ stack → s < i ∧ program[s]? = some '[') →
      Agree program i stack lm jf jb →
      ∀ s2 lm2, buildLoopMap rest i stack lm = .ok (true, s2, lm2) →
        lm2.length = lm.length ∧
        ∃ jf2 jb2, DevBFX.precomputeJumpsLoop rest i stack jf jb = .ok (s2, jf2, jb2) ∧
          Agree program program.length s2 lm2 jf2 jb2 := by
  induction rest with
  | nil =>
    intro pre i stack lm jf jb hprog hlen _ hag s2 lm2 hrun
    simp only [buildLoopMap, Except.ok.injEq, Prod.mk.injEq, true_and] at hrun
    obtain ⟨h1, h2⟩ := hrun
    subst h1 h2
    have : program.length = i := by rw [hprog]; simpa using hlen
    rw [this]
    exact ⟨rfl, jf, jb, rfl, hag⟩
  | cons c r ih =>
    intro pre i stack lm jf jb hprog hlen hst hag s2 lm2 hrun
    have hci : program[i]? = some c := by
      rw [hprog, List.getElem?_append_right (by omega)]
      simp [hlen]
    have hprog' : program = (pre ++ [c]) ++ r := by rw [hprog]; simp
    have hlen' : (pre ++ [c]).length = i + 1 := by simp [hlen]
    obtain ⟨hjf, hjb, hrel⟩ := hag
    by_cases hc1 : c = '['
    · subst hc1
      simp only [buildLoopMap, if_true] at hrun
      simp only [DevBFX.precomputeJumpsLoop, if_true]
      refine ih _ _ _ _ _ _ hprog' hlen' ?_ ⟨hjf, hjb, ?_⟩ _ _ hrun
      · intro s hs
        rcases List.mem_cons.1 hs with h | h
        · subst h; exact ⟨by omega, hci⟩
        · exact ⟨by have := (hst s h).1; omega, (hst s h).2⟩
      · intro k hk hnot
        have hki : k ≠ i := fun e => hnot (by rw [e]; exact List.mem_cons_self _ _)
        exact hrel k (by omega) (fun hin => hnot (List.mem_cons_of_mem _ hin))
    · by_cases hc2 : c = ']'
      · subst hc2
        simp only [buildLoopMap, hc1, if_false, if_true] at hrun
        simp only [DevBFX.precomputeJumpsLoop, hc1, if_false, if_true]
        cases stack with
        | nil => simp at hrun
        | cons start popped =>
          simp only [List.get?_eq_getElem?] at hrun ⊢
          by_cases hs : start < lm.length
          · by_cases hi : i < lm.length
            · have e1 : lm[start]?.isSome = true := by
                rw [List.getElem?_eq_getElem hs]; rfl
              have e2 : (lm.set start (i : Int))[i]?.isSome = true := by
                rw [List.getElem?_eq_getElem (by simpa using hi)]; rfl
              simp only [e1, e2, if_true] at hrun
              have hd1 : inRange jf start = true := (inRange_iff _ _).2 (by omega)
              have hd2 : inRange jb i = true := (inRange_iff _ _).2 (by omega)
              simp only [hd1, hd2, if_true]
              have hstart := hst start (List.mem_cons_self _ _)
              have hne : start ≠ i := by omega
              obtain ⟨hl, jf2, jb2, hdev, hfin⟩ :=
                ih (pre ++ [']']) (i + 1) popped ((lm.set start (i : Int)).set i (start : Int))
                  (jf.set start i) (jb.set i start) hprog' hlen'
                  (fun s hs =>
                    ⟨by have := (hst s (List.mem_cons_of_mem _ hs)).1; omega,
                      (hst s (List.mem_cons_of_mem _ hs)).2⟩)
                  ⟨by simp [hjf], by simp [hjb], by
                    intro k hk hnot
                    by_cases hki : k = i
                    · subst hki
                      constructor
                      · intro h; rw [hci] at h; exact absurd (Option.some.inj h) (by decide)
                      · intro _
                        rw [List.getElem?_set_self (by simpa using hi),
                          List.getElem?_set_self (by omega)]
                        rfl
                    · by_cases hks : k = start
                      · subst hks
                        constructor
                        · intro _
                          rw [List.getElem?_set_ne (fun e => hki e.symm),
                            List.getElem?_set_self hs, List.getElem?_set_self (by omega)]
                          rfl
                        · intro h
                          rw [hstart.2] at h
                          exact absurd (Option.some.inj h) (by decide)
                      · have hold := hrel k (by omega) (by
                          intro hin
                          rcases List.mem_cons.1 hin with h | h
                          · exact hks h
                          · exact hnot h)
                        rw [List.getElem?_set_ne (fun e => hki e.symm),
                          List.getElem?_set_ne (fun e => hks e.symm),
                          List.getElem?_set_ne (fun e => hks e.symm),
                          List.getElem?_set_ne (fun e => hki e.symm)]
                        exact hold⟩ _ _ hrun
              refine ⟨by simpa using hl, jf2, jb2, hdev, hfin⟩
            · have e1 : lm[start]?.isSome = true := by
                rw [List.getElem?_eq_getElem hs]; rfl
              have e2 : (lm.set start (i : Int))[i]? = none :=
                List.getElem?_eq_none_iff.2 (by simpa using hi)
              simp [e1, e2] at hrun
          · have e1 : lm[start]? = none := List.getElem?_eq_none_iff.2 (by omega)
            simp [e1] at hrun
      · simp only [buildLoopMap, hc1, hc2, if_false] at hrun
        simp only [DevBFX.precomputeJumpsLoop, hc1, hc2, if_false]
        refine ih _ _ _ _ _ _ hprog' hlen' ?_ ⟨hjf, hjb, ?_⟩ _ _ hrun
        · intro s hs
          exact ⟨by have := (hst s hs).1; omega, (hst s hs).2⟩
        · intro k hk hnot
          by_cases hki : k = i
          · subst hki
            constructor
            · intro h; rw [hci] at h; exact absurd (Option.some.inj h) hc1
            · intro h; rw [hci] at h; exact absurd (Option.some.inj h) hc2
          · exact hrel k (by omega) hnot

/-- Whenever the first scan of `run` reaches the end of the program with an empty
stack, the table it leaves resolves the brackets of the program. -/
theorem buildLoopMap_resolved (program : List Char) (lm lm2 : List Int)
    (hrun : buildLoopMap program 0 [] lm = .ok (true, [], lm2)) :
    lm2.length = lm.length ∧ LoopMapResolved program lm2 := by
  obtain ⟨hl, jf2, jb2, hdev, _, _, hrel⟩ :=
    buildLoopMap_lockstep program program [] 0 [] lm
      (List.replicate lm.length 0) (List.replicate lm.length 0) (by simp) rfl
      (by simp) ⟨by simp, by simp, by intro k hk; omega⟩ _ _ hrun
  have hres := DevBFX.precomputeJumpsLoop_resolved program _ _ _ _ hdev
  refine ⟨hl, ?_, ?_⟩
  · intro a ha
    have hlt : a < program.length := (List.getElem?_eq_some.1 ha).1
    obtain ⟨b, h1, _, hm⟩ := hres.1 a ha
    refine ⟨b, ?_, hm⟩
    rw [(hrel a hlt (by simp)).1 ha, h1]
    rfl
  · intro b hb
    have hlt : b < program.length := (List.getElem?_eq_some.1 hb).1
    obtain ⟨a, h1, _, hm⟩ := hres.2 b hb
    refine ⟨a, ?_, hm⟩
    rw [(hrel b hlt (by simp)).2 hb, h1]
    rfl

end TraeBFX

/-! ## One pass of the second scan of the bounds-checked machine -/

namespace TraeBFX

/-- Every pass through the body of the second scan that falls through to `i++`, by
the character it switched on. -/
theorem runBody_next_inv (program : List Char) (s s1 : RunState)
    (h : runBody program s = .ok (.next s1)) :
    0 ≤ s.i ∧ ∃ c, program[s.i.toNat]? = some c ∧
      ((c = '>' ∧ s.pointer ≠ MEMORY_SIZE - 1 ∧
          s1 = { s with pointer := s.pointer + 1 }) ∨
        (c = '<' ∧ s.pointer ≠ 0 ∧ s1 = { s with pointer := s.pointer - 1 }) ∨
        (c = '+' ∧ ∃ v, s.memory[s.pointer]? = some v ∧
          s1 = { s with memory := s.memory.set s.pointer ((v + 1) % 256) }) ∨
        (c = '-' ∧ ∃ v, s.memory[s.pointer]? = some v ∧
          s1 = { s with memory := s.memory.set s.pointer ((v + 255) % 256) }) ∨
        (c = '.' ∧ ∃ v, s.memory[s.pointer]? = some v ∧
          s1 = { s with cout := s.cout ++ [v] }) ∨
        (c = ',' ∧
          ((s.cin.dropWhile (fun b => b = 10) = [] ∧ s1 = { s with cin := [] }) ∨
            ∃ b unread, s.cin.dropWhile (fun b => b = 10) = b :: unread ∧
              s.pointer < s.memory.length ∧
              s1 = { s with cin := unread, memory := s.memory.set s.pointer (b % 256) })) ∨
        (c = '[' ∧ ∃ v, s.memory[s.pointer]? = some v ∧
          ((v = 0 ∧ ∃ t, s.loop_map[s.i.toNat]? = some t ∧ s1 = { s with i := t }) ∨
            (v ≠ 0 ∧ s1 = s))) ∨
        (c = ']' ∧ ∃ v, s.memory[s.pointer]? = some v ∧
          ((v ≠ 0 ∧ ∃ t, s.loop_map[s.i.toNat]? = some t ∧ s1 = { s with i := t }) ∨
            (v = 0 ∧ s1 = s))) ∨
        (c ≠ '>' ∧ c ≠ '<' ∧ c ≠ '+' ∧ c ≠ '-' ∧ c ≠ '.' ∧ c ≠ ',' ∧ c ≠ '[' ∧ c ≠ ']' ∧
          s1 = s)) := by
  unfold runBody at h
  simp only [List.get?_eq_getElem?] at h
  by_cases hneg : s.i < 0
  · simp only [hneg, if_true] at h; cases h
  simp only [hneg, if_false] at h
  refine ⟨by omega, ?_⟩
  cases hget : program[s.i.toNat]? with
  | none => rw [hget] at h; cases h
  | some c =>
    rw [hget] at h
    simp only at h
    refine ⟨c, rfl, ?_⟩
    by_cases h1 : c = '>'
    · subst h1
      simp only [if_true] at h
      by_cases hp : s.pointer = MEMORY_SIZE - 1
      · simp only [hp, if_true] at h; cases h
      · simp only [hp, if_false, Except.ok.injEq, Flow.next.injEq] at h
        exact Or.inl ⟨rfl, hp, h.symm⟩
    by_cases h2 : c = '<'
    · subst h2
      simp only [h1, if_true, if_false] at h
      by_cases hp : s.pointer = 0
      · simp only [hp, if_true] at h; cases h
      · simp only [hp, if_false, Except.ok.injEq, Flow.next.injEq] at h
        exact Or.inr (Or.inl ⟨rfl, hp, h.symm⟩)
    by_cases h3 : c = '+'
    · subst h3
      simp only [h1, h2, if_true, if_false] at h
      cases hm : s.memory[s.pointer]? with
      | none => rw [hm] at h; cases h
      | some v =>
        rw [hm] at h
        simp only [Except.ok.injEq, Flow.next.injEq] at h
        exact Or.inr (Or.inr (Or.inl ⟨rfl, v, rfl, h.symm⟩))
    by_cases h4 : c = '-'
    · subst h4
      simp only [h1, h2, h3, if_true, if_false] at h
      cases hm : s.memory[s.pointer]? with
      | none => rw [hm] at h; cases h
      | some v =>
        rw [hm] at h
        simp only [Except.ok.injEq, Flow.next.injEq] at h
        exact Or.inr (Or.inr (Or.inr (Or.inl ⟨rfl, v, rfl, h.symm⟩)))
    by_cases h5 : c = '.'
    · subst h5
      simp only [h1, h2, h3, h4, if_true, if_false] at h
      cases hm : s.memory[s.pointer]? with
      | none => rw [hm] at h; cases h
      | some v =>
        rw [hm] at h
        simp only [Except.ok.injEq, Flow.next.injEq] at h
        exact Or.inr (Or.inr (Or.inr (Or.inr (Or.inl ⟨rfl, v, rfl, h.symm⟩))))
    by_cases h6 : c = ','
    · subst h6
      simp only [h1, h2, h3, h4, h5, if_true, if_false] at h
      refine Or.inr (Or.inr (Or.inr (Or.inr (Or.inr (Or.inl ⟨rfl, ?_⟩)))))
      cases hd : s.cin.dropWhile (fun b => b = 10) with
      | nil =>
        rw [hd] at h
        simp only [Except.ok.injEq, Flow.next.injEq] at h
        exact Or.inl ⟨rfl, h.symm⟩
      | cons b unread =>
        rw [hd] at h
        simp only at h
        by_cases hm : s.pointer < s.memory.length
        · have e : s.memory[s.pointer]?.isSome = true := by
            rw [List.getElem?_eq_getElem hm]; rfl
          simp only [e, if_true, Except.ok.injEq, Flow.next.injEq] at h
          exact Or.inr ⟨b, unread, rfl, hm, h.symm⟩
        · have e : s.memory[s.pointer]? = none := List.getElem?_eq_none_iff.2 (by omega)
          simp [e] at h
    by_cases h7 : c = '['
    · subst h7
      simp only [h1, h2, h3, h4, h5, h6, if_true, if_false] at h
      cases hm : s.memory[s.pointer]? with
      | none => rw [hm] at h; cases h
      | some v =>
        rw [hm] at h
        simp only at h
        refine Or.inr (Or.inr (Or.inr (Or.inr (Or.inr (Or.inr (Or.inl ⟨rfl, v, rfl, ?_⟩))))))
        by_cases hv : v = 0
        · simp only [hv, if_true] at h
          cases hj : s.loop_map[s.i.toNat]? with
          | none => rw [hj] at h; cases h
          | some t =>
            rw [hj] at h
            simp only [Except.ok.injEq, Flow.next.injEq] at h
            exact Or.inl ⟨hv, t, rfl, h.symm⟩
        · simp only [hv, if_false, Except.ok.injEq, Flow.next.injEq] at h
          exact Or.inr ⟨hv, h.symm⟩
    by_cases h8 : c = ']'
    · subst h8
      simp only [h1, h2, h3, h4, h5, h6, h7, if_true, if_false] at h
      cases hm : s.memory[s.pointer]? with
      | none => rw [hm] at h; cases h
      | some v =>
        rw [hm] at h
        simp only at h
        refine Or.inr (Or.inr (Or.inr (Or.inr (Or.inr (Or.inr (Or.inr (Or.inl
          ⟨rfl, v, rfl, ?_⟩)))))))
        by_cases hv : v = 0
        · simp only [hv, ne_eq, not_true_eq_false, if_false, Except.ok.injEq,
            Flow.next.injEq] at h
          exact Or.inr ⟨hv, h.symm⟩
        · simp only [hv, ne_eq, not_false_eq_true, if_true] at h
          cases hj : s.loop_map[s.i.toNat]? with
          | none => rw [hj] at h; cases h
          | some t =>
            rw [hj] at h
            simp only [Except.ok.injEq, Flow.next.injEq] at h
            exact Or.inl ⟨hv, t, rfl, h.symm⟩
    simp only [h1, h2, h3, h4, h5, h6, h7, h8, if_false, Except.ok.injEq,
      Flow.next.injEq] at h
    exact Or.inr (Or.inr (Or.inr (Or.inr (Or.inr (Or.inr (Or.inr (Or.inr
      ⟨h1, h2, h3, h4, h5, h6, h7, h8, h.symm⟩)))))))

/-- Every fault of one pass through the body of the second scan: an index outside the
program, a pointer outside the tape, or a bracket outside `loop_map`. -/
theorem runBody_error_inv (program : List Char) (s : RunState) (e : Fault)
    (h : runBody program s = .error e) :
    (e = .codeOutOfRange ∧ (s.i < 0 ∨ program.length ≤ s.i.toNat)) ∨
    (e = .memoryOutOfRange ∧ s.memory.length ≤ s.pointer) ∨
    (e = .jumpTableOutOfRange ∧ s.loop_map.length ≤ s.i.toNat ∧
      (program[s.i.toNat]? = some '[' ∨ program[s.i.toNat]? = some ']')) := by
  unfold runBody at h
  simp only [List.get?_eq_getElem?] at h
  have hmem : s.memory[s.pointer]? = none → s.memory.length ≤ s.pointer :=
    fun hn => List.getElem?_eq_none_iff.1 hn
  by_cases hneg : s.i < 0
  · simp only [hneg, if_true, Except.error.injEq] at h
    exact Or.inl ⟨h.symm, Or.inl hneg⟩
  simp only [hneg, if_false] at h
  cases hget : program[s.i.toNat]? with
  | none =>
    rw [hget] at h
    simp only [Except.error.injEq] at h
    exact Or.inl ⟨h.symm, Or.inr (List.getElem?_eq_none_iff.1 hget)⟩
  | some c =>
    rw [hget] at h
    simp only at h
    by_cases h1 : c = '>'
    · subst h1
      simp only [if_true] at h
      by_cases hp : s.pointer = MEMORY_SIZE - 1
      · simp only [hp, if_true] at h; cases h
      · simp only [hp, if_false] at h; cases h
    by_cases h2 : c = '<'
    · subst h2
      simp only [h1, if_true, if_false] at h
      by_cases hp : s.pointer = 0
      · simp only [hp, if_true] at h; cases h
      · simp only [hp, if_false] at h; cases h
    by_cases h3 : c = '+'
    · subst h3
      simp only [h1, h2, if_true, if_false] at h
      cases hm : s.memory[s.pointer]? with
      | none =>
        rw [hm] at h
        simp only [Except.error.injEq] at h
        exact Or.inr (Or.inl ⟨h.symm, hmem hm⟩)
      | some v => rw [hm] at h; cases h
    by_cases h4 : c = '-'
    · subst h4
      simp only [h1, h2, h3, if_true, if_false] at h
      cases hm : s.memory[s.pointer]? with
      | none =>
        rw [hm] at h
        simp only [Except.error.injEq] at h
        exact Or.inr (Or.inl ⟨h.symm, hmem hm⟩)
      | some v => rw [hm] at h; cases h
    by_cases h5 : c = '.'
    · subst h5
      simp only [h1, h2, h3, h4, if_true, if_false] at h
      cases hm : s.memory[s.pointer]? with
      | none =>
        rw [hm] at h
        simp only [Except.error.injEq] at h
        exact Or.inr (Or.inl ⟨h.symm, hmem hm⟩)
      | some v => rw [hm] at h; cases h
    by_cases h6 : c = ','
    · subst h6
      simp only [h1, h2, h3, h4, h5, if_true, if_false] at h
      cases hd : s.cin.dropWhile (fun b => b = 10) with
      | nil => rw [hd] at h; cases h
      | cons b unread =>
        rw [hd] at h
        simp only at h
        by_cases hm : s.pointer < s.memory.length
        · have e1 : s.memory[s.pointer]?.isSome = true := by
            rw [List.getElem?_eq_getElem hm]; rfl
          simp only [e1, if_true] at h
          cases h
        · have e1 : s.memory[s.pointer]? = none := List.getElem?_eq_none_iff.2 (by omega)
          simp only [e1, Option.isSome_none, Bool.false_eq_true, if_false,
            Except.error.injEq] at h
          exact Or.inr (Or.inl ⟨h.symm, by omega⟩)
    by_cases h7 : c = '['
    · subst h7
      simp only [h1, h2, h3, h4, h5, h6, if_true, if_false] at h
      cases hm : s.memory[s.pointer]? with
      | none =>
        rw [hm] at h
        simp only [Except.error.injEq] at h
        exact Or.inr (Or.inl ⟨h.symm, hmem hm⟩)
      | some v =>
        rw [hm] at h
        simp only at h
        by_cases hv : v = 0
        · simp only [hv, if_true] at h
          cases hj : s.loop_map[s.i.toNat]? with
          | none =>
            rw [hj] at h
            simp only [Except.error.injEq] at h
            exact Or.inr (Or.inr ⟨h.symm, List.getElem?_eq_none_iff.1 hj, Or.inl rfl⟩)
          | some t => rw [hj] at h; cases h
        · simp only [hv, if_false] at h; cases h
    by_cases h8 : c = ']'
    · subst h8
      simp only [h1, h2, h3, h4, h5, h6, h7, if_true, if_false] at h
      cases hm : s.memory[s.pointer]? with
      | none =>
        rw [hm] at h
        simp only [Except.error.injEq] at h
        exact Or.inr (Or.inl ⟨h.symm, hmem hm⟩)
      | some v =>
        rw [hm] at h
        simp only at h
        by_cases hv : v = 0
        · simp only [hv, ne_eq, not_true_eq_false, if_false] at h; cases h
        · simp only [hv, ne_eq, not_false_eq_true, if_true] at h
          cases hj : s.loop_map[s.i.toNat]? with
          | none =>
            rw [hj] at h
            simp only [Except.error.injEq] at h
            exact Or.inr (Or.inr ⟨h.symm, List.getElem?_eq_none_iff.1 hj, Or.inr rfl⟩)
          | some t => rw [hj] at h; cases h
    simp only [h1, h2, h3, h4, h5, h6, h7, h8, if_false] at h
    cases h

end TraeBFX

/-! ## Safety of the jump table under the size limit -/

namespace TraeBFX

theorem runBody_open_jump (program : List Char) (s : RunState) (t : Int)
    (hi : 0 ≤ s.i) (hc : program[s.i.toNat]? = some '[')
    (hv : s.memory[s.pointer]? = some 0) (ht : s.loop_map[s.i.toNat]? = some t) :
    runBody program s = .ok (.next { s with i := t }) := by
  have hneg : ¬ s.i < 0 := by omega
  have h1 : ¬ ('[' = '>') := by decide
  have h2 : ¬ ('[' = '<') := by decide
  have h3 : ¬ ('[' = '+') := by decide
  have h4 : ¬ ('[' = '-') := by decide
  have h5 : ¬ ('[' = '.') := by decide
  have h6 : ¬ ('[' = ',') := by decide
  unfold runBody
  simp only [List.get?_eq_getElem?, hneg, if_false, hc]
  simp only [h1, h2, h3, h4, h5, h6, if_false, if_true, hv, ht]

theorem runBody_close_jump (program : List Char) (s : RunState) (v : Nat) (t : Int)
    (hi : 0 ≤ s.i) (hc : program[s.i.toNat]? = some ']')
    (hv : s.memory[s.pointer]? = some v) (hz : v ≠ 0)
    (ht : s.loop_map[s.i.toNat]? = some t) :
    runBody program s = .ok (.next { s with i := t }) := by
  have hneg : ¬ s.i < 0 := by omega
  have h1 : ¬ (']' = '>') := by decide
  have h2 : ¬ (']' = '<') := by decide
  have h3 : ¬ (']' = '+') := by decide
  have h4 : ¬ (']' = '-') := by decide
  have h5 : ¬ (']' = '.') := by decide
  have h6 : ¬ (']' = ',') := by decide
  have h7 : ¬ (']' = '[') := by decide
  unfold runBody
  simp only [List.get?_eq_getElem?, hneg, if_false, hc]
  simp only [h1, h2, h3, h4, h5, h6, h7, if_false, if_true, hv, ht, ne_eq, hz,
    not_false_eq_true]

/-- A pass through the body that falls through to `i++`, made with a resolved
`loop_map`, leaves `loop_map` as it is, `i` at an index of the program, the pointer
inside the tape and the tape at its size. -/
theorem runBody_next_keeps (program : List Char) (lm : List Int)
    (hres : LoopMapResolved program lm) (s s1 : RunState)
    (hlm : s.loop_map = lm) (hp : s.pointer < MEMORY_SIZE)
    (hm : s.memory.length = MEMORY_SIZE)
    (h : runBody program s = .ok (.next s1)) :
    s1.loop_map = lm ∧ 0 ≤ s1.i ∧ s1.i < (program.length : Int) ∧
      s1.pointer < MEMORY_SIZE ∧ s1.memory.length = MEMORY_SIZE := by
  obtain ⟨hi, c, hc, hcases⟩ := runBody_next_inv program s s1 h
  have hlt : s.i.toNat < program.length := (List.getElem?_eq_some.1 hc).1
  have hilt : s.i < (program.length : Int) := by omega
  rcases hcases with
    ⟨_, hne, rfl⟩ | ⟨_, hne, rfl⟩ | ⟨_, v, _, rfl⟩ | ⟨_, v, _, rfl⟩ | ⟨_, v, _, rfl⟩ |
    ⟨_, ⟨_, rfl⟩ | ⟨b, unread, _, _, rfl⟩⟩ |
    ⟨hb, v, _, ⟨_, t, ht, rfl⟩ | ⟨_, rfl⟩⟩ | ⟨hb, v, _, ⟨_, t, ht, rfl⟩ | ⟨_, rfl⟩⟩ |
    ⟨_, _, _, _, _, _, _, _, rfl⟩
  · refine ⟨hlm, hi, hilt, ?_, hm⟩
    show s.pointer + 1 < MEMORY_SIZE
    omega
  · refine ⟨hlm, hi, hilt, ?_, hm⟩
    show s.pointer - 1 < MEMORY_SIZE
    omega
  · exact ⟨hlm, hi, hilt, hp, by simp only [List.length_set]; exact hm⟩
  · exact ⟨hlm, hi, hilt, hp, by simp only [List.length_set]; exact hm⟩
  · exact ⟨hlm, hi, hilt, hp, hm⟩
  · exact ⟨hlm, hi, hilt, hp, hm⟩
  · exact ⟨hlm, hi, hilt, hp, by simp only [List.length_set]; exact hm⟩
  · subst hb
    obtain ⟨b, h1, hmatch⟩ := hres.1 _ hc
    rw [hlm, h1] at ht
    have hb : b < program.length := (List.getElem?_eq_some.1 hmatch.2.1).1
    have ht2 : t = (b : Int) := (Option.some.inj ht).symm
    refine ⟨hlm, ?_, ?_, hp, hm⟩
    · show 0 ≤ t
      omega
    · show t < (program.length : Int)
      omega
  · exact ⟨hlm, hi, hilt, hp, hm⟩
  · subst hb
    obtain ⟨a, h1, hmatch⟩ := hres.2 _ hc
    rw [hlm, h1] at ht
    have ha : a < program.length := (List.getElem?_eq_some.1 hmatch.1).1
    have ht2 : t = (a : Int) := (Option.some.inj ht).symm
    refine ⟨hlm, ?_, ?_, hp, hm⟩
    · show 0 ≤ t
      omega
    · show t < (program.length : Int)
      omega
  · exact ⟨hlm, hi, hilt, hp, hm⟩
  · exact ⟨hlm, hi, hilt, hp, hm⟩

/-- With a resolved `loop_map`, a pass through the body at an index of the program
and with the pointer inside the tape does not fault. -/
theorem runBody_no_fault (program : List Char) (lm : List Int)
    (hres : LoopMapResolved program lm) (s : RunState)
    (hlm : s.loop_map = lm) (hi : 0 ≤ s.i) (hilt : s.i < (program.length : Int))
    (hp : s.pointer < MEMORY_SIZE) (hm : s.memory.length = MEMORY_SIZE) (e : Fault) :
    runBody program s ≠ .error e := by
  intro h
  rcases runBody_error_inv program s e h with ⟨_, h1 | h1⟩ | ⟨_, h1⟩ | ⟨_, h1, h2 | h2⟩
  · omega
  · omega
  · omega
  · obtain ⟨b, hb, _⟩ := hres.1 _ h2
    rw [← hlm] at hb
    have := (List.getElem?_eq_some.1 hb).1
    omega
  · obtain ⟨a, ha, _⟩ := hres.2 _ h2
    rw [← hlm] at ha
    have := (List.getElem?_eq_some.1 ha).1
    omega

/-- The second scan, run with a resolved `loop_map` from an index of the program (or
its end) with the pointer inside the tape, never faults. -/
theorem runLoop_no_fault (program : List Char) (lm : List Int)
    (hres : LoopMapResolved program lm) (fuel : Nat) :
    ∀ s : RunState, s.loop_map = lm → 0 ≤ s.i → s.i ≤ (program.length : Int) →
      s.pointer < MEMORY_SIZE → s.memory.length = MEMORY_SIZE →
      ∀ e, runLoop fuel program s ≠ some (.error e) := by
  induction fuel with
  | zero =>
    intro s _ _ _ _ _ e h
    unfold runLoop at h
    by_cases hlt : s.i < (program.length : Int)
    · rw [if_pos hlt] at h; cases h
    · rw [if_neg hlt] at h; cases h
  | succ n ih =>
    intro s hlm hi _ hp hm e h
    unfold runLoop at h
    by_cases hlt : s.i < (program.length : Int)
    · rw [if_pos hlt] at h
      cases hb : runBody program s with
      | error e2 => exact runBody_no_fault program lm hres s hlm hi hlt hp hm e2 hb
      | ok flow =>
        rw [hb] at h
        cases flow with
        | ret code s1 => cases h
        | next s1 =>
          simp only at h
          obtain ⟨g1, g2, g3, g4, g5⟩ := runBody_next_keeps program lm hres s s1 hlm hp hm hb
          exact ih { s1 with i := s1.i + 1 } g1
            (by show 0 ≤ s1.i + 1; omega) (by show s1.i + 1 ≤ (program.length : Int); omega)
            g4 g5 e h
    · rw [if_neg hlt] at h; cases h

/-- C30. Jump-table accesses of the bounds-checked `run` are safe under its size
limit. For every program of length at most `PROGRAM_SIZE` (10000): the first scan
completes without a write outside `loop_map`; the whole run never stops with a fault
(no access outside `loop_map`, the tape or the program); and when the second scan
runs (the first one reached the end with an empty stack), `loop_map` resolves the
brackets, so that in every state of the execution that holds this table the value
read at a `[` with a zero cell is the index of the matching `]`, the value read at a
`]` with a non-zero cell is the index of the matching `[` (an index of the program,
never the sentinel -1), and every pass of the body hands on the same table and an
index of the program. -/
theorem loop_map_accesses_in_range (program : List Char) (cin : List Nat)
    (hlen : program.length ≤ PROGRAM_SIZE) :
    ∃ reachedEnd stack lm,
      buildLoopMap program 0 [] (RunState.init cin).loop_map =
        .ok (reachedEnd, stack, lm) ∧
      (∀ fuel e, run fuel program cin ≠ some (.error e)) ∧
      (reachedEnd = true → stack = [] →
        lm.length = PROGRAM_SIZE ∧ LoopMapResolved program lm ∧
        ∀ s : RunState, s.loop_map = lm → 0 ≤ s.i →
          (∀ v, s.memory[s.pointer]? = some v →
            program[s.i.toNat]? = some '[' → v = 0 →
            ∃ b : Nat, Matches program s.i.toNat b ∧ b < program.length ∧
              runBody program s = .ok (.next { s with i := (b : Int) })) ∧
          (∀ v, s.memory[s.pointer]? = some v →
            program[s.i.toNat]? = some ']' → v ≠ 0 →
            ∃ a : Nat, Matches program a s.i.toNat ∧ a < program.length ∧
              runBody program s = .ok (.next { s with i := (a : Int) })) ∧
          (∀ s1, s.pointer < MEMORY_SIZE → s.memory.length = MEMORY_SIZE →
            runBody program s = .ok (.next s1) →
            s1.loop_map = lm ∧ 0 ≤ s1.i ∧ s1.i < (program.length : Int))) := by
  have hinitlen : (RunState.init cin).loop_map.length = PROGRAM_SIZE := by
    show (List.replicate PROGRAM_SIZE (-1 : Int)).length = PROGRAM_SIZE
    exact List.length_replicate _ _
  have hscan : ∃ reachedEnd stack lm,
      buildLoopMap program 0 [] (RunState.init cin).loop_map =
        .ok (reachedEnd, stack, lm) := by
    obtain ⟨hnone, hsome⟩ :=
      buildLoopMap_within program 0 [] (RunState.init cin).loop_map (by simp)
        (by rw [hinitlen]; omega)
    cases hd : bracketDepth ([] : List Nat).length program with
    | none =>
      obtain ⟨map2, h⟩ := hnone hd
      exact ⟨false, [], map2, h⟩
    | some e =>
      obtain ⟨s2, map2, h, _⟩ := hsome e hd
      exact ⟨true, s2, map2, h⟩
  obtain ⟨reachedEnd, stack, lm, hbuild⟩ := hscan
  have hpos : (0 : Nat) < MEMORY_SIZE := by decide
  have hresolved : reachedEnd = true → stack = [] →
      lm.length = PROGRAM_SIZE ∧ LoopMapResolved program lm := by
    intro h1 h2
    subst h1 h2
    obtain ⟨g1, g2⟩ := buildLoopMap_resolved program _ _ hbuild
    exact ⟨by rw [g1, hinitlen], g2⟩
  refine ⟨reachedEnd, stack, lm, hbuild, ?_, ?_⟩
  · intro fuel e h
    unfold run at h
    rw [hbuild] at h
    simp only at h
    by_cases hgo : (reachedEnd && stack.isEmpty) = true
    · rw [if_pos hgo] at h
      have h1 : reachedEnd = true := by
        cases reachedEnd with
        | true => rfl
        | false => simp at hgo
      have h2 : stack = [] := by
        cases stack with
        | nil => rfl
        | cons a r => simp at hgo
      exact runLoop_no_fault program lm (hresolved h1 h2).2 fuel
        { RunState.init cin with loop_map := lm } rfl (le_refl _)
        (Int.ofNat_nonneg _) hpos
        (List.length_replicate _ _) e h
    · rw [if_neg hgo] at h
      cases h
  · intro h1 h2
    obtain ⟨hl, hres⟩ := hresolved h1 h2
    refine ⟨hl, hres, ?_⟩
    intro s hlm hi
    refine ⟨?_, ?_, ?_⟩
    · intro v hv hc hz
      subst hz
      obtain ⟨b, hb, hmatch⟩ := hres.1 _ hc
      rw [← hlm] at hb
      exact ⟨b, hmatch, (List.getElem?_eq_some.1 hmatch.2.1).1,
        runBody_open_jump program s _ hi hc hv hb⟩
    · intro v hv hc hz
      obtain ⟨a, ha, hmatch⟩ := hres.2 _ hc
      rw [← hlm] at ha
      exact ⟨a, hmatch, (List.getElem?_eq_some.1 hmatch.1).1,
        runBody_close_jump program s v _ hi hc hv hz ha⟩
    · intro s1 hp hm hb
      obtain ⟨g1, g2, g3, _, _⟩ := runBody_next_keeps program lm hres s s1 hlm hp hm hb
      exact ⟨g1, g2, g3⟩

/-- C30 at a concrete program: on `+[-]` the first scan completes and leaves a table
that is used by the second scan. -/
theorem loop_map_accesses_in_range_witness :
    ∃ reachedEnd stack lm,
      buildLoopMap ['+', '[', '-', ']'] 0 [] (RunState.init []).loop_map =
        .ok (reachedEnd, stack, lm) :=
  (loop_map_accesses_in_range ['+', '[', '-', ']'] [] (by decide)).imp
    (fun _ h => h.imp (fun _ h2 => h2.imp (fun _ h3 => h3.1)))

end TraeBFX

/-! ## The program and its filtered code -/

theorem instructionsBefore_zero (program : List Char) : instructionsBefore program 0 = 0 := rfl

theorem instructionsBefore_succ (program : List Char) (k : Nat) (c : Char)
    (hc : program[k]? = some c) :
    instructionsBefore program (k + 1) =
      instructionsBefore program k + (if DevBFX.isInstruction c = true then 1 else 0) := by
  unfold instructionsBefore
  rw [List.take_succ, hc, List.filter_append, List.length_append]
  by_cases h : DevBFX.isInstruction c = true
  · simp [h]
  · simp [h]

theorem instructionsBefore_length (program : List Char) :
    instructionsBefore program program.length =
      (program.filter DevBFX.isInstruction).length := by
  unfold instructionsBefore
  rw [List.take_length]

theorem instructionsBefore_mono (program : List Char) (k j : Nat) (h : k ≤ j) :
    instructionsBefore program k ≤ instructionsBefore program j := by
  unfold instructionsBefore
  have : program.take k = (program.take j).take k := by
    rw [List.take_take, Nat.min_eq_left h]
  rw [this]
  exact ((List.take_sublist k _).filter _).length_le

theorem instructionsBefore_le (program : List Char) (k : Nat) :
    instructionsBefore program k ≤ k := by
  unfold instructionsBefore
  exact Nat.le_trans (List.length_filter_le _ _) (List.length_take_le _ _)

/-- The first `instructionsBefore program k` characters of the filtered code are the
filtered first `k` characters of the program. -/
theorem take_filter_instructionsBefore (program : List Char) (k : Nat) :
    (program.filter DevBFX.isInstruction).take (instructionsBefore program k) =
      (program.take k).filter DevBFX.isInstruction := by
  have h : program.filter DevBFX.isInstruction =
      (program.take k).filter DevBFX.isInstruction ++
        (program.drop k).filter DevBFX.isInstruction := by
    rw [← List.filter_append, List.take_append_drop]
  rw [h]
  exact List.take_left' rfl

/-- An instruction character of the program stands in the filtered code at the index
given by `instructionsBefore`. -/
theorem filter_getElem?_instructionsBefore (program : List Char) (k : Nat) (c : Char)
    (hc : program[k]? = some c) (hi : DevBFX.isInstruction c = true) :
    (program.filter DevBFX.isInstruction)[instructionsBefore program k]? = some c := by
  have hlt : k < program.length := (List.getElem?_eq_some.1 hc).1
  have hck : program[k] = c := by
    have := List.getElem?_eq_getElem hlt
    rw [hc] at this
    exact (Option.some.inj this).symm
  have h : program.filter DevBFX.isInstruction =
      (program.take k).filter DevBFX.isInstruction ++
        (c :: (program.drop (k + 1)).filter DevBFX.isInstruction) := by
    conv_lhs => rw [← List.take_append_drop k program]
    rw [List.filter_append, List.drop_eq_getElem_cons hlt, hck, List.filter_cons_of_pos hi]
  rw [h]
  unfold instructionsBefore
  rw [List.getElem?_append_right (Nat.le_refl _), Nat.sub_self]
  exact List.getElem?_cons_zero

/-- Every character of the filtered code is an instruction character of the program,
at an index that `instructionsBefore` maps to its index in the code. -/
theorem filter_getElem?_origin (program : List Char) :
    ∀ (j : Nat) (c : Char), (program.filter DevBFX.isInstruction)[j]? = some c →
      ∃ k, program[k]? = some c ∧ instructionsBefore program k = j := by
  induction program with
  | nil => intro j c h; simp at h
  | cons a r ih =>
    intro j c h
    by_cases ha : DevBFX.isInstruction a = true
    · rw [List.filter_cons_of_pos ha] at h
      cases j with
      | zero =>
        simp only [List.getElem?_cons_zero, Option.some.injEq] at h
        subst h
        exact ⟨0, List.getElem?_cons_zero, rfl⟩
      | succ j =>
        simp only [List.getElem?_cons_succ] at h
        obtain ⟨k, h1, h2⟩ := ih j c h
        refine ⟨k + 1, by simpa using h1, ?_⟩
        unfold instructionsBefore at h2 ⊢
        rw [List.take_succ_cons, List.filter_cons_of_pos ha, List.length_cons, h2]
    · rw [List.filter_cons_of_neg ha] at h
      obtain ⟨k, h1, h2⟩ := ih j c h
      refine ⟨k + 1, by simpa using h1, ?_⟩
      unfold instructionsBefore at h2 ⊢
      rw [List.take_succ_cons, List.filter_cons_of_neg ha, h2]

/-- Between two indices of the program, `instructionsBefore` takes every value
between its values at the two indices. -/
theorem instructionsBefore_between (program : List Char) (i : Nat) :
    ∀ j, i ≤ j → j ≤ program.length →
      ∀ t, instructionsBefore program i ≤ t → t ≤ instructionsBefore program j →
        ∃ k, i ≤ k ∧ k ≤ j ∧ instructionsBefore program k = t := by
  intro j hij
  induction j, hij using Nat.le_induction with
  | base =>
    intro _ t h1 h2
    exact ⟨i, Nat.le_refl _, Nat.le_refl _, by omega⟩
  | succ j hij ih =>
    intro hj t h1 h2
    have hlt : j < program.length := by omega
    have hstep := instructionsBefore_succ program j _ (List.getElem?_eq_getElem hlt)
    by_cases hle : t ≤ instructionsBefore program j
    · obtain ⟨k, g1, g2, g3⟩ := ih (by omega) t h1 hle
      exact ⟨k, g1, by omega, g3⟩
    · refine ⟨j + 1, by omega, Nat.le_refl _, ?_⟩
      rw [hstep] at h2 ⊢
      split at h2 <;> rename_i hp
      · rw [if_pos hp]; omega
      · omega

theorem depthBefore_filter (program : List Char) (k : Nat) :
    depthBefore (program.filter DevBFX.isInstruction) (instructionsBefore program k) =
      depthBefore program k := by
  unfold depthBefore
  rw [take_filter_instructionsBefore]
  unfold opens closes
  rw [List.count_filter (by decide), List.count_filter (by decide)]

/-- Brackets that match in the program match in the filtered code, at the indices
given by `instructionsBefore`. -/
theorem Matches.filter (program : List Char) (i j : Nat) (h : Matches program i j) :
    Matches (program.filter DevBFX.isInstruction)
      (instructionsBefore program i) (instructionsBefore program j) := by
  obtain ⟨h1, h2, h3, h4, h5⟩ := h
  have hj : j < program.length := (List.getElem?_eq_some.1 h2).1
  have hsi := instructionsBefore_succ program i _ h1
  have hsj := instructionsBefore_succ program j _ h2
  rw [if_pos (by decide)] at hsi hsj
  have hmono := instructionsBefore_mono program (i + 1) j (by omega)
  refine ⟨filter_getElem?_instructionsBefore program i _ h1 (by decide),
    filter_getElem?_instructionsBefore program j _ h2 (by decide), by omega, ?_, ?_⟩
  · rw [← hsj, depthBefore_filter, depthBefore_filter]
    exact h4
  · intro t ht1 ht2
    obtain ⟨k, g1, g2, g3⟩ :=
      instructionsBefore_between program i j (by omega) (by omega) t (by omega) ht2
    have hik : i < k := by
      rcases Nat.lt_or_ge i k with hlt | hge
      · exact hlt
      · have : k = i := by omega
        subst this
        omega
    rw [← g3, depthBefore_filter, depthBefore_filter]
    exact h5 k hik g2

theorem labelled_append (a b : List Nat) : labelled (a ++ b) = labelled a ++ labelled b := by
  unfold labelled
  exact List.flatMap_append _ _ _

theorem labelled_singleton (v : Nat) :
    labelled [v] = DevBFX.outputLabel ++ [v] ++ [10] := by
  simp [labelled]

/-! ## The wrap-around machine follows the bounds-checked machine -/

/-- One pass of the body of the bounds-checked machine over a program without `,` is
followed by the wrap-around machine: by no step at all when the character is not an
instruction (the filtered code does not hold it), by one instruction otherwise. -/
theorem simulates_step (program : List Char) (m : DevBFX.BrainfuckCompiler)
    (s s1 : TraeBFX.RunState) (hcomma : ∀ ch, ch ∈ program → ch ≠ ',')
    (hsim : Simulates program m s) (hb : TraeBFX.runBody program s = .ok (.next s1)) :
    Simulates program m { s1 with i := s1.i + 1 } ∨
      (m.instruction_pointer < m.code.length ∧
        ∃ m1, DevBFX.executeInstruction m = .ok m1 ∧
          Simulates program { m1 with instruction_pointer := m1.instruction_pointer + 1 }
            { s1 with i := s1.i + 1 }) := by
  obtain ⟨hcode, hi0, hile, hip, hmem, hdp, hout, hres, hlm, hp, hm⟩ := hsim
  obtain ⟨_, c, hc, hcases⟩ := TraeBFX.runBody_next_inv program s s1 hb
  have hk : s.i.toNat < program.length := (List.getElem?_eq_some.1 hc).1
  have hnat : (s.i + 1).toNat = s.i.toNat + 1 := by omega
  have hi1 : 0 ≤ s.i + 1 := by omega
  have hi2 : s.i + 1 ≤ (program.length : Int) := by omega
  have hstep := instructionsBefore_succ program s.i.toNat c hc
  have hfetch : DevBFX.isInstruction c = true →
      m.code[m.instruction_pointer]? = some c := by
    intro h
    rw [hcode, hip]
    exact filter_getElem?_instructionsBefore program _ c hc h
  have hnext : DevBFX.isInstruction c = true →
      m.instruction_pointer + 1 = instructionsBefore program (s.i + 1).toNat := by
    intro h
    rw [hnat, hstep, if_pos h, hip]
  have hcell : ∀ v, s.memory[s.pointer]? = some v →
      m.memory[m.data_pointer]? = some v := by
    intro v hv
    rw [hmem, hdp]; exact hv
  have hp30 : s.pointer < 30000 := hp
  rcases hcases with
    ⟨rfl, hne, rfl⟩ | ⟨rfl, hne, rfl⟩ | ⟨rfl, v, hv, rfl⟩ | ⟨rfl, v, hv, rfl⟩ |
    ⟨rfl, v, hv, rfl⟩ | ⟨rfl, _⟩ |
    ⟨rfl, v, hv, ⟨hz, t, ht, rfl⟩ | ⟨hz, rfl⟩⟩ |
    ⟨rfl, v, hv, ⟨hz, t, ht, rfl⟩ | ⟨hz, rfl⟩⟩ |
    ⟨n1, n2, n3, n4, n5, n6, n7, n8, hs1⟩
  · have hf := hfetch (by decide)
    refine Or.inr ⟨(List.getElem?_eq_some.1 hf).1, _, DevBFX.executeInstruction_right m hf, ?_⟩
    have hne30 : s.pointer ≠ 30000 - 1 := hne
    refine ⟨hcode, hi1, hi2, hnext (by decide), hmem, ?_, hout, hres, hlm, ?_, hm⟩
    · show (m.data_pointer + 1) % 30000 = s.pointer + 1
      rw [hdp]; omega
    · show s.pointer + 1 < 30000
      omega
  · have hf := hfetch (by decide)
    refine Or.inr ⟨(List.getElem?_eq_some.1 hf).1, _, DevBFX.executeInstruction_left m hf, ?_⟩
    refine ⟨hcode, hi1, hi2, hnext (by decide), hmem, ?_, hout, hres, hlm, ?_, hm⟩
    · show (if m.data_pointer = 0 then 30000 - 1 else m.data_pointer - 1) = s.pointer - 1
      rw [hdp, if_neg hne]
    · show s.pointer - 1 < 30000
      omega
  · have hf := hfetch (by decide)
    refine Or.inr ⟨(List.getElem?_eq_some.1 hf).1, _,
      DevBFX.executeInstruction_plus m v hf (hcell v hv), ?_⟩
    refine ⟨hcode, hi1, hi2, hnext (by decide), ?_, hdp, hout, hres, hlm, hp, ?_⟩
    · show m.memory.set m.data_pointer ((v + 1) % 256) = s.memory.set s.pointer ((v + 1) % 256)
      rw [hmem, hdp]
    · show (s.memory.set s.pointer ((v + 1) % 256)).length = TraeBFX.MEMORY_SIZE
      rw [List.length_set]; exact hm
  · have hf := hfetch (by decide)
    refine Or.inr ⟨(List.getElem?_eq_some.1 hf).1, _,
      DevBFX.executeInstruction_minus m v hf (hcell v hv), ?_⟩
    refine ⟨hcode, hi1, hi2, hnext (by decide), ?_, hdp, hout, hres, hlm, hp, ?_⟩
    · show m.memory.set m.data_pointer ((v + 255) % 256) =
        s.memory.set s.pointer ((v + 255) % 256)
      rw [hmem, hdp]
    · show (s.memory.set s.pointer ((v + 255) % 256)).length = TraeBFX.MEMORY_SIZE
      rw [List.length_set]; exact hm
  · have hf := hfetch (by decide)
    refine Or.inr ⟨(List.getElem?_eq_some.1 hf).1, _,
      DevBFX.executeInstruction_dot m v hf (hcell v hv), ?_⟩
    refine ⟨hcode, hi1, hi2, hnext (by decide), hmem, hdp, ?_, hres, hlm, hp, hm⟩
    show m.cout ++ (DevBFX.outputLabel ++ [v] ++ [10]) = labelled (s.cout ++ [v])
    rw [labelled_append, labelled_singleton, hout]
  · exact absurd rfl (hcomma ',' (List.mem_iff_getElem?.2 ⟨_, hc⟩))
  · subst hz
    have hf := hfetch (by decide)
    obtain ⟨b, hb1, hmatch⟩ := hlm.1 _ hc
    rw [hb1] at ht
    have htb : t = (b : Int) := (Option.some.inj ht).symm
    subst htb
    obtain ⟨b2, hjf, _, hmatch2⟩ := hres.1 _ hf
    have htr := Matches.filter program _ _ hmatch
    rw [← hcode, ← hip] at htr
    have hb2 : b2 = instructionsBefore program b := Matches.close_unique hmatch2 htr
    have hblt : b < program.length := (List.getElem?_eq_some.1 hmatch.2.1).1
    have hsb := instructionsBefore_succ program b _ hmatch.2.1
    rw [if_pos (by decide)] at hsb
    refine Or.inr ⟨(List.getElem?_eq_some.1 hf).1, _,
      DevBFX.executeInstruction_open_jump m b2 hf (hcell 0 hv) hjf, ?_⟩
    refine ⟨hcode, ?_, ?_, ?_, hmem, hdp, hout, hres, hlm, hp, hm⟩
    · show (0 : Int) ≤ (b : Int) + 1
      omega
    · show (b : Int) + 1 ≤ (program.length : Int)
      omega
    · show b2 + 1 = instructionsBefore program ((b : Int) + 1).toNat
      have : ((b : Int) + 1).toNat = b + 1 := by omega
      rw [this, hsb, hb2]
  · have hf := hfetch (by decide)
    refine Or.inr ⟨(List.getElem?_eq_some.1 hf).1, _,
      DevBFX.executeInstruction_open_enter m v hf (hcell v hv) hz, ?_⟩
    exact ⟨hcode, hi1, hi2, hnext (by decide), hmem, hdp, hout, hres, hlm, hp, hm⟩
  · have hf := hfetch (by decide)
    obtain ⟨a, ha1, hmatch⟩ := hlm.2 _ hc
    rw [ha1] at ht
    have hta : t = (a : Int) := (Option.some.inj ht).symm
    subst hta
    obtain ⟨a2, hjb, _, hmatch2⟩ := hres.2 _ hf
    have htr := Matches.filter program _ _ hmatch
    rw [← hcode, ← hip] at htr
    have ha2 : a2 = instructionsBefore program a := Matches.open_unique hmatch2 htr
    have halt : a < program.length := (List.getElem?_eq_some.1 hmatch.1).1
    have hsa := instructionsBefore_succ program a _ hmatch.1
    rw [if_pos (by decide)] at hsa
    refine Or.inr ⟨(List.getElem?_eq_some.1 hf).1, _,
      DevBFX.executeInstruction_close_jump m v a2 hf (hcell v hv) hz hjb, ?_⟩
    refine ⟨hcode, ?_, ?_, ?_, hmem, hdp, hout, hres, hlm, hp, hm⟩
    · show (0 : Int) ≤ (a : Int) + 1
      omega
    · show (a : Int) + 1 ≤ (program.length : Int)
      omega
    · show a2 + 1 = instructionsBefore program ((a : Int) + 1).toNat
      have : ((a : Int) + 1).toNat = a + 1 := by omega
      rw [this, hsa, ha2]
  · subst hz
    have hf := hfetch (by decide)
    refine Or.inr ⟨(List.getElem?_eq_some.1 hf).1, _,
      DevBFX.executeInstruction_close_leave m hf (hcell 0 hv), ?_⟩
    exact ⟨hcode, hi1, hi2, hnext (by decide), hmem, hdp, hout, hres, hlm, hp, hm⟩
  · have hnot : ¬ DevBFX.isInstruction c = true := by
      rw [DevBFX.isInstruction_iff]
      simp [alphabet, n1, n2, n3, n4, n5, n6, n7, n8]
    rw [hs1]
    refine Or.inl ⟨hcode, hi1, hi2, ?_, hmem, hdp, hout, hres, hlm, hp, hm⟩
    show m.instruction_pointer = instructionsBefore program (s.i + 1).toNat
    rw [hnat, hstep, if_neg hnot, hip]
    rfl

/-- Where the bounds-checked machine has finished, so has the wrap-around machine. -/
theorem simulates_at_end (program : List Char) (m : DevBFX.BrainfuckCompiler)
    (s : TraeBFX.RunState) (hsim : Simulates program m s)
    (hend : ¬ s.i < (program.length : Int)) :
    ¬ m.instruction_pointer < m.code.length := by
  obtain ⟨hcode, hi0, hile, hip, _⟩ := hsim
  have : s.i.toNat = program.length := by omega
  rw [hip, this, instructionsBefore_length, hcode]
  omega

/-- Every run of the second scan of the bounds-checked machine that returns 0, on a
program without `,`, is followed by the loop of `interpret` of the wrap-around
machine with the same fuel, to the same tape and pointer and the labelled output. -/
theorem runLoop_simulated (program : List Char) (hcomma : ∀ ch, ch ∈ program → ch ≠ ',')
    (fuel : Nat) :
    ∀ (m : DevBFX.BrainfuckCompiler) (s final : TraeBFX.RunState),
      Simulates program m s →
      TraeBFX.runLoop fuel program s = some (.ok (0, final)) →
      ∃ done, DevBFX.interpretLoop fuel m = some (.ok done) ∧
        done.memory = final.memory ∧ done.data_pointer = final.pointer ∧
        done.cout = labelled final.cout := by
  induction fuel with
  | zero =>
    intro m s final hsim h
    unfold TraeBFX.runLoop at h
    by_cases hlt : s.i < (program.length : Int)
    · rw [if_pos hlt] at h; cases h
    · rw [if_neg hlt] at h
      simp only [Option.some.injEq, Except.ok.injEq, Prod.mk.injEq, true_and] at h
      subst h
      refine ⟨m, ?_, hsim.2.2.2.2.1, hsim.2.2.2.2.2.1, hsim.2.2.2.2.2.2.1⟩
      unfold DevBFX.interpretLoop
      rw [if_neg (simulates_at_end program m s hsim hlt)]
  | succ n ih =>
    intro m s final hsim h
    unfold TraeBFX.runLoop at h
    by_cases hlt : s.i < (program.length : Int)
    · rw [if_pos hlt] at h
      cases hb : TraeBFX.runBody program s with
      | error e => rw [hb] at h; cases h
      | ok flow =>
        rw [hb] at h
        cases flow with
        | ret code s1 =>
          simp only [Option.some.injEq, Except.ok.injEq, Prod.mk.injEq] at h
          have := TraeBFX.runBody_ret program s s1 code hb
          omega
        | next s1 =>
          simp only at h
          rcases simulates_step program m s s1 hcomma hsim hb with hst | ⟨hip, m1, he, hst⟩
          · obtain ⟨done, hd, g⟩ := ih m _ final hst h
            exact ⟨done, DevBFX.interpretLoop_mono n 1 m _ hd, g⟩
          · obtain ⟨done, hd, g⟩ := ih _ _ final hst h
            refine ⟨done, ?_, g⟩
            unfold DevBFX.interpretLoop
            rw [if_pos hip, he]
            exact hd
    · rw [if_neg hlt] at h
      simp only [Option.some.injEq, Except.ok.injEq, Prod.mk.injEq, true_and] at h
      subst h
      refine ⟨m, ?_, hsim.2.2.2.2.1, hsim.2.2.2.2.2.1, hsim.2.2.2.2.2.2.1⟩
      unfold DevBFX.interpretLoop
      rw [if_neg (simulates_at_end program m s hsim hlt)]

/-! ## Agreement of the two machines -/

namespace DevBFX

/-- The scan of `precomputeJumps` completes whenever the depth scan does and every
bracket lies inside the jump table it is written to. -/
theorem precomputeJumpsLoop_ok_of_depth (rest : List Char) :
    ∀ (i : Nat) (stack jf jb : List Nat) (e : Nat),
      bracketDepth stack.length rest = some e →
      (∀ s, s ∈ stack → s < jf.length) →
      (∀ k, (rest[k]? = some '[' → i + k < jf.length) ∧
        (rest[k]? = some ']' → i + k < jb.length)) →
      ∃ s2 jf2 jb2, precomputeJumpsLoop rest i stack jf jb = .ok (s2, jf2, jb2) ∧
        s2.length = e := by
  induction rest with
  | nil =>
    intro i stack jf jb e hd _ _
    simp only [bracketDepth, Option.some.injEq] at hd
    exact ⟨stack, jf, jb, rfl, hd⟩
  | cons c r ih =>
    intro i stack jf jb e hd hst hb
    have h0 := hb 0
    simp only [List.getElem?_cons_zero, Option.some.injEq, Nat.add_zero] at h0
    have hshift : ∀ (jf2 jb2 : List Nat), jf2.length = jf.length → jb2.length = jb.length →
        ∀ k, (r[k]? = some '[' → i + 1 + k < jf2.length) ∧
          (r[k]? = some ']' → i + 1 + k < jb2.length) := by
      intro jf2 jb2 h1 h2 k
      have := hb (k + 1)
      simp only [List.getElem?_cons_succ] at this
      rw [h1, h2]
      exact ⟨fun h => by have := this.1 h; omega, fun h => by have := this.2 h; omega⟩
    by_cases hc1 : c = '['
    · subst hc1
      simp only [bracketDepth, if_true] at hd
      simp only [precomputeJumpsLoop, if_true]
      refine ih (i + 1) (i :: stack) jf jb e hd ?_ (hshift jf jb rfl rfl)
      intro s hs
      rcases List.mem_cons.1 hs with h | h
      · rw [h]; exact h0.1 rfl
      · exact hst s h
    · by_cases hc2 : c = ']'
      · subst hc2
        simp only [bracketDepth, hc1, if_false, if_true] at hd
        simp only [precomputeJumpsLoop, hc1, if_false, if_true]
        cases stack with
        | nil => simp at hd
        | cons start popped =>
          simp only [List.length_cons] at hd
          have hr1 : inRange jf start = true :=
            (inRange_iff _ _).2 (hst start (List.mem_cons_self _ _))
          have hr2 : inRange jb i = true := (inRange_iff _ _).2 (h0.2 rfl)
          simp only [hr1, hr2, if_true]
          refine ih (i + 1) popped (jf.set start i) (jb.set i start) e hd ?_
            (hshift _ _ (List.length_set _ _ _) (List.length_set _ _ _))
          intro s hs
          rw [List.length_set]
          exact hst s (List.mem_cons_of_mem _ hs)
      · simp only [bracketDepth, hc1, hc2, if_false] at hd
        simp only [precomputeJumpsLoop, hc1, hc2, if_false]
        exact ih (i + 1) stack jf jb e hd hst (hshift jf jb rfl rfl)

/-- On a freshly constructed machine, `loadCode` succeeds for every program whose
brackets are balanced and lie below index `MEMORY_SIZE` of the filtered code; the
tables it leaves resolve the brackets. -/
theorem loadCode_new_ok (program : List Char) (cin : List Nat)
    (hdepth : bracketDepth 0 program = some 0)
    (hbound : ∀ k, (loadCodeFilter program)[k]? = some '[' ∨
      (loadCodeFilter program)[k]? = some ']' → k < MEMORY_SIZE) :
    ∃ jf2 jb2,
      loadCode (BrainfuckCompiler.new cin) program =
        .ok { BrainfuckCompiler.new cin with
                code := loadCodeFilter program
                jump_forward := jf2
                jump_backward := jb2 } ∧
      Resolved (loadCodeFilter program) jf2 jb2 := by
  have hlen : (List.replicate MEMORY_SIZE 0 : List Nat).length = MEMORY_SIZE :=
    List.length_replicate _ _
  have hd : bracketDepth ([] : List Nat).length (loadCodeFilter program) = some 0 := by
    rw [loadCodeFilter_eq_filter, bracketDepth_filter]
    exact hdepth
  obtain ⟨s2, jf2, jb2, hrun, hs2⟩ :=
    precomputeJumpsLoop_ok_of_depth (loadCodeFilter program) 0 []
      (List.replicate MEMORY_SIZE 0) (List.replicate MEMORY_SIZE 0) 0 hd (by simp)
      (by
        intro k
        rw [hlen, Nat.zero_add]
        exact ⟨fun h => hbound k (Or.inl h), fun h => hbound k (Or.inr h)⟩)
  have hnil : s2 = [] := List.length_eq_zero.1 hs2
  subst hnil
  refine ⟨jf2, jb2, ?_, precomputeJumpsLoop_resolved _ _ _ _ _ hrun⟩
  have hrun2 : precomputeJumpsLoop
      ({ BrainfuckCompiler.new cin with code := loadCodeFilter program } :
        BrainfuckCompiler).code 0 []
      ({ BrainfuckCompiler.new cin with code := loadCodeFilter program } :
        BrainfuckCompiler).jump_forward
      ({ BrainfuckCompiler.new cin with code := loadCodeFilter program } :
        BrainfuckCompiler).jump_backward = .ok ([], jf2, jb2) := hrun
  unfold loadCode precomputeJumps
  rw [hrun2]
  rfl

end DevBFX

/-- The output of the two machines on the program `.`: the bounds-checked machine
writes the byte 0, the wrap-around machine writes the label, the byte 0 and a line
feed. -/
theorem dot_observed :
    TraeBFX.observed (TraeBFX.run 1 ['.'] []) = some (some (0, [0])) ∧
      DevBFX.observed (DevBFX.run 1 ['.'] []) =
        some (some (0, DevBFX.outputLabel ++ [0, 10])) := by
  constructor
  · rfl
  · rfl

/-- C29, as stated, fails: on the program `.` (no `,`, the bounds-checked `run`
returns 0) the two machines do not produce the same sequence of output bytes: one
byte against 32. -/
theorem dot_output_differs :
    TraeBFX.observed (TraeBFX.run 1 ['.'] []) = some (some (0, [0])) ∧
      DevBFX.observed (DevBFX.run 1 ['.'] []) =
        some (some (0, DevBFX.outputLabel ++ [0, 10])) ∧
      DevBFX.outputLabel ++ [0, 10] ≠ [0] := by
  refine ⟨dot_observed.1, dot_observed.2, by decide⟩

/-- C29, amended. For every program that contains no `,` and on which the
bounds-checked `run` of `Trae-BFX.1.0.cpp` terminates with 0, the wrap-around
interpreter of `Dev-BFX.cpp` (`run`: `loadCode` then `interpret`) also terminates,
within the same number of steps and with the value 0, leaving the same tape and the
same data pointer; its output holds the same bytes in the same order, each one
preceded by the label of `.` and followed by a line feed. -/
theorem run_follows_bounds_checked (program : List Char) (cin : List Nat) (fuel : Nat)
    (final : TraeBFX.RunState) (hcomma : ∀ ch, ch ∈ program → ch ≠ ',')
    (h : TraeBFX.run fuel program cin = some (.ok (0, final))) :
    ∃ done, DevBFX.run fuel program cin = some (.ok (0, done)) ∧
      done.memory = final.memory ∧ done.data_pointer = final.pointer ∧
      done.cout = labelled final.cout := by
  unfold TraeBFX.run at h
  cases hbuild : TraeBFX.buildLoopMap program 0 [] (TraeBFX.RunState.init cin).loop_map with
  | error e => rw [hbuild] at h; cases h
  | ok r =>
    obtain ⟨reachedEnd, stack, lm⟩ := r
    rw [hbuild] at h
    simp only at h
    by_cases hgo : (reachedEnd && stack.isEmpty) = true
    · rw [if_pos hgo] at h
      have h1 : reachedEnd = true := by
        cases reachedEnd with
        | true => rfl
        | false => simp at hgo
      have h2 : stack = [] := by
        cases stack with
        | nil => rfl
        | cons a r => simp at hgo
      subst h1 h2
      obtain ⟨hl, hres⟩ := TraeBFX.buildLoopMap_resolved program _ _ hbuild
      have hinitlen : (TraeBFX.RunState.init cin).loop_map.length = TraeBFX.PROGRAM_SIZE :=
        List.length_replicate _ _
      obtain ⟨_, jf0, jb0, hdev, _⟩ :=
        TraeBFX.buildLoopMap_lockstep program program [] 0 []
          (TraeBFX.RunState.init cin).loop_map
          (List.replicate (TraeBFX.RunState.init cin).loop_map.length 0)
          (List.replicate (TraeBFX.RunState.init cin).loop_map.length 0) (by simp) rfl
          (by simp) ⟨by simp, by simp, by intro k hk; omega⟩ _ _ hbuild
      have hdepth : bracketDepth 0 program = some 0 :=
        DevBFX.precomputeJumpsLoop_depth _ _ _ _ _ _ _ _ hdev
      have hbound : ∀ k, (DevBFX.loadCodeFilter program)[k]? = some '[' ∨
          (DevBFX.loadCodeFilter program)[k]? = some ']' → k < DevBFX.MEMORY_SIZE := by
        intro k hk
        rw [DevBFX.loadCodeFilter_eq_filter] at hk
        have hsmall : k < TraeBFX.PROGRAM_SIZE := by
          rcases hk with hk | hk
          · obtain ⟨k0, g1, g2⟩ := filter_getElem?_origin program k _ hk
            obtain ⟨b, hb, _⟩ := hres.1 k0 g1
            have := (List.getElem?_eq_some.1 hb).1
            have := instructionsBefore_le program k0
            omega
          · obtain ⟨k0, g1, g2⟩ := filter_getElem?_origin program k _ hk
            obtain ⟨a, ha, _⟩ := hres.2 k0 g1
            have := (List.getElem?_eq_some.1 ha).1
            have := instructionsBefore_le program k0
            omega
        have h3 : TraeBFX.PROGRAM_SIZE ≤ DevBFX.MEMORY_SIZE := by decide
        omega
      obtain ⟨jf2, jb2, hload, hresolved⟩ := DevBFX.loadCode_new_ok program cin hdepth hbound
      have hpos : (0 : Nat) < TraeBFX.MEMORY_SIZE := by decide
      have hsim : Simulates program
          { DevBFX.BrainfuckCompiler.new cin with
              code := DevBFX.loadCodeFilter program
              jump_forward := jf2
              jump_backward := jb2
              data_pointer := 0
              instruction_pointer := 0
              memory := (DevBFX.BrainfuckCompiler.new cin).memory.map (fun _ => 0) }
          { TraeBFX.RunState.init cin with loop_map := lm } := by
        refine ⟨DevBFX.loadCodeFilter_eq_filter program, le_refl _, Int.ofNat_nonneg _, rfl,
          ?_, rfl, rfl, hresolved, hres, hpos, List.length_replicate _ _⟩
        show List.map (fun _ => 0) (List.replicate DevBFX.MEMORY_SIZE 0) =
          List.replicate TraeBFX.MEMORY_SIZE 0
        rw [List.map_replicate]
        rfl
      obtain ⟨done, hd, g1, g2, g3⟩ :=
        runLoop_simulated program hcomma fuel _ _ final hsim h
      refine ⟨done, ?_, g1, g2, g3⟩
      unfold DevBFX.run
      rw [hload]
      simp only
      unfold DevBFX.interpret
      rw [hd]
    · rw [if_neg hgo] at h
      simp only [Option.some.injEq, Except.ok.injEq, Prod.mk.injEq] at h
      omega

/-- C29 (amended) at a concrete program: `+.`, on which the bounds-checked `run`
returns 0 after two passes, with 1 in cell 0 and the byte 1 written. -/
theorem run_follows_bounds_checked_witness :
    ∃ done, DevBFX.run 2 ['+', '.'] [] = some (.ok (0, done)) ∧
      done.memory = (List.replicate 30000 0).set 0 1 ∧ done.data_pointer = 0 ∧
      done.cout = labelled [1] :=
  run_follows_bounds_checked ['+', '.'] [] 2
    { memory := (List.replicate 30000 0).set 0 1
      pointer := 0
      loop_map := List.replicate 10000 (-1)
      i := 2
      cin := []
      cout := [1] }
    (by decide) rfl

/-! ## What `loadCode` changes -/

namespace DevBFX

/-- The scan of `precomputeJumps` keeps the length of both tables and writes into
`jump_forward` only at indices of `[` and into `jump_backward` only at indices of
`]`: every other entry stays as it was. -/
theorem precomputeJumpsLoop_frame (code rest : List Char) :
    ∀ (pre : List Char) (i : Nat) (stack jf jb : List Nat),
      code = pre ++ rest → pre.length = i →
      (∀ s, s ∈ stack → code[s]? = some '[') →
      ∀ s2 jf2 jb2, precomputeJumpsLoop rest i stack jf jb = .ok (s2, jf2, jb2) →
        jf2.length = jf.length ∧ jb2.length = jb.length ∧
        (∀ a : Nat, code[a]? ≠ some '[' → jf2[a]? = jf[a]?) ∧
        (∀ b : Nat, code[b]? ≠ some ']' → jb2[b]? = jb[b]?) := by
  induction rest with
  | nil =>
    intro pre i stack jf jb _ _ _ s2 jf2 jb2 hrun
    simp only [precomputeJumpsLoop, Except.ok.injEq, Prod.mk.injEq] at hrun
    obtain ⟨_, h2, h3⟩ := hrun
    subst h2 h3
    exact ⟨rfl, rfl, fun _ _ => rfl, fun _ _ => rfl⟩
  | cons c r ih =>
    intro pre i stack jf jb hcode hlen hst s2 jf2 jb2 hrun
    have hci : code[i]? = some c := by
      rw [hcode, List.getElem?_append_right (by omega)]
      simp [hlen]
    have hcode' : code = (pre ++ [c]) ++ r := by rw [hcode]; simp
    have hlen' : (pre ++ [c]).length = i + 1 := by simp [hlen]
    by_cases hc1 : c = '['
    · subst hc1
      simp only [precomputeJumpsLoop, if_true] at hrun
      refine ih _ _ _ _ _ hcode' hlen' ?_ _ _ _ hrun
      intro s hs
      rcases List.mem_cons.1 hs with h | h
      · rw [h]; exact hci
      · exact hst s h
    · by_cases hc2 : c = ']'
      · subst hc2
        simp only [precomputeJumpsLoop, hc1, if_false, if_true] at hrun
        cases stack with
        | nil => simp at hrun
        | cons start popped =>
          simp only at hrun
          by_cases hr1 : inRange jf start = true
          · by_cases hr2 : inRange jb i = true
            · simp only [hr1, hr2, if_true] at hrun
              obtain ⟨g1, g2, g3, g4⟩ := ih _ _ _ _ _ hcode' hlen'
                (fun s hs => hst s (List.mem_cons_of_mem _ hs)) _ _ _ hrun
              have hstart := hst start (List.mem_cons_self _ _)
              refine ⟨by rw [g1, List.length_set], by rw [g2, List.length_set], ?_, ?_⟩
              · intro a ha
                rw [g3 a ha]
                exact List.getElem?_set_ne (fun e => ha (by rw [← e]; exact hstart))
              · intro b hb
                rw [g4 b hb]
                exact List.getElem?_set_ne (fun e => hb (by rw [← e]; exact hci))
            · simp [hr1, hr2] at hrun
          · simp [hr1] at hrun
      · simp only [precomputeJumpsLoop, hc1, hc2, if_false] at hrun
        exact ih _ _ _ _ _ hcode' hlen' hst _ _ _ hrun

/-- Whenever `precomputeJumps` succeeds, both tables keep their length, and every entry
that does not belong to a bracket of the code is the entry that was there before. -/
theorem precomputeJumps_frame (m done : BrainfuckCompiler)
    (h : precomputeJumps m = .ok done) :
    done.jump_forward.length = m.jump_forward.length ∧
      done.jump_backward.length = m.jump_backward.length ∧
      (∀ a : Nat, m.code[a]? ≠ some '[' → done.jump_forward[a]? = m.jump_forward[a]?) ∧
      (∀ b : Nat, m.code[b]? ≠ some ']' → done.jump_backward[b]? = m.jump_backward[b]?) := by
  unfold precomputeJumps at h
  split at h
  · cases h
  · rename_i s2 jf2 jb2 hrun
    split at h
    · simp only [Except.ok.injEq] at h
      subst h
      exact precomputeJumpsLoop_frame m.code m.code [] 0 [] m.jump_forward m.jump_backward
        (by simp) rfl (by simp) _ _ _ hrun
    · cases h

/-- The jump tables that are left when the freshly constructed machine loads `[[]][]`
and then `+`: the entries of the first program are still there. -/
theorem loadCode_leaves_stale_entries :
    ((loadCode (BrainfuckCompiler.new []) "[[]][]".toList).bind
        (fun first => loadCode first ['+'])).map
        (fun second => (second.code, second.jump_forward.take 6,
          second.jump_backward.take 6)) =
      .ok (['+'], [3, 2, 0, 0, 5, 0], [0, 0, 1, 0, 0, 4]) := rfl

/-- C14, as amended. For every machine state and every program text on which
`loadCode` returns: the code becomes the instruction characters of the text; the
tape, the data pointer, the instruction pointer and both streams stay as they were;
the jump tables keep their length, hold at every bracket of the new code the index
of its matching bracket, and keep every other entry as it was, so that entries of a
previously loaded program stay behind (after `[[]][]` and then `+`, `jump_forward`
still starts 3, 2, 0, 0, 5, 0). On a freshly constructed machine the pointers are 0
and the tape is zeroed; on any machine, `interpret` starts by resetting both
pointers to 0 and zeroing every cell. -/
theorem loadCode_effect (m done : BrainfuckCompiler) (text : List Char)
    (h : loadCode m text = .ok done) :
    done.code = text.filter (fun c => c ∈ alphabet) ∧
    done.memory = m.memory ∧ done.data_pointer = m.data_pointer ∧
    done.instruction_pointer = m.instruction_pointer ∧
    done.cin = m.cin ∧ done.cout = m.cout ∧
    done.jump_forward.length = m.jump_forward.length ∧
    done.jump_backward.length = m.jump_backward.length ∧
    Resolved done.code done.jump_forward done.jump_backward ∧
    (∀ i : Nat, done.code[i]? ≠ some '[' → done.jump_forward[i]? = m.jump_forward[i]?) ∧
    (∀ i : Nat, done.code[i]? ≠ some ']' → done.jump_backward[i]? = m.jump_backward[i]?) ∧
    ((loadCode (BrainfuckCompiler.new []) "[[]][]".toList).bind
        (fun first => loadCode first ['+'])).map
        (fun second => (second.code, second.jump_forward.take 6,
          second.jump_backward.take 6)) =
      .ok (['+'], [3, 2, 0, 0, 5, 0], [0, 0, 1, 0, 0, 4]) ∧
    (∀ cin fresh, loadCode (BrainfuckCompiler.new cin) text = .ok fresh →
      fresh.data_pointer = 0 ∧ fresh.instruction_pointer = 0 ∧
        fresh.memory = List.replicate 30000 0) ∧
    (∀ fuel, interpret fuel done =
      interpretLoop fuel
        { done with
            data_pointer := 0
            instruction_pointer := 0
            memory := List.replicate done.memory.length 0 }) := by
  have hfil : text.filter isInstruction = text.filter (fun c => c ∈ alphabet) := by
    apply List.filter_congr
    intro c _
    by_cases hc : c ∈ alphabet
    · simp [hc, (isInstruction_iff c).2 hc]
    · have : ¬ isInstruction c = true := fun h => hc ((isInstruction_iff c).1 h)
      simp [hc, this]
  have hcode : done.code = loadCodeFilter text := precomputeJumps_code _ _ h
  obtain ⟨h1, h2, h3, h4, h5⟩ := precomputeJumps_keeps_state _ _ h
  obtain ⟨f1, f2, f3, f4⟩ := precomputeJumps_frame _ _ h
  refine ⟨by rw [hcode, loadCodeFilter_eq_filter, hfil], h1, h2, h3, h4, h5, f1, f2,
    loadCode_resolved _ _ _ h, ?_, ?_, loadCode_leaves_stale_entries, ?_, ?_⟩
  · intro i hi
    rw [hcode] at hi
    exact f3 i hi
  · intro i hi
    rw [hcode] at hi
    exact f4 i hi
  · intro cin fresh hf
    obtain ⟨g1, g2, g3, _, _⟩ := precomputeJumps_keeps_state _ _ hf
    exact ⟨g2, g3, g1⟩
  · intro fuel
    unfold interpret
    rw [List.map_const']

/-- C14 (amended) at a concrete machine that has been used: data pointer 1,
instruction pointer 2, cell 0 holding 1, and the jump tables of `[]`. Loading `+`
leaves the data pointer at 1, the instruction pointer at 2, and the entry of
`jump_forward` at index 0 as it was. -/
theorem loadCode_effect_witness :
    ({ memory := (BrainfuckCompiler.new []).memory.set 0 1
       data_pointer := 1
       code := ['+']
       instruction_pointer := 2
       jump_forward := (BrainfuckCompiler.new []).jump_forward.set 0 1
       jump_backward := (BrainfuckCompiler.new []).jump_backward.set 1 0
       cin := []
       cout := [] } : BrainfuckCompiler).data_pointer = 1 ∧
      ({ memory := (BrainfuckCompiler.new []).memory.set 0 1
         data_pointer := 1
         code := ['+']
         instruction_pointer := 2
         jump_forward := (BrainfuckCompiler.new []).jump_forward.set 0 1
         jump_backward := (BrainfuckCompiler.new []).jump_backward.set 1 0
         cin := []
         cout := [] } : BrainfuckCompiler).instruction_pointer = 2 ∧
      ({ memory := (BrainfuckCompiler.new []).memory.set 0 1
         data_pointer := 1
         code := ['+']
         instruction_pointer := 2
         jump_forward := (BrainfuckCompiler.new []).jump_forward.set 0 1
         jump_backward := (BrainfuckCompiler.new []).jump_backward.set 1 0
         cin := []
         cout := [] } : BrainfuckCompiler).jump_forward[0]? =
        ((BrainfuckCompiler.new []).jump_forward.set 0 1)[0]? :=
  ⟨(loadCode_effect
      { memory := (BrainfuckCompiler.new []).memory.set 0 1
        data_pointer := 1
        code := ['[', ']']
        instruction_pointer := 2
        jump_forward := (BrainfuckCompiler.new []).jump_forward.set 0 1
        jump_backward := (BrainfuckCompiler.new []).jump_backward.set 1 0
        cin := []
        cout := [] }
      { memory := (BrainfuckCompiler.new []).memory.set 0 1
        data_pointer := 1
        code := ['+']
        instruction_pointer := 2
        jump_forward := (BrainfuckCompiler.new []).jump_forward.set 0 1
        jump_backward := (BrainfuckCompiler.new []).jump_backward.set 1 0
        cin := []
        cout := [] }
      ['+'] rfl).2.2.1,
    (loadCode_effect
      { memory := (BrainfuckCompiler.new []).memory.set 0 1
        data_pointer := 1
        code := ['[', ']']
        instruction_pointer := 2
        jump_forward := (BrainfuckCompiler.new []).jump_forward.set 0 1
        jump_backward := (BrainfuckCompiler.new []).jump_backward.set 1 0
        cin := []
        cout := [] }
      { memory := (BrainfuckCompiler.new []).memory.set 0 1
        data_pointer := 1
        code := ['+']
        instruction_pointer := 2
        jump_forward := (BrainfuckCompiler.new []).jump_forward.set 0 1
        jump_backward := (BrainfuckCompiler.new []).jump_backward.set 1 0
        cin := []
        cout := [] }
      ['+'] rfl).2.2.2.1,
    (loadCode_effect
      { memory := (BrainfuckCompiler.new []).memory.set 0 1
        data_pointer := 1
        code := ['[', ']']
        instruction_pointer := 2
        jump_forward := (BrainfuckCompiler.new []).jump_forward.set 0 1
        jump_backward := (BrainfuckCompiler.new []).jump_backward.set 1 0
        cin := []
        cout := [] }
      { memory := (BrainfuckCompiler.new []).memory.set 0 1
        data_pointer := 1
        code := ['+']
        instruction_pointer := 2
        jump_forward := (BrainfuckCompiler.new []).jump_forward.set 0 1
        jump_backward := (BrainfuckCompiler.new []).jump_backward.set 1 0
        cin := []
        cout := [] }
      ['+'] rfl).2.2.2.2.2.2.2.2.2.1 0 (by decide)⟩

end DevBFX
